import Mathlib

/-!
# The drawing state machine and history engine of `main.go`

A shallow embedding of the Go program `src/main.go`: the `DrawingApp` record, the six
pointer/touch handlers, `createShapePoints`, `saveState`, `undo`, `redo`, `clear` and the three
setters, followed by theorems about them.

The program is embedded twice.

* In the first embedding a Go slice is the list of its elements; `append`, `make` + `copy` and
  slice expressions become list operations.  Most theorems are stated on it.
* In the second embedding (namespace `Heap`) a slice is what it is in Go, a pointer into a
  backing array with a length and a capacity; `append` writes in place within the capacity,
  `copy` of a `[]Shape` copies slice headers, and arrays can be shared.  `Heap.read` reads a
  state of the second embedding as a state of the first, and `Heap.reachable_refines` shows
  that every run of the second is a run of the first: no handler ever writes to an array
  through one slice that is read through another.

Further conventions.

* `float64` is an abstract carrier `F` with the operations of the class `GoFloat`; every theorem
  holds for every interpretation of these operations.  Only the `"circle"` branch of
  `createShapePoints` performs arithmetic; all other paths copy coordinates around.
* `int` is `Int` (the history cursor never leaves `-1 .. 49`).
* A handler that can hit a Go run-time panic (a slice bound or an index out of range) returns
  `Option`; `none` stands for the panic.
* The calls on the JavaScript canvas (`render`, `drawShape`, `drawGrid`, `drawPreview`,
  `preventDefault`) only write to the browser and never to a field of `DrawingApp`; they are left
  out of the state transformers.  The position computed by `getMousePos` / `getTouchPos` is the
  argument carried by the event.
-/

namespace WasmWebgl

/-- Go's `float64` together with the operations `main.go` applies to it: conversion from an
integer (`float64(i)` and the constants `0`, `2`, `2.0`), `+ - * /`, `math.Abs`, `math.Cos`,
`math.Sin` and the constant `math.Pi`. -/
class GoFloat (F : Type) where
  ofInt : Int → F
  add : F → F → F
  sub : F → F → F
  mul : F → F → F
  div : F → F → F
  abs : F → F
  cos : F → F
  sin : F → F
  pi : F

/-- The intended interpretation: IEEE 754 binary64. -/
instance : GoFloat Float where
  ofInt := Float.ofInt
  add := Float.add
  sub := Float.sub
  mul := Float.mul
  div := Float.div
  abs := Float.abs
  cos := Float.cos
  sin := Float.sin
  pi := 3.141592653589793

/-- An interpretation over the integers, exact on integer coordinates, used to evaluate the
handlers on concrete gestures in modes that copy coordinates (`"draw"`, `"line"`, `"rect"`).
Its `cos` and `sin` are never called on those paths. -/
instance : GoFloat Int where
  ofInt := id
  add := Int.add
  sub := Int.sub
  mul := Int.mul
  div := Int.tdiv
  abs := fun x => (Int.natAbs x : Int)
  cos := fun _ => 1
  sin := fun _ => 0
  pi := 3

/-- `type Point struct { X, Y float64 }` -/
structure Point (F : Type) where
  X : F
  Y : F
deriving DecidableEq, Repr

/-- `type Shape struct { Points []Point; Color string; Width float64 }` -/
structure Shape (F : Type) where
  Points : List (Point F)
  Color : String
  Width : F
deriving DecidableEq, Repr

/-- `type DrawingApp struct` without the JavaScript handles `canvas`, `ctx`, `gl`. -/
structure DrawingApp (F : Type) where
  isDrawing : Bool
  shapes : List (Shape F)
  current : Shape F
  history : List (List (Shape F))
  historyIndex : Int
  color : String
  lineWidth : F
  mode : String
  startPoint : Point F
deriving DecidableEq, Repr

section Handlers

variable {F : Type} [GoFloat F]

/-- The `DrawingApp` built by `initWasmDrawing`; the fields the composite literal omits hold
Go's zero values. -/
def initWasmDrawing : DrawingApp F :=
  { isDrawing := false
    shapes := []
    current := { Points := [], Color := "", Width := GoFloat.ofInt 0 }
    history := []
    historyIndex := -1
    color := "#000000"
    lineWidth := GoFloat.ofInt 2
    mode := "draw"
    startPoint := { X := GoFloat.ofInt 0, Y := GoFloat.ofInt 0 } }

/-- `func (a *DrawingApp) handleMouseDown`, with `pos = a.getMousePos(event)`. -/
def handleMouseDown (a : DrawingApp F) (pos : Point F) : DrawingApp F :=
  { a with
    isDrawing := true
    startPoint := pos
    current := { Points := [pos], Color := a.color, Width := a.lineWidth } }

/-- `func (a *DrawingApp) handleMouseMove`, with `pos = a.getMousePos(event)`. -/
def handleMouseMove (a : DrawingApp F) (pos : Point F) : DrawingApp F :=
  if !a.isDrawing then a
  else if a.mode = "draw" then
    { a with current := { a.current with Points := a.current.Points ++ [pos] } }
  else a

/-- One iteration of the loop of the `"circle"` case: the point at step `i`. -/
def circlePoint (cx cy rx ry : F) (i : Nat) : Point F :=
  let angle : F :=
    GoFloat.div
      (GoFloat.mul (GoFloat.mul (GoFloat.ofInt (i : Int)) (GoFloat.ofInt 2)) GoFloat.pi)
      (GoFloat.ofInt 50)
  { X := GoFloat.add cx (GoFloat.mul rx (GoFloat.cos angle))
    Y := GoFloat.add cy (GoFloat.mul ry (GoFloat.sin angle)) }

/-- `func (a *DrawingApp) createShapePoints(start, end Point) []Point` -/
def createShapePoints (a : DrawingApp F) (start end_ : Point F) : List (Point F) :=
  if a.mode = "line" then [start, end_]
  else if a.mode = "rect" then
    [start, { X := end_.X, Y := start.Y }, end_, { X := start.X, Y := end_.Y }, start]
  else if a.mode = "circle" then
    let cx : F := GoFloat.div (GoFloat.add start.X end_.X) (GoFloat.ofInt 2)
    let cy : F := GoFloat.div (GoFloat.add start.Y end_.Y) (GoFloat.ofInt 2)
    let rx : F := GoFloat.div (GoFloat.abs (GoFloat.sub end_.X start.X)) (GoFloat.ofInt 2)
    let ry : F := GoFloat.div (GoFloat.abs (GoFloat.sub end_.Y start.Y)) (GoFloat.ofInt 2)
    (List.range (50 + 1)).foldl (fun points i => points ++ [circlePoint cx cy rx ry i]) []
  else [start, end_]

/-- `func (a *DrawingApp) saveState()`.  The slice expression `a.history[:a.historyIndex+1]`
panics when the bound is negative; a bound above `len(a.history)` (which Go accepts up to the
capacity, exposing stale array cells) is outside this model and also yields `none`. -/
def saveState (a : DrawingApp F) : Option (DrawingApp F) :=
  if 0 ≤ a.historyIndex + 1 ∧ a.historyIndex + 1 ≤ (a.history.length : Int) then
    let history := a.history.take (a.historyIndex + 1).toNat
    let stateCopy : List (Shape F) :=
      a.shapes.map (fun shape =>
        { Points := shape.Points.map (fun p => p), Color := shape.Color, Width := shape.Width })
    let history := history ++ [stateCopy]
    let historyIndex := a.historyIndex + 1
    if history.length > 50 then
      some { a with history := history.drop 1, historyIndex := historyIndex - 1 }
    else
      some { a with history := history, historyIndex := historyIndex }
  else none

/-- `func (a *DrawingApp) handleMouseUp`, with `pos = a.getMousePos(event)`. -/
def handleMouseUp (a : DrawingApp F) (pos : Point F) : Option (DrawingApp F) :=
  if !a.isDrawing then some a
  else
    let current : Shape F :=
      if a.mode ≠ "draw" then
        { a.current with Points := createShapePoints a a.startPoint pos }
      else a.current
    saveState { a with isDrawing := false, current := current, shapes := a.shapes ++ [current] }

/-- `func (a *DrawingApp) handleTouchStart`, with `pos = a.getTouchPos(event)`. -/
def handleTouchStart (a : DrawingApp F) (pos : Point F) : DrawingApp F :=
  { a with
    isDrawing := true
    startPoint := pos
    current := { Points := [pos], Color := a.color, Width := a.lineWidth } }

/-- `func (a *DrawingApp) handleTouchMove`, with `pos = a.getTouchPos(event)`. -/
def handleTouchMove (a : DrawingApp F) (pos : Point F) : DrawingApp F :=
  if !a.isDrawing then a
  else if a.mode = "draw" then
    { a with current := { a.current with Points := a.current.Points ++ [pos] } }
  else a

/-- `func (a *DrawingApp) handleTouchEnd`; the handler reads no position from the event. -/
def handleTouchEnd (a : DrawingApp F) : Option (DrawingApp F) :=
  if !a.isDrawing then some a
  else
    let current : Shape F :=
      if h : a.mode ≠ "draw" ∧ a.current.Points.length > 0 then
        let lastPos := a.current.Points.getLast (List.ne_nil_of_length_pos h.2)
        { a.current with Points := createShapePoints a a.startPoint lastPos }
      else a.current
    saveState { a with isDrawing := false, current := current, shapes := a.shapes ++ [current] }

/-- `func (a *DrawingApp) undo`.  `a.history[a.historyIndex]` panics when the index is not below
`len(a.history)`. -/
def undo (a : DrawingApp F) : Option (DrawingApp F) :=
  if a.historyIndex > 0 then
    let historyIndex := a.historyIndex - 1
    match a.history[historyIndex.toNat]? with
    | some entry => some { a with historyIndex := historyIndex, shapes := entry.map (fun s => s) }
    | none => none
  else some a

/-- `func (a *DrawingApp) redo`.  `a.history[a.historyIndex]` panics when the index is
negative. -/
def redo (a : DrawingApp F) : Option (DrawingApp F) :=
  if a.historyIndex < (a.history.length : Int) - 1 then
    let historyIndex := a.historyIndex + 1
    if historyIndex < 0 then none
    else
      match a.history[historyIndex.toNat]? with
      | some entry =>
        some { a with historyIndex := historyIndex, shapes := entry.map (fun s => s) }
      | none => none
  else some a

/-- `func (a *DrawingApp) clear` -/
def clear (a : DrawingApp F) : Option (DrawingApp F) :=
  saveState { a with shapes := [] }

/-- `func (a *DrawingApp) setColor`; `arg` is `args[0].String()` when `len(args) > 0`. -/
def setColor (a : DrawingApp F) (arg : Option String) : DrawingApp F :=
  match arg with
  | some c => { a with color := c }
  | none => a

/-- `func (a *DrawingApp) setWidth`; `arg` is `args[0].Float()` when `len(args) > 0`. -/
def setWidth (a : DrawingApp F) (arg : Option F) : DrawingApp F :=
  match arg with
  | some w => { a with lineWidth := w }
  | none => a

/-- `func (a *DrawingApp) setMode`; `arg` is `args[0].String()` when `len(args) > 0`. -/
def setMode (a : DrawingApp F) (arg : Option String) : DrawingApp F :=
  match arg with
  | some m => { a with mode := m }
  | none => a

end Handlers

/-- The callbacks `setupEventListeners` registers, each with the data its handler reads from
the JavaScript arguments. -/
inductive Event (F : Type) where
  | mouseDown (pos : Point F)
  | mouseMove (pos : Point F)
  | mouseUp (pos : Point F)
  | touchStart (pos : Point F)
  | touchMove (pos : Point F)
  | touchEnd
  | undo
  | redo
  | clear
  | setColor (arg : Option String)
  | setWidth (arg : Option F)
  | setMode (arg : Option String)
deriving DecidableEq, Repr

section Machine

variable {F : Type} [GoFloat F]

/-- Dispatch of one event to its handler (the registrations of `setupEventListeners`). -/
def step (a : DrawingApp F) : Event F → Option (DrawingApp F)
  | .mouseDown pos => some (handleMouseDown a pos)
  | .mouseMove pos => some (handleMouseMove a pos)
  | .mouseUp pos => handleMouseUp a pos
  | .touchStart pos => some (handleTouchStart a pos)
  | .touchMove pos => some (handleTouchMove a pos)
  | .touchEnd => handleTouchEnd a
  | .undo => undo a
  | .redo => redo a
  | .clear => clear a
  | .setColor arg => some (setColor a arg)
  | .setWidth arg => some (setWidth a arg)
  | .setMode arg => some (setMode a arg)

/-- Events are handled one after the other, each to completion; a panic ends the run. -/
def run (a : DrawingApp F) : List (Event F) → Option (DrawingApp F)
  | [] => some a
  | e :: es => (step a e).bind (fun a' => run a' es)

end Machine

section Canvas

variable {F : Type} [GoFloat F]

/-- A Go value passed to the 2D context through `syscall/js`: a string, a `float64` or an
`int`. -/
inductive JsArg (F : Type) where
  | str (s : String)
  | num (x : F)
  | int (n : Int)
deriving DecidableEq, Repr

/-- One operation on `a.ctx`: `a.ctx.Set(prop, value)` or `a.ctx.Call(method, args...)`. -/
inductive CanvasOp (F : Type) where
  | Set (prop : String) (value : JsArg F)
  | Call (method : String) (args : List (JsArg F))
deriving DecidableEq, Repr

/-- `func (a *DrawingApp) drawShape(shape Shape)`: the operations it performs on `a.ctx`, in
order. -/
def drawShape (shape : Shape F) : List (CanvasOp F) :=
  match shape.Points with
  | [] => []
  | p0 :: rest =>
    [CanvasOp.Set "strokeStyle" (JsArg.str shape.Color),
     CanvasOp.Set "lineWidth" (JsArg.num shape.Width),
     CanvasOp.Set "lineCap" (JsArg.str "round"),
     CanvasOp.Set "lineJoin" (JsArg.str "round"),
     CanvasOp.Call "beginPath" [],
     CanvasOp.Call "moveTo" [JsArg.num p0.X, JsArg.num p0.Y]] ++
    rest.foldl (fun ops p => ops ++ [CanvasOp.Call "lineTo" [JsArg.num p.X, JsArg.num p.Y]]) [] ++
    [CanvasOp.Call "stroke" []]

/-- `func (a *DrawingApp) drawGrid()`; the loop variables run over the multiples of 50 below
800 and below 600. -/
def drawGrid : List (CanvasOp F) :=
  let ops : List (CanvasOp F) :=
    [CanvasOp.Set "strokeStyle" (JsArg.str "#f0f0f0"), CanvasOp.Set "lineWidth" (JsArg.int 1)]
  let ops := ((List.range 800).filter (fun x => x % 50 = 0)).foldl
    (fun ops x => ops ++
      [CanvasOp.Call "beginPath" [],
       CanvasOp.Call "moveTo" [JsArg.int x, JsArg.int 0],
       CanvasOp.Call "lineTo" [JsArg.int x, JsArg.int 600],
       CanvasOp.Call "stroke" []]) ops
  ((List.range 600).filter (fun y => y % 50 = 0)).foldl
    (fun ops y => ops ++
      [CanvasOp.Call "beginPath" [],
       CanvasOp.Call "moveTo" [JsArg.int 0, JsArg.int y],
       CanvasOp.Call "lineTo" [JsArg.int 800, JsArg.int y],
       CanvasOp.Call "stroke" []]) ops

/-- `func (a *DrawingApp) render()`: clear, grid, then every committed shape in order. -/
def render (a : DrawingApp F) : List (CanvasOp F) :=
  let ops : List (CanvasOp F) :=
    [CanvasOp.Set "fillStyle" (JsArg.str "#ffffff"),
     CanvasOp.Call "fillRect" [JsArg.int 0, JsArg.int 0, JsArg.int 800, JsArg.int 600]]
  let ops := ops ++ drawGrid
  a.shapes.foldl (fun ops shape => ops ++ drawShape shape) ops

/-- `func (a *DrawingApp) drawPreview(endPos Point)` -/
def drawPreview (a : DrawingApp F) (endPos : Point F) : List (CanvasOp F) :=
  let preview : Shape F :=
    { Points := createShapePoints a a.startPoint endPos
      Color := a.color
      Width := a.lineWidth }
  drawShape preview

/-- The operations `handleMouseMove` performs on `a.ctx`, `a` being the state on entry. -/
def handleMouseMoveOps (a : DrawingApp F) (pos : Point F) : List (CanvasOp F) :=
  if !a.isDrawing then []
  else if a.mode = "draw" then
    let a' : DrawingApp F :=
      { a with current := { a.current with Points := a.current.Points ++ [pos] } }
    render a' ++ drawShape a'.current
  else render a ++ drawPreview a pos

/-- The operations `handleTouchMove` performs on `a.ctx`, `a` being the state on entry. -/
def handleTouchMoveOps (a : DrawingApp F) (pos : Point F) : List (CanvasOp F) :=
  if !a.isDrawing then []
  else if a.mode = "draw" then
    let a' : DrawingApp F :=
      { a with current := { a.current with Points := a.current.Points ++ [pos] } }
    render a' ++ drawShape a'.current
  else render a ++ drawPreview a pos

end Canvas

section Specification

variable {F : Type} [GoFloat F]

/-- Element-wise equality of two shape lists: the same length and, position by position, the
same point sequence, colour and width. -/
def ShapesEq (xs ys : List (Shape F)) : Prop :=
  List.Forall₂ (fun s t => s.Points = t.Points ∧ s.Color = t.Color ∧ s.Width = t.Width) xs ys

/-- The history written by `saveState` before the capacity check: the entries up to the cursor
followed by the copy of the live shapes. -/
def pushed (a : DrawingApp F) : List (List (Shape F)) :=
  a.history.take (a.historyIndex + 1).toNat ++ [a.shapes]

/-- The consistency of cursor, log and live list that every handler maintains. -/
def HistoryInv (a : DrawingApp F) : Prop :=
  -1 ≤ a.historyIndex ∧ a.historyIndex < (a.history.length : Int) ∧ a.history.length ≤ 50 ∧
  (a.historyIndex = -1 → a.history = [] ∧ a.shapes = []) ∧
  (0 ≤ a.historyIndex → a.history[a.historyIndex.toNat]? = some a.shapes)

/-- Whether the handler of event `e`, entered in state `a`, reaches its call of `saveState`:
`clear` always does, `handleMouseUp` and `handleTouchEnd` do unless they return at the
`!a.isDrawing` guard. -/
def callsSaveState (a : DrawingApp F) : Event F → Bool
  | .mouseUp _ => a.isDrawing
  | .touchEnd => a.isDrawing
  | .clear => true
  | _ => false

/-- Number of `saveState` calls made while the events are handled from state `a`. -/
def snapshotsTaken (a : DrawingApp F) : List (Event F) → Nat
  | [] => 0
  | e :: es =>
    (if callsSaveState a e then 1 else 0) +
      (match step a e with
       | some a' => snapshotsTaken a' es
       | none => 0)

/-- The program performing one `saveState` call per element of `lives`, the live list being
replaced by that element before the call (any edit of `a.shapes` between two snapshots). -/
def snapshotAll (a : DrawingApp F) : List (List (Shape F)) → Option (DrawingApp F)
  | [] => some a
  | live :: rest => (saveState { a with shapes := live }).bind (fun a' => snapshotAll a' rest)

/-- The handler `f` invoked `n` times in a row. -/
def times (f : DrawingApp F → Option (DrawingApp F)) : Nat → DrawingApp F → Option (DrawingApp F)
  | 0, a => some a
  | n + 1, a => (f a).bind (times f n)

/-- State `a` with the cursor moved to `k` and the live list replaced by entry `k`: what `undo`
and `redo` install. -/
def cursorAt (a : DrawingApp F) (k : Int) : DrawingApp F :=
  { a with historyIndex := k, shapes := (a.history[k.toNat]?).getD [] }

/-- The events of one gesture: a start at `p0`, moves at `ps` in order, an end at `q`; all of
them touch events when `touch` is set, mouse events otherwise (`touchend` carries no position
that the handler reads). -/
def gesture (touch : Bool) (p0 : Point F) (ps : List (Point F)) (q : Point F) : List (Event F) :=
  (if touch then Event.touchStart p0 else Event.mouseDown p0) ::
    (ps.map (fun p => if touch then Event.touchMove p else Event.mouseMove p) ++
      [if touch then Event.touchEnd else Event.mouseUp q])

/-- The shape a gesture commits, as the handlers compute it: in mode `"draw"` the start point
followed by the move positions; otherwise `createShapePoints` from the start point to the
position of the mouse-up event or, for `handleTouchEnd`, to the last point of `current.Points`,
which is still the start point. -/
def committedShape (a : DrawingApp F) (touch : Bool) (p0 : Point F) (ps : List (Point F))
    (q : Point F) : Shape F :=
  { Points :=
      if a.mode = "draw" then p0 :: ps
      else if touch then createShapePoints a p0 p0
      else createShapePoints a p0 q
    Color := a.color
    Width := a.lineWidth }

/-- Four one-point strokes drawn with the mouse, then one `undo`: the live list holds three
committed shapes while the log still holds the fourth snapshot after the cursor. -/
def fourStrokesThenUndo : List (Event Int) :=
  [.mouseDown ⟨1, 1⟩, .mouseUp ⟨1, 1⟩, .mouseDown ⟨2, 2⟩, .mouseUp ⟨2, 2⟩,
   .mouseDown ⟨3, 3⟩, .mouseUp ⟨3, 3⟩, .mouseDown ⟨4, 4⟩, .mouseUp ⟨4, 4⟩, .undo]

/-- Two one-point strokes drawn with the mouse, then one `undo`. -/
def twoStrokesThenUndo : List (Event Int) :=
  [.mouseDown ⟨1, 1⟩, .mouseUp ⟨1, 1⟩, .mouseDown ⟨2, 2⟩, .mouseUp ⟨2, 2⟩, .undo]

/-- Three one-point strokes drawn with the mouse. -/
def threeStrokes : List (Event Int) :=
  [.mouseDown ⟨1, 1⟩, .mouseUp ⟨1, 1⟩, .mouseDown ⟨2, 2⟩, .mouseUp ⟨2, 2⟩,
   .mouseDown ⟨3, 3⟩, .mouseUp ⟨3, 3⟩]

/-- Whether an event can arrive between the start and the end of a gesture without ending it
or changing the mode: a move, `setColor` or `setWidth`. -/
def midGesture : Event F → Bool
  | .mouseMove _ => true
  | .touchMove _ => true
  | .setColor _ => true
  | .setWidth _ => true
  | _ => false

/-- The positions of the move events among `evs`, in order. -/
def movePositions : List (Event F) → List (Point F)
  | [] => []
  | .mouseMove p :: es => p :: movePositions es
  | .touchMove p :: es => p :: movePositions es
  | _ :: es => movePositions es

/-- A freehand stroke in progress: a mouse-down at (1,1) and a move to (2,2), no mouse-up. -/
def strokeInProgress : List (Event Int) :=
  [.mouseDown ⟨1, 1⟩, .mouseMove ⟨2, 2⟩]

/-- A rectangle drag in progress: mode `"rect"`, mouse-down at (0,0), no mouse-up. -/
def rectDragInProgress : DrawingApp Int :=
  handleMouseDown (setMode (initWasmDrawing : DrawingApp Int) (some "rect")) ⟨0, 0⟩

/-- A line dragged by touch from (0,0) to (100,50) in mode `"line"`. -/
def touchLine : List (Event Int) :=
  [.setMode (some "line"), .touchStart ⟨0, 0⟩, .touchMove ⟨100, 50⟩, .touchEnd]

/-- The same line dragged with the mouse. -/
def mouseLine : List (Event Int) :=
  [.setMode (some "line"), .mouseDown ⟨0, 0⟩, .mouseMove ⟨100, 50⟩, .mouseUp ⟨100, 50⟩]

/-- A mouse stroke during which the session colour and width are changed. -/
def strokeWithStyleChange : List (Event Int) :=
  [.mouseMove ⟨2, 2⟩, .setColor (some "#ff0000"), .setWidth (some 9), .mouseMove ⟨3, 3⟩]

end Specification

/-! ## The same program with slices as pointers into backing arrays

The definitions above read a slice as the list of its elements.  The definitions of this part
keep what Go keeps: a slice is a pointer into a backing array with a length and a capacity,
`append` writes in place while the capacity lasts and moves to a new array otherwise, and
copying a `Shape` copies the slice header of `Points`, not the points. -/

/-- A Go slice value: a pointer to cell `off` of backing array `arr`, a length and a
capacity. -/
structure Slice where
  arr : Nat
  off : Nat
  len : Nat
  cap : Nat
deriving DecidableEq, Repr

section Store

variable {α : Type}

/-- Backing array `k` of a store; a store lists the arrays of one element type in allocation
order. -/
def arrayAt (m : List (List α)) (k : Nat) : List α := m.getD k []

/-- The elements `s[0], ..., s[len(s)-1]` of a slice. -/
def cells (m : List (List α)) (s : Slice) : List α :=
  ((arrayAt m s.arr).drop s.off).take s.len

/-- The index expression `s[i]`, which panics unless `i < len(s)`. -/
def index (m : List (List α)) (s : Slice) (i : Nat) : Option α :=
  if i < s.len then (arrayAt m s.arr)[s.off + i]? else none

/-- A new backing array holding `c` (from `make` or a composite literal) and the slice over
all of it. -/
def alloc (m : List (List α)) (c : List α) : List (List α) × Slice :=
  (m ++ [c], { arr := m.length, off := 0, len := c.length, cap := c.length })

/-- The assignment of `v` to cell `i` of backing array `k`. -/
def poke (m : List (List α)) (k i : Nat) (v : α) : List (List α) :=
  m.set k ((arrayAt m k).set i v)

/-- Go's `append(s, x)`: within the capacity the cell after the last element is overwritten;
otherwise the elements move to a new array, whose capacity `grow` chooses (at least the new
length), the spare cells holding the zero value. -/
def appendSlice (grow : Nat → Nat → Nat) (zero : α) (m : List (List α)) (s : Slice) (x : α) :
    List (List α) × Slice :=
  if s.len < s.cap then
    (poke m s.arr (s.off + s.len) x, { s with len := s.len + 1 })
  else
    (m ++ [cells m s ++ x ::
        List.replicate (max (s.len + 1) (grow s.cap (s.len + 1)) - (s.len + 1)) zero],
      { arr := m.length, off := 0, len := s.len + 1,
        cap := max (s.len + 1) (grow s.cap (s.len + 1)) })

/-- Go's `copy(dst, src)`: the first `min(len(dst), len(src))` elements of `src` overwrite the
first cells of `dst`. -/
def copySlice (m : List (List α)) (dst src : Slice) : List (List α) :=
  m.set dst.arr
    ((arrayAt m dst.arr).take dst.off ++ (cells m src).take (min dst.len src.len) ++
      (arrayAt m dst.arr).drop (dst.off + ((cells m src).take (min dst.len src.len)).length))

/-- The slice `s` lies within an allocated backing array of the store. -/
def Valid (m : List (List α)) (s : Slice) : Prop :=
  s.arr < m.length ∧ s.off + s.cap ≤ (arrayAt m s.arr).length ∧ s.len ≤ s.cap

/-- Store `m'` has all arrays of `m`, those selected by `keep` with unchanged contents. -/
def Ext (keep : Nat → Prop) (m m' : List (List α)) : Prop :=
  m.length ≤ m'.length ∧ ∀ k, k < m.length → keep k → arrayAt m' k = arrayAt m k

end Store

namespace Heap

/-- `type Shape struct`, the field `Points` being a slice header. -/
structure Shape (F : Type) where
  Points : Slice
  Color : String
  Width : F
deriving DecidableEq, Repr

/-- The backing arrays of the three slice types of the program: `[]Point`, `[]Shape` and
`[][]Shape`. -/
structure Memory (F : Type) where
  points : List (List (Point F))
  shapes : List (List (Shape F))
  entries : List (List Slice)
deriving DecidableEq, Repr

/-- `type DrawingApp struct` with its slices as slice headers, together with the memory they
point into. -/
structure DrawingApp (F : Type) where
  mem : Memory F
  isDrawing : Bool
  shapes : Slice
  current : Shape F
  history : Slice
  historyIndex : Int
  color : String
  lineWidth : F
  mode : String
  startPoint : Point F
deriving DecidableEq, Repr

/-- The nil slice. -/
def nilSlice : Slice := { arr := 0, off := 0, len := 0, cap := 0 }

section Handlers

variable {F : Type} [GoFloat F]

/-- The zero value of `Point`. -/
def zeroPoint : Point F := { X := GoFloat.ofInt 0, Y := GoFloat.ofInt 0 }

/-- The zero value of `Shape`. -/
def zeroShape : Shape F := { Points := nilSlice, Color := "", Width := GoFloat.ofInt 0 }

/-- `initWasmDrawing`: `[]Shape{}` and `[][]Shape{}` are empty arrays of their own. -/
def initWasmDrawing : DrawingApp F :=
  { mem := { points := [], shapes := [[]], entries := [[]] }
    isDrawing := false
    shapes := { arr := 0, off := 0, len := 0, cap := 0 }
    current := zeroShape
    history := { arr := 0, off := 0, len := 0, cap := 0 }
    historyIndex := -1
    color := "#000000"
    lineWidth := GoFloat.ofInt 2
    mode := "draw"
    startPoint := zeroPoint }

/-- `handleMouseDown`: `[]Point{pos}` is a new array. -/
def handleMouseDown (a : DrawingApp F) (pos : Point F) : DrawingApp F :=
  { a with
    mem := { a.mem with points := (alloc a.mem.points [pos]).1 }
    isDrawing := true
    startPoint := pos
    current := { Points := (alloc a.mem.points [pos]).2, Color := a.color,
                 Width := a.lineWidth } }

/-- `handleMouseMove` -/
def handleMouseMove (grow : Nat → Nat → Nat) (a : DrawingApp F) (pos : Point F) :
    DrawingApp F :=
  if !a.isDrawing then a
  else if a.mode = "draw" then
    { a with
      mem := { a.mem with
        points := (appendSlice grow zeroPoint a.mem.points a.current.Points pos).1 }
      current := { a.current with
        Points := (appendSlice grow zeroPoint a.mem.points a.current.Points pos).2 } }
  else a

/-- `createShapePoints`: the new point store and the slice returned. -/
def createShapePoints (grow : Nat → Nat → Nat) (a : DrawingApp F) (start end_ : Point F) :
    List (List (Point F)) × Slice :=
  if a.mode = "line" then alloc a.mem.points [start, end_]
  else if a.mode = "rect" then
    alloc a.mem.points
      [start, { X := end_.X, Y := start.Y }, end_, { X := start.X, Y := end_.Y }, start]
  else if a.mode = "circle" then
    let cx : F := GoFloat.div (GoFloat.add start.X end_.X) (GoFloat.ofInt 2)
    let cy : F := GoFloat.div (GoFloat.add start.Y end_.Y) (GoFloat.ofInt 2)
    let rx : F := GoFloat.div (GoFloat.abs (GoFloat.sub end_.X start.X)) (GoFloat.ofInt 2)
    let ry : F := GoFloat.div (GoFloat.abs (GoFloat.sub end_.Y start.Y)) (GoFloat.ofInt 2)
    (List.range (50 + 1)).foldl
      (fun r i => appendSlice grow zeroPoint r.1 r.2 (circlePoint cx cy rx ry i))
      (alloc a.mem.points [])
  else alloc a.mem.points [start, end_]

/-- The body of the loop of `saveState` for the indices `is`: `shape := src[i]`, a new point
array of the same length, `copy`, and the assignment to `dst[i]`. -/
def copyLoop (mem : Memory F) (src dst : Slice) : List Nat → Option (Memory F)
  | [] => some mem
  | i :: rest =>
    match index mem.shapes src i with
    | none => none
    | some shape =>
      let made := alloc mem.points (List.replicate shape.Points.len zeroPoint)
      let points := copySlice made.1 made.2 shape.Points
      if i < dst.len then
        copyLoop
          { mem with
            points := points
            shapes := poke mem.shapes dst.arr (dst.off + i)
              { Points := made.2, Color := shape.Color, Width := shape.Width } }
          src dst rest
      else none

/-- The deep copy of `saveState`: `stateCopy := make([]Shape, len(a.shapes))` followed by the
loop over `a.shapes`; the new memory and `stateCopy`. -/
def copyShapes (mem : Memory F) (src : Slice) : Option (Memory F × Slice) :=
  (copyLoop { mem with shapes := (alloc mem.shapes (List.replicate src.len zeroShape)).1 }
    src (alloc mem.shapes (List.replicate src.len zeroShape)).2 (List.range src.len)).map
    (fun mem' => (mem', (alloc mem.shapes (List.replicate src.len zeroShape)).2))

/-- `saveState`.  The slice expression `a.history[:a.historyIndex+1]` panics unless the bound
lies between 0 and `cap(a.history)`. -/
def saveState (grow : Nat → Nat → Nat) (a : DrawingApp F) : Option (DrawingApp F) :=
  if 0 ≤ a.historyIndex + 1 ∧ a.historyIndex + 1 ≤ (a.history.cap : Int) then
    let history : Slice := { a.history with len := (a.historyIndex + 1).toNat }
    match copyShapes a.mem a.shapes with
    | none => none
    | some (mem, stateCopy) =>
      let pushed := appendSlice grow nilSlice mem.entries history stateCopy
      let historyIndex := a.historyIndex + 1
      if pushed.2.len > 50 then
        some { a with
          mem := { mem with entries := pushed.1 }
          history := { arr := pushed.2.arr, off := pushed.2.off + 1, len := pushed.2.len - 1,
                       cap := pushed.2.cap - 1 }
          historyIndex := historyIndex - 1 }
      else
        some { a with
          mem := { mem with entries := pushed.1 }
          history := pushed.2
          historyIndex := historyIndex }
  else none

/-- The common tail of `handleMouseUp` and `handleTouchEnd`: `a.isDrawing = false`,
`a.shapes = append(a.shapes, a.current)`, `a.saveState()`. -/
def commit (grow : Nat → Nat → Nat) (a : DrawingApp F) : Option (DrawingApp F) :=
  saveState grow
    { a with
      isDrawing := false
      mem := { a.mem with shapes := (appendSlice grow zeroShape a.mem.shapes a.shapes a.current).1 }
      shapes := (appendSlice grow zeroShape a.mem.shapes a.shapes a.current).2 }

/-- `handleMouseUp` -/
def handleMouseUp (grow : Nat → Nat → Nat) (a : DrawingApp F) (pos : Point F) :
    Option (DrawingApp F) :=
  if !a.isDrawing then some a
  else if a.mode ≠ "draw" then
    commit grow
      { a with
        mem := { a.mem with points := (createShapePoints grow a a.startPoint pos).1 }
        current := { a.current with Points := (createShapePoints grow a a.startPoint pos).2 } }
  else commit grow a

/-- `handleTouchStart` -/
def handleTouchStart (a : DrawingApp F) (pos : Point F) : DrawingApp F :=
  { a with
    mem := { a.mem with points := (alloc a.mem.points [pos]).1 }
    isDrawing := true
    startPoint := pos
    current := { Points := (alloc a.mem.points [pos]).2, Color := a.color,
                 Width := a.lineWidth } }

/-- `handleTouchMove` -/
def handleTouchMove (grow : Nat → Nat → Nat) (a : DrawingApp F) (pos : Point F) :
    DrawingApp F :=
  if !a.isDrawing then a
  else if a.mode = "draw" then
    { a with
      mem := { a.mem with
        points := (appendSlice grow zeroPoint a.mem.points a.current.Points pos).1 }
      current := { a.current with
        Points := (appendSlice grow zeroPoint a.mem.points a.current.Points pos).2 } }
  else a

/-- `handleTouchEnd` -/
def handleTouchEnd (grow : Nat → Nat → Nat) (a : DrawingApp F) : Option (DrawingApp F) :=
  if !a.isDrawing then some a
  else if a.mode ≠ "draw" ∧ a.current.Points.len > 0 then
    match index a.mem.points a.current.Points (a.current.Points.len - 1) with
    | none => none
    | some lastPos =>
      commit grow
        { a with
          mem := { a.mem with points := (createShapePoints grow a a.startPoint lastPos).1 }
          current := { a.current with
            Points := (createShapePoints grow a a.startPoint lastPos).2 } }
  else commit grow a

/-- `undo`: `make([]Shape, n)` is a new array, `copy` fills it with the `Shape` values of the
entry, slice headers included. -/
def undo (a : DrawingApp F) : Option (DrawingApp F) :=
  if a.historyIndex > 0 then
    let historyIndex := a.historyIndex - 1
    match index a.mem.entries a.history historyIndex.toNat with
    | none => none
    | some entry =>
      let made := alloc a.mem.shapes (List.replicate entry.len zeroShape)
      some { a with
        mem := { a.mem with shapes := copySlice made.1 made.2 entry }
        historyIndex := historyIndex
        shapes := made.2 }
  else some a

/-- `redo` -/
def redo (a : DrawingApp F) : Option (DrawingApp F) :=
  if a.historyIndex < (a.history.len : Int) - 1 then
    let historyIndex := a.historyIndex + 1
    if historyIndex < 0 then none
    else
      match index a.mem.entries a.history historyIndex.toNat with
      | none => none
      | some entry =>
        let made := alloc a.mem.shapes (List.replicate entry.len zeroShape)
        some { a with
          mem := { a.mem with shapes := copySlice made.1 made.2 entry }
          historyIndex := historyIndex
          shapes := made.2 }
  else some a

/-- `clear`: `[]Shape{}` is a new empty array. -/
def clear (grow : Nat → Nat → Nat) (a : DrawingApp F) : Option (DrawingApp F) :=
  saveState grow
    { a with
      mem := { a.mem with shapes := (alloc a.mem.shapes []).1 }
      shapes := (alloc a.mem.shapes []).2 }

/-- `setColor` -/
def setColor (a : DrawingApp F) (arg : Option String) : DrawingApp F :=
  match arg with
  | some c => { a with color := c }
  | none => a

/-- `setWidth` -/
def setWidth (a : DrawingApp F) (arg : Option F) : DrawingApp F :=
  match arg with
  | some w => { a with lineWidth := w }
  | none => a

/-- `setMode` -/
def setMode (a : DrawingApp F) (arg : Option String) : DrawingApp F :=
  match arg with
  | some m => { a with mode := m }
  | none => a

/-- Dispatch of one event to its handler. -/
def step (grow : Nat → Nat → Nat) (a : DrawingApp F) : Event F → Option (DrawingApp F)
  | .mouseDown pos => some (handleMouseDown a pos)
  | .mouseMove pos => some (handleMouseMove grow a pos)
  | .mouseUp pos => handleMouseUp grow a pos
  | .touchStart pos => some (handleTouchStart a pos)
  | .touchMove pos => some (handleTouchMove grow a pos)
  | .touchEnd => handleTouchEnd grow a
  | .undo => undo a
  | .redo => redo a
  | .clear => clear grow a
  | .setColor arg => some (setColor a arg)
  | .setWidth arg => some (setWidth a arg)
  | .setMode arg => some (setMode a arg)

/-- Events are handled one after the other. -/
def run (grow : Nat → Nat → Nat) (a : DrawingApp F) : List (Event F) → Option (DrawingApp F)
  | [] => some a
  | e :: es => (step grow a e).bind (fun a' => run grow a' es)

end Handlers

section Reading

variable {F : Type}

/-- The shape value a `Shape` with slice header denotes in a point store. -/
def readShape (points : List (List (Point F))) (sh : Shape F) : WasmWebgl.Shape F :=
  { Points := cells points sh.Points, Color := sh.Color, Width := sh.Width }

/-- The list of shape values a `[]Shape` slice denotes. -/
def readShapes (mem : Memory F) (s : Slice) : List (WasmWebgl.Shape F) :=
  (cells mem.shapes s).map (readShape mem.points)

/-- The list of entries a `[][]Shape` slice denotes. -/
def readHistory (mem : Memory F) (h : Slice) : List (List (WasmWebgl.Shape F)) :=
  (cells mem.entries h).map (readShapes mem)

/-- The state read through the memory: every slice replaced by the list of its elements. -/
def read (a : DrawingApp F) : WasmWebgl.DrawingApp F :=
  { isDrawing := a.isDrawing
    shapes := readShapes a.mem a.shapes
    current := readShape a.mem.points a.current
    history := readHistory a.mem a.history
    historyIndex := a.historyIndex
    color := a.color
    lineWidth := a.lineWidth
    mode := a.mode
    startPoint := a.startPoint }

/-- Two slices share storage: some cell of the same backing array lies within the capacity of
both. -/
def sharesStorage (s t : Slice) : Prop :=
  s.arr = t.arr ∧ s.off < t.off + t.cap ∧ t.off < s.off + s.cap

instance (s t : Slice) : Decidable (sharesStorage s t) :=
  inferInstanceAs (Decidable (s.arr = t.arr ∧ s.off < t.off + t.cap ∧ t.off < s.off + s.cap))

/-- The last entry of the log has no point storage in common with the live list. -/
def FreshTail (a : DrawingApp F) : Prop :=
  ∃ e, (cells a.mem.entries a.history).getLast? = some e ∧
    ∀ sh ∈ cells a.mem.shapes e, ∀ sh' ∈ cells a.mem.shapes a.shapes,
      ¬ sharesStorage sh.Points sh'.Points

/-- A `[]Shape` slice is well-formed in a memory: it is valid, and so is the `Points` slice of
each of its shapes. -/
def ShapesOk (mem : Memory F) (s : Slice) : Prop :=
  Valid mem.shapes s ∧ ∀ sh ∈ cells mem.shapes s, Valid mem.points sh.Points

/-- The pointer structure every handler maintains.  All slices in use are valid; no entry of
the log uses the backing array of the live list; and while a gesture is active the point array
of the shape in progress is used by no shape of the live list or of the log. -/
structure WF (a : DrawingApp F) : Prop where
  hist : Valid a.mem.entries a.history
  entries : ∀ e ∈ cells a.mem.entries a.history, ShapesOk a.mem e ∧ e.arr ≠ a.shapes.arr
  shapes : ShapesOk a.mem a.shapes
  current : a.current.Points.len = 0 ∨ Valid a.mem.points a.current.Points
  drawing : a.isDrawing = true →
    Valid a.mem.points a.current.Points ∧
    (∀ sh ∈ cells a.mem.shapes a.shapes, sh.Points.arr ≠ a.current.Points.arr) ∧
    (∀ e ∈ cells a.mem.entries a.history, ∀ sh ∈ cells a.mem.shapes e,
      sh.Points.arr ≠ a.current.Points.arr)

/-- The state of the memory after the loop of `saveState` has copied the shapes with index
below `i` from `src` (in memory `mem0`) to `dst`: older arrays are untouched, and cell `j < i`
of `dst` holds a shape with a point array of its own that denotes shape `j` of `src`. -/
def CopyInv (mem0 : Memory F) (src dst : Slice) (i : Nat) (mem : Memory F) : Prop :=
  mem.entries = mem0.entries ∧ Ext (fun _ => True) mem0.points mem.points ∧
  mem.shapes.length = mem0.shapes.length + 1 ∧
  (∀ j, j < mem0.shapes.length → arrayAt mem.shapes j = arrayAt mem0.shapes j) ∧
  (arrayAt mem.shapes dst.arr).length = src.len ∧
  ∀ j, j < i → ∃ sh, (arrayAt mem.shapes dst.arr)[j]? = some sh ∧
    Valid mem.points sh.Points ∧ mem0.points.length ≤ sh.Points.arr ∧
    (readShapes mem0 src)[j]? = some (readShape mem.points sh)

end Reading

end Heap

section Basics

variable {F : Type}

/-- The copy loop of `saveState` produces a list equal to the live shapes. -/
theorem stateCopy_eq (shapes : List (Shape F)) :
    shapes.map (fun shape =>
      ({ Points := shape.Points.map (fun p => p), Color := shape.Color,
         Width := shape.Width } : Shape F)) = shapes := by
  induction shapes with
  | nil => rfl
  | cons s t ih =>
    simp only [List.map_cons, List.map_id', ih]

theorem pushed_length (a : DrawingApp F) (h1 : -1 ≤ a.historyIndex)
    (h2 : a.historyIndex < (a.history.length : Int)) :
    ((pushed a).length : Int) = a.historyIndex + 2 := by
  unfold pushed
  simp only [List.length_append, List.length_take, List.length_singleton]
  omega

/-- The last entry of the pushed log is the snapshot. -/
theorem pushed_getElem_last (a : DrawingApp F) (_h1 : -1 ≤ a.historyIndex)
    (h2 : a.historyIndex < (a.history.length : Int)) :
    (pushed a)[(a.historyIndex + 1).toNat]? = some a.shapes := by
  unfold pushed
  have hl : (a.history.take (a.historyIndex + 1).toNat).length = (a.historyIndex + 1).toNat := by
    simp only [List.length_take]
    omega
  rw [List.getElem?_append_right (by omega), hl]
  simp

/-- Entries up to the cursor are kept by the push. -/
theorem pushed_getElem_lt (a : DrawingApp F) (i : Nat) (hi : (i : Int) ≤ a.historyIndex)
    (h2 : a.historyIndex < (a.history.length : Int)) :
    (pushed a)[i]? = a.history[i]? := by
  unfold pushed
  rw [List.getElem?_append_left (by simp only [List.length_take]; omega)]
  rw [List.getElem?_take_of_lt (by omega)]

/-- Closed form of `saveState` on a state whose cursor is within the log. -/
theorem saveState_eq (a : DrawingApp F) (h1 : -1 ≤ a.historyIndex)
    (h2 : a.historyIndex < (a.history.length : Int)) :
    saveState a =
      some (if 50 < a.historyIndex + 2 then
          { a with history := (pushed a).drop 1, historyIndex := a.historyIndex }
        else { a with history := pushed a, historyIndex := a.historyIndex + 1 }) := by
  have hl := pushed_length a h1 h2
  unfold pushed at hl
  unfold saveState pushed
  rw [if_pos (by omega)]
  simp only [stateCopy_eq]
  by_cases h : 50 < a.historyIndex + 2
  · rw [if_pos h, if_pos (by omega)]
    simp
  · rw [if_neg h, if_neg (by omega)]

/-- What `saveState` establishes on a state whose cursor is within a log of at most 50
entries: it returns, the cursor is at the tail and addresses the snapshot of the live list, and
only `history` and `historyIndex` are written. -/
theorem saveState_inv (a : DrawingApp F) (h1 : -1 ≤ a.historyIndex)
    (h2 : a.historyIndex < (a.history.length : Int)) (h3 : a.history.length ≤ 50) :
    ∃ a', saveState a = some a' ∧ HistoryInv a' ∧ 0 ≤ a'.historyIndex ∧
      a'.historyIndex = (a'.history.length : Int) - 1 ∧
      a'.shapes = a.shapes ∧ a'.isDrawing = a.isDrawing ∧ a'.current = a.current ∧
      a'.color = a.color ∧ a'.lineWidth = a.lineWidth ∧ a'.mode = a.mode ∧
      a'.startPoint = a.startPoint := by
  have hl := pushed_length a h1 h2
  have hlast := pushed_getElem_last a h1 h2
  rw [saveState_eq a h1 h2]
  by_cases h : 50 < a.historyIndex + 2
  · rw [if_pos h]
    refine ⟨_, rfl, ⟨?_, ?_, ?_, ?_, ?_⟩, ?_, ?_, rfl, rfl, rfl, rfl, rfl, rfl, rfl⟩
    all_goals simp only [List.length_drop]
    · omega
    · omega
    · omega
    · intro h0; omega
    · intro _
      rw [List.getElem?_drop]
      have : 1 + a.historyIndex.toNat = (a.historyIndex + 1).toNat := by omega
      rw [this]; exact hlast
    · omega
    · omega
  · rw [if_neg h]
    refine ⟨_, rfl, ⟨?_, ?_, ?_, ?_, ?_⟩, ?_, ?_, rfl, rfl, rfl, rfl, rfl, rfl, rfl⟩
    all_goals simp only
    · omega
    · omega
    · omega
    · intro h0; omega
    · intro _; exact hlast
    · omega
    · omega

/-- Closed form of `undo` on a state whose cursor is within the log. -/
theorem undo_eq (a : DrawingApp F) (h2 : a.historyIndex < (a.history.length : Int)) :
    undo a = some (if 0 < a.historyIndex then
      { a with historyIndex := a.historyIndex - 1,
               shapes := (a.history[(a.historyIndex - 1).toNat]?).getD [] }
      else a) := by
  unfold undo
  by_cases h : 0 < a.historyIndex
  · have hlt : (a.historyIndex - 1).toNat < a.history.length := by omega
    simp only [gt_iff_lt, h, if_true, List.getElem?_eq_getElem hlt, List.map_id',
      Option.getD_some]
  · simp only [gt_iff_lt, h, if_false]

/-- Closed form of `redo` on a state whose cursor is at least `-1`. -/
theorem redo_eq (a : DrawingApp F) (h1 : -1 ≤ a.historyIndex) :
    redo a = some (if a.historyIndex < (a.history.length : Int) - 1 then
      { a with historyIndex := a.historyIndex + 1,
               shapes := (a.history[(a.historyIndex + 1).toNat]?).getD [] }
      else a) := by
  unfold redo
  by_cases h : a.historyIndex < (a.history.length : Int) - 1
  · have hlt : (a.historyIndex + 1).toNat < a.history.length := by omega
    have hn : ¬ a.historyIndex + 1 < 0 := by omega
    simp only [h, if_true, hn, if_false, List.getElem?_eq_getElem hlt, List.map_id',
      Option.getD_some]
  · simp only [h, if_false]

theorem undo_inv (a : DrawingApp F) (h : HistoryInv a) :
    ∃ a', undo a = some a' ∧ HistoryInv a' ∧
      (a'.historyIndex = -1 ↔ a.historyIndex = -1) := by
  obtain ⟨h1, h2, h3, h4, h5⟩ := h
  rw [undo_eq a h2]
  by_cases hp : 0 < a.historyIndex
  · rw [if_pos hp]
    refine ⟨_, rfl, ⟨?_, ?_, ?_, ?_, ?_⟩, ?_⟩
    all_goals simp only
    · omega
    · omega
    · exact h3
    · intro h0; omega
    · intro _
      have hlt : (a.historyIndex - 1).toNat < a.history.length := by omega
      simp only [List.getElem?_eq_getElem hlt, Option.getD_some]
    · constructor <;> intro h0 <;> omega
  · rw [if_neg hp]
    exact ⟨_, rfl, ⟨h1, h2, h3, h4, h5⟩, Iff.rfl⟩

theorem redo_inv (a : DrawingApp F) (h : HistoryInv a) :
    ∃ a', redo a = some a' ∧ HistoryInv a' ∧
      (a'.historyIndex = -1 ↔ a.historyIndex = -1) := by
  obtain ⟨h1, h2, h3, h4, h5⟩ := h
  rw [redo_eq a h1]
  by_cases hp : a.historyIndex < (a.history.length : Int) - 1
  · rw [if_pos hp]
    refine ⟨_, rfl, ⟨?_, ?_, ?_, ?_, ?_⟩, ?_⟩
    all_goals simp only
    · omega
    · omega
    · exact h3
    · intro h0; omega
    · intro _
      have hlt : (a.historyIndex + 1).toNat < a.history.length := by omega
      simp only [List.getElem?_eq_getElem hlt, Option.getD_some]
    · constructor
      · intro h0; omega
      · intro h0
        have := (h4 h0).1
        rw [this] at hp
        simp at hp
        omega
  · rw [if_neg hp]
    exact ⟨_, rfl, ⟨h1, h2, h3, h4, h5⟩, Iff.rfl⟩

/-- The invariant only reads `shapes`, `history` and `historyIndex`. -/
theorem HistoryInv_congr {a b : DrawingApp F} (hs : b.shapes = a.shapes)
    (hh : b.history = a.history) (hi : b.historyIndex = a.historyIndex) (h : HistoryInv a) :
    HistoryInv b := by
  unfold HistoryInv at *
  rw [hs, hh, hi]
  exact h

theorem HistoryInv_init [GoFloat F] : HistoryInv (initWasmDrawing : DrawingApp F) := by
  unfold HistoryInv initWasmDrawing
  simp

/-- A handler that ends in `saveState`, entered with the invariant and any new live list. -/
theorem saveState_after_inv (a b : DrawingApp F) (h : HistoryInv a)
    (hh : b.history = a.history) (hi : b.historyIndex = a.historyIndex) :
    ∃ a', saveState b = some a' ∧ HistoryInv a' ∧ 0 ≤ a'.historyIndex ∧
      a'.historyIndex = (a'.history.length : Int) - 1 ∧
      a'.shapes = b.shapes ∧ a'.isDrawing = b.isDrawing ∧ a'.current = b.current ∧
      a'.color = b.color ∧ a'.lineWidth = b.lineWidth ∧ a'.mode = b.mode ∧
      a'.startPoint = b.startPoint := by
  obtain ⟨h1, h2, h3, _, _⟩ := h
  exact saveState_inv b (by rw [hi]; exact h1) (by rw [hi, hh]; exact h2) (by rw [hh]; exact h3)

/-- Every handler, entered with the invariant, returns and re-establishes it; the cursor is
`-1` afterwards exactly when it was before and the handler did not call `saveState`. -/
theorem step_inv [GoFloat F] (a : DrawingApp F) (e : Event F) (h : HistoryInv a) :
    ∃ a', step a e = some a' ∧ HistoryInv a' ∧
      (a'.historyIndex = -1 ↔ (a.historyIndex = -1 ∧ callsSaveState a e = false)) := by
  have key : ∀ b : DrawingApp F, b.history = a.history → b.historyIndex = a.historyIndex →
      ∃ a', saveState b = some a' ∧ HistoryInv a' ∧
        (a'.historyIndex = -1 ↔ (a.historyIndex = -1 ∧ true = false)) := by
    intro b hh hi
    obtain ⟨a', he, hinv, h0, _⟩ := saveState_after_inv a b h hh hi
    refine ⟨a', he, hinv, ?_⟩
    constructor
    · intro hc; omega
    · intro hc; simp at hc
  cases e with
  | mouseDown pos =>
    exact ⟨_, rfl, HistoryInv_congr rfl rfl rfl h, by simp [handleMouseDown, callsSaveState]⟩
  | mouseMove pos =>
    refine ⟨_, rfl, ?_, ?_⟩
    · unfold handleMouseMove
      split
      · exact h
      · split
        · exact HistoryInv_congr rfl rfl rfl h
        · exact h
    · unfold handleMouseMove
      split
      · simp [callsSaveState]
      · split <;> simp [callsSaveState]
  | mouseUp pos =>
    simp only [step, handleMouseUp, callsSaveState]
    cases hd : a.isDrawing
    · exact ⟨a, by simp, h, by simp⟩
    · simp only [Bool.not_true, Bool.false_eq_true, if_false]
      exact key _ rfl rfl
  | touchStart pos =>
    exact ⟨_, rfl, HistoryInv_congr rfl rfl rfl h, by simp [handleTouchStart, callsSaveState]⟩
  | touchMove pos =>
    refine ⟨_, rfl, ?_, ?_⟩
    · unfold handleTouchMove
      split
      · exact h
      · split
        · exact HistoryInv_congr rfl rfl rfl h
        · exact h
    · unfold handleTouchMove
      split
      · simp [callsSaveState]
      · split <;> simp [callsSaveState]
  | touchEnd =>
    simp only [step, handleTouchEnd, callsSaveState]
    cases hd : a.isDrawing
    · exact ⟨a, by simp, h, by simp⟩
    · simp only [Bool.not_true, Bool.false_eq_true, if_false]
      exact key _ rfl rfl
  | undo =>
    obtain ⟨a', he, hinv, hiff⟩ := undo_inv a h
    exact ⟨a', he, hinv, by simp [callsSaveState, hiff]⟩
  | redo =>
    obtain ⟨a', he, hinv, hiff⟩ := redo_inv a h
    exact ⟨a', he, hinv, by simp [callsSaveState, hiff]⟩
  | clear =>
    simp only [step, clear, callsSaveState]
    exact key _ rfl rfl
  | setColor arg =>
    cases arg with
    | none => exact ⟨a, rfl, h, by simp [callsSaveState]⟩
    | some c =>
      exact ⟨_, rfl, HistoryInv_congr rfl rfl rfl h, by simp [setColor, callsSaveState]⟩
  | setWidth arg =>
    cases arg with
    | none => exact ⟨a, rfl, h, by simp [callsSaveState]⟩
    | some c =>
      exact ⟨_, rfl, HistoryInv_congr rfl rfl rfl h, by simp [setWidth, callsSaveState]⟩
  | setMode arg =>
    cases arg with
    | none => exact ⟨a, rfl, h, by simp [callsSaveState]⟩
    | some c =>
      exact ⟨_, rfl, HistoryInv_congr rfl rfl rfl h, by simp [setMode, callsSaveState]⟩

/-- Every run from a state with the invariant completes in a state with the invariant; the
cursor is `-1` at the end exactly when it was at the start and no `saveState` call was made. -/
theorem run_inv [GoFloat F] (evs : List (Event F)) :
    ∀ a : DrawingApp F, HistoryInv a →
      ∃ a', run a evs = some a' ∧ HistoryInv a' ∧
        (a'.historyIndex = -1 ↔ (a.historyIndex = -1 ∧ snapshotsTaken a evs = 0)) := by
  induction evs with
  | nil =>
    intro a h
    exact ⟨a, rfl, h, by simp [snapshotsTaken]⟩
  | cons e es ih =>
    intro a h
    obtain ⟨b, hb, hbinv, hbiff⟩ := step_inv a e h
    obtain ⟨c, hc, hcinv, hciff⟩ := ih b hbinv
    refine ⟨c, ?_, hcinv, ?_⟩
    · simp [run, hb, hc]
    · rw [hciff, hbiff]
      simp only [snapshotsTaken, hb]
      cases callsSaveState a e <;> simp

theorem ShapesEq_refl (xs : List (Shape F)) : ShapesEq xs xs := by
  unfold ShapesEq
  induction xs with
  | nil => exact List.Forall₂.nil
  | cons x t ih => exact List.Forall₂.cons ⟨rfl, rfl, rfl⟩ ih

/-- Snapshots taken one after the other from a state whose cursor is at the tail of a log of
at most 50 entries: the log is the old log followed by the snapshots, cut to its last 50. -/
theorem snapshotAll_tail (lives : List (List (Shape F))) :
    ∀ a : DrawingApp F, a.historyIndex = (a.history.length : Int) - 1 → a.history.length ≤ 50 →
      ∃ a', snapshotAll a lives = some a' ∧
        a'.history = (a.history ++ lives).drop (a.history.length + lives.length - 50) ∧
        a'.historyIndex = (a'.history.length : Int) - 1 ∧
        a'.shapes = lives.getLast?.getD a.shapes := by
  induction lives with
  | nil =>
    intro a hi hl
    refine ⟨a, rfl, ?_, hi, rfl⟩
    have : a.history.length + ([] : List (List (Shape F))).length - 50 = 0 := by
      simp only [List.length_nil]; omega
    rw [this]; simp
  | cons live rest ih =>
    intro a hi hl
    have key : ∃ b, saveState { a with shapes := live } = some b ∧
        b.history = (a.history ++ [live]).drop (a.history.length + 1 - 50) ∧
        b.historyIndex = (b.history.length : Int) - 1 ∧ b.shapes = live := by
      have e := saveState_eq { a with shapes := live } (by simp only; omega) (by simp only; omega)
      have hp : pushed { a with shapes := live } = a.history ++ [live] := by
        unfold pushed
        simp only
        rw [List.take_of_length_le (by omega)]
      rw [hp] at e
      simp only at e
      by_cases h : 50 < a.historyIndex + 2
      · rw [if_pos h] at e
        have hk : a.history.length + 1 - 50 = 1 := by omega
        refine ⟨_, e, ?_, ?_, rfl⟩
        · rw [hk]
        · simp only [List.length_drop, List.length_append, List.length_singleton]
          omega
      · rw [if_neg h] at e
        have hk : a.history.length + 1 - 50 = 0 := by omega
        refine ⟨_, e, ?_, ?_, rfl⟩
        · rw [hk]; rfl
        · simp only [List.length_append, List.length_singleton]
          omega
    obtain ⟨b, hb, hbh, hbi, hbs⟩ := key
    have hbl : b.history.length = a.history.length + 1 - (a.history.length + 1 - 50) := by
      rw [hbh]
      simp only [List.length_drop, List.length_append, List.length_singleton]
    obtain ⟨a', he, hh, hidx, hs⟩ := ih b hbi (by omega)
    refine ⟨a', ?_, ?_, hidx, ?_⟩
    · simp [snapshotAll, hb, he]
    · rw [hh, hbl, hbh]
      have h1 : List.drop (a.history.length + 1 - 50) (a.history ++ [live]) ++ rest
          = List.drop (a.history.length + 1 - 50) (a.history ++ live :: rest) := by
        have hk : a.history.length + 1 - 50 ≤ a.history.length := by omega
        rw [List.drop_append_of_le_length hk, List.drop_append_of_le_length hk]
        simp
      rw [h1, List.drop_drop]
      congr 1
      simp only [List.length_cons]
      omega
    · rw [hs, hbs]
      cases rest with
      | nil => simp
      | cons r rs =>
        rw [List.getLast?_eq_getLast _ (List.cons_ne_nil r rs)]
        simp only [List.getLast?_cons_cons, Option.getD_some]
        rw [List.getLast?_eq_getLast _ (List.cons_ne_nil r rs)]
        rfl

/-- With the cursor at the tail, `redo` returns the state unchanged. -/
theorem redo_at_tail (a : DrawingApp F) (h : a.historyIndex = (a.history.length : Int) - 1) :
    redo a = some a := by
  unfold redo
  rw [if_neg (by omega)]

/-- After `saveState` the cursor is at the tail of the entries up to the old cursor followed by
the snapshot (without its first entry if that exceeded 50), and `redo` does nothing. -/
theorem saveState_tail (a : DrawingApp F) (h1 : -1 ≤ a.historyIndex)
    (h2 : a.historyIndex < (a.history.length : Int)) :
    ∃ a', saveState a = some a' ∧ a'.historyIndex = (a'.history.length : Int) - 1 ∧
      a'.history = (a.history.take (a.historyIndex + 1).toNat ++ [a.shapes]).drop
        (if 50 < a.historyIndex + 2 then 1 else 0) ∧
      a'.shapes = a.shapes ∧ redo a' = some a' := by
  have hl := pushed_length a h1 h2
  have e := saveState_eq a h1 h2
  by_cases h : 50 < a.historyIndex + 2
  · rw [if_pos h] at e
    refine ⟨_, e, ?_, ?_, rfl, redo_at_tail _ ?_⟩
    · simp only [List.length_drop]; omega
    · rw [if_pos h]; rfl
    · simp only [List.length_drop]; omega
  · rw [if_neg h] at e
    refine ⟨_, e, ?_, ?_, rfl, redo_at_tail _ ?_⟩
    · simp only; omega
    · rw [if_neg h]; rfl
    · simp only; omega

theorem run_cons [GoFloat F] (a : DrawingApp F) (e : Event F) (es : List (Event F)) :
    run a (e :: es) = (step a e).bind (fun a' => run a' es) := rfl

theorem run_single [GoFloat F] (a : DrawingApp F) (e : Event F) : run a [e] = step a e := by
  rw [run_cons]
  cases step a e <;> rfl

theorem run_append [GoFloat F] (xs ys : List (Event F)) :
    ∀ a : DrawingApp F, run a (xs ++ ys) = (run a xs).bind (fun b => run b ys) := by
  induction xs with
  | nil => intro a; rfl
  | cons x t ih =>
    intro a
    simp only [List.cons_append, run]
    cases step a x with
    | none => rfl
    | some b => exact ih b

/-- One `undo` from a cursor above 0 moves to the entry below. -/
theorem undo_cursorAt (a : DrawingApp F) (k : Int) (h0 : 0 < k)
    (hk : k < (a.history.length : Int)) : undo (cursorAt a k) = some (cursorAt a (k - 1)) := by
  rw [undo_eq (cursorAt a k) hk]
  simp only [cursorAt, h0, if_true]

/-- One `redo` from a cursor below the tail moves to the entry above. -/
theorem redo_cursorAt (a : DrawingApp F) (k : Int) (h0 : -1 ≤ k)
    (hk : k < (a.history.length : Int) - 1) : redo (cursorAt a k) = some (cursorAt a (k + 1)) := by
  rw [redo_eq (cursorAt a k) h0]
  simp only [cursorAt, hk, if_true]

theorem times_undo_cursorAt (a : DrawingApp F) (j : Nat) :
    ∀ k : Int, (j : Int) ≤ k → k < (a.history.length : Int) →
      times undo j (cursorAt a k) = some (cursorAt a (k - j)) := by
  induction j with
  | zero => intro k _ _; simp [times]
  | succ n ih =>
    intro k h0 hk
    simp only [times]
    rw [undo_cursorAt a k (by omega) hk]
    simp only [Option.some_bind]
    rw [ih (k - 1) (by omega) (by omega)]
    congr 2
    push_cast
    omega

theorem times_redo_cursorAt (a : DrawingApp F) (j : Nat) :
    ∀ k : Int, -1 ≤ k → k + j < (a.history.length : Int) →
      times redo j (cursorAt a k) = some (cursorAt a (k + j)) := by
  induction j with
  | zero => intro k _ _; simp [times]
  | succ n ih =>
    intro k h0 hk
    simp only [times]
    rw [redo_cursorAt a k h0 (by omega)]
    simp only [Option.some_bind]
    rw [ih (k + 1) (by omega) (by omega)]
    congr 2
    push_cast
    omega

/-- A state satisfying the invariant with a snapshot taken is its own `cursorAt`. -/
theorem cursorAt_self (a : DrawingApp F)
    (h : a.history[a.historyIndex.toNat]? = some a.shapes) : cursorAt a a.historyIndex = a := by
  simp only [cursorAt, h, Option.getD_some]

/-- What `clear` does to a state with the invariant: it returns with an empty live list and a
log of `min (historyIndex + 2) 50` entries, and one `undo` then re-installs the old live list. -/
theorem clear_then_undo (a : DrawingApp F) (h : HistoryInv a) :
    ∃ b c, clear a = some b ∧ b.shapes = [] ∧
      (b.history.length : Int) = min (a.historyIndex + 2) 50 ∧
      undo b = some c ∧ c.shapes = a.shapes := by
  obtain ⟨h1, h2, h3, h4, h5⟩ := h
  obtain ⟨b, hb, hbi, hbh, hbs, _⟩ := saveState_tail { a with shapes := [] } h1 h2
  simp only at hbh hbs
  have hpl := pushed_length { a with shapes := [] } h1 h2
  unfold pushed at hpl
  simp only at hpl
  have hlt : ∀ i : Nat, (i : Int) ≤ a.historyIndex →
      (a.history.take (a.historyIndex + 1).toNat ++ [([] : List (Shape F))])[i]?
        = a.history[i]? :=
    fun i hi => pushed_getElem_lt { a with shapes := [] } i hi h2
  have hlen : (b.history.length : Int) = min (a.historyIndex + 2) 50 := by
    rw [hbh, List.length_drop]
    split_ifs <;> omega
  refine ⟨b, _, hb, hbs, hlen, undo_eq b (by omega), ?_⟩
  by_cases hp : 0 < b.historyIndex
  · rw [if_pos hp]
    simp only
    rw [hbh, List.getElem?_drop]
    have hi : (if 50 < a.historyIndex + 2 then 1 else 0) + (b.historyIndex - 1).toNat
        = a.historyIndex.toNat := by
      split_ifs <;> omega
    rw [hi, hlt _ (by omega), h5 (by omega)]
    rfl
  · rw [if_neg hp, hbs]
    exact ((h4 (by omega)).2).symm

theorem createShapePoints_mode [GoFloat F] (a b : DrawingApp F) (h : b.mode = a.mode)
    (s e : Point F) : createShapePoints b s e = createShapePoints a s e := by
  unfold createShapePoints
  rw [h]

/-- Move events of a gesture in mode `"draw"` append their positions to `current.Points`. -/
theorem run_moves_draw [GoFloat F] (touch : Bool) (ps : List (Point F))
    (rest : List (Event F)) :
    ∀ b : DrawingApp F, b.isDrawing = true → b.mode = "draw" →
      run b (ps.map (fun p => if touch then Event.touchMove p else Event.mouseMove p) ++ rest)
        = run { b with current := { b.current with Points := b.current.Points ++ ps } } rest := by
  induction ps with
  | nil => intro b _ _; simp
  | cons p t ih =>
    intro b hd hm
    rw [List.map_cons, List.cons_append, run_cons]
    have hs : step b (if touch then Event.touchMove p else Event.mouseMove p)
        = some { b with current := { b.current with Points := b.current.Points ++ [p] } } := by
      cases touch <;> simp [step, handleMouseMove, handleTouchMove, hd, hm]
    rw [hs, Option.some_bind,
      ih { b with current := { b.current with Points := b.current.Points ++ [p] } } hd hm]
    simp

/-- Move events of a gesture in another mode leave the state unchanged. -/
theorem run_moves_other [GoFloat F] (touch : Bool) (ps : List (Point F))
    (rest : List (Event F)) :
    ∀ b : DrawingApp F, b.isDrawing = true → b.mode ≠ "draw" →
      run b (ps.map (fun p => if touch then Event.touchMove p else Event.mouseMove p) ++ rest)
        = run b rest := by
  induction ps with
  | nil => intro b _ _; simp
  | cons p t ih =>
    intro b hd hm
    rw [List.map_cons, List.cons_append, run_cons]
    have hs : step b (if touch then Event.touchMove p else Event.mouseMove p) = some b := by
      cases touch <;> simp [step, handleMouseMove, handleTouchMove, hd, hm]
    rw [hs, Option.some_bind, ih b hd hm]

/-- A whole gesture is one `saveState` on the state with the committed shape appended. -/
theorem run_gesture [GoFloat F] (a : DrawingApp F) (touch : Bool) (p0 : Point F)
    (ps : List (Point F)) (q : Point F) :
    run a (gesture touch p0 ps q) =
      saveState { a with
        isDrawing := false
        startPoint := p0
        current := committedShape a touch p0 ps q
        shapes := a.shapes ++ [committedShape a touch p0 ps q] } := by
  have hstart : step a (if touch then Event.touchStart p0 else Event.mouseDown p0)
      = some (handleMouseDown a p0) := by
    cases touch <;> rfl
  rw [gesture, run_cons, hstart, Option.some_bind]
  by_cases hm : a.mode = "draw"
  · rw [run_moves_draw touch ps _ (handleMouseDown a p0) rfl hm, run_single]
    cases touch <;>
      simp [step, handleMouseUp, handleTouchEnd, handleMouseDown, committedShape, hm]
  · rw [run_moves_other touch ps _ (handleMouseDown a p0) rfl hm, run_single]
    cases touch
    · simp only [step, handleMouseUp, handleMouseDown, committedShape, hm, ne_eq,
        not_false_eq_true, if_true, if_false, Bool.not_true, Bool.false_eq_true]
      rfl
    · simp only [step, handleTouchEnd, handleMouseDown, committedShape, hm, ne_eq,
        not_false_eq_true, if_true, if_false, Bool.not_true, Bool.false_eq_true]
      simp
      rfl

/-- Every state reached from `initWasmDrawing` satisfies the invariant. -/
theorem reachable_inv [GoFloat F] (evs : List (Event F)) (a : DrawingApp F)
    (h : run (initWasmDrawing : DrawingApp F) evs = some a) : HistoryInv a := by
  obtain ⟨a', hr, hinv, _⟩ := run_inv evs (initWasmDrawing : DrawingApp F) HistoryInv_init
  rw [h] at hr
  cases hr
  exact hinv

/-- A gesture handled from a state with the invariant commits exactly one shape and takes a
snapshot of the new live list. -/
theorem gesture_commit [GoFloat F] (a : DrawingApp F) (h : HistoryInv a) (touch : Bool)
    (p0 : Point F) (ps : List (Point F)) (q : Point F) :
    ∃ a', run a (gesture touch p0 ps q) = some a' ∧
      a'.shapes = a.shapes ++ [committedShape a touch p0 ps q] ∧ a'.isDrawing = false ∧
      a'.historyIndex = (a'.history.length : Int) - 1 ∧
      a'.history[a'.historyIndex.toNat]? = some a'.shapes := by
  rw [run_gesture]
  obtain ⟨a', he, hinv, h0, hi, hs, hd, _⟩ := saveState_after_inv a
    { a with
      isDrawing := false
      startPoint := p0
      current := committedShape a touch p0 ps q
      shapes := a.shapes ++ [committedShape a touch p0 ps q] } h rfl rfl
  exact ⟨a', he, hs, hd, hi, hinv.2.2.2.2 h0⟩

theorem handleMouseMove_history (a : DrawingApp F) (pos : Point F) :
    (handleMouseMove a pos).history = a.history ∧
      (handleMouseMove a pos).historyIndex = a.historyIndex := by
  unfold handleMouseMove
  split
  · exact ⟨rfl, rfl⟩
  · split <;> exact ⟨rfl, rfl⟩

/-- One event changes the log in one of two ways only: not at all, or by `saveState`, which
keeps the entries up to the cursor as they are, appends the snapshot of the live list and
drops the oldest entry beyond 50. -/
theorem step_history [GoFloat F] (b : DrawingApp F) (h : HistoryInv b) (e : Event F)
    (b' : DrawingApp F) (hs : step b e = some b') :
    b'.history = b.history ∨
    b'.history = (b.history.take (b.historyIndex + 1).toNat ++ [b'.shapes]).drop
      (if 50 < b.historyIndex + 2 then 1 else 0) := by
  have key : ∀ x : DrawingApp F, saveState x = some b' → x.history = b.history →
      x.historyIndex = b.historyIndex →
      b'.history = (b.history.take (b.historyIndex + 1).toNat ++ [b'.shapes]).drop
        (if 50 < b.historyIndex + 2 then 1 else 0) := by
    intro x hx hh hi
    obtain ⟨a', he, _, hah, has, _⟩ := saveState_tail x (by rw [hi]; exact h.1)
      (by rw [hi, hh]; exact h.2.1)
    rw [hx] at he
    cases he
    rw [hah, has, hh, hi]
  cases e with
  | mouseDown pos => cases hs; exact Or.inl rfl
  | mouseMove pos => cases hs; exact Or.inl (handleMouseMove_history b pos).1
  | mouseUp pos =>
    simp only [step, handleMouseUp] at hs
    cases hd : b.isDrawing
    · simp only [hd, Bool.not_false, if_true] at hs
      cases hs; exact Or.inl rfl
    · simp only [hd, Bool.not_true, Bool.false_eq_true, if_false] at hs
      exact Or.inr (key _ hs rfl rfl)
  | touchStart pos => cases hs; exact Or.inl rfl
  | touchMove pos => cases hs; exact Or.inl (handleMouseMove_history b pos).1
  | touchEnd =>
    simp only [step, handleTouchEnd] at hs
    cases hd : b.isDrawing
    · simp only [hd, Bool.not_false, if_true] at hs
      cases hs; exact Or.inl rfl
    · simp only [hd, Bool.not_true, Bool.false_eq_true, if_false] at hs
      exact Or.inr (key _ hs rfl rfl)
  | undo =>
    have hu := undo_eq b h.2.1
    simp only [step] at hs
    rw [hu] at hs
    cases hs
    split <;> exact Or.inl rfl
  | redo =>
    have hu := redo_eq b h.1
    simp only [step] at hs
    rw [hu] at hs
    cases hs
    split <;> exact Or.inl rfl
  | clear => exact Or.inr (key { b with shapes := [] } hs rfl rfl)
  | setColor arg => cases arg <;> (cases hs; exact Or.inl rfl)
  | setWidth arg => cases arg <;> (cases hs; exact Or.inl rfl)
  | setMode arg => cases arg <;> (cases hs; exact Or.inl rfl)

/-- A loop that appends one element per index builds the list of these elements. -/
theorem foldl_append_singleton {α β : Type} (f : β → α) (l : List β) :
    ∀ acc : List α, l.foldl (fun points i => points ++ [f i]) acc = acc ++ l.map f := by
  induction l with
  | nil => intro acc; simp
  | cons i t ih =>
    intro acc
    simp only [List.foldl_cons, List.map_cons, ih]
    simp

/-- The `"circle"` case of `createShapePoints` in closed form. -/
theorem createShapePoints_circle [GoFloat F] (a : DrawingApp F) (start end_ : Point F)
    (h : a.mode = "circle") :
    createShapePoints a start end_ =
      (List.range (50 + 1)).map (circlePoint
        (GoFloat.div (GoFloat.add start.X end_.X) (GoFloat.ofInt 2))
        (GoFloat.div (GoFloat.add start.Y end_.Y) (GoFloat.ofInt 2))
        (GoFloat.div (GoFloat.abs (GoFloat.sub end_.X start.X)) (GoFloat.ofInt 2))
        (GoFloat.div (GoFloat.abs (GoFloat.sub end_.Y start.Y)) (GoFloat.ofInt 2))) := by
  unfold createShapePoints
  generalize List.range (50 + 1) = steps
  have h1 : ¬ a.mode = "line" := by rw [h]; decide
  have h2 : ¬ a.mode = "rect" := by rw [h]; decide
  rw [if_neg h1, if_neg h2, if_pos h]
  simp only [foldl_append_singleton, List.nil_append]

/-- `saveState` leaves the gesture flag as it finds it. -/
theorem saveState_isDrawing (x y : DrawingApp F) (h : saveState x = some y) :
    y.isDrawing = x.isDrawing := by
  unfold saveState at h
  by_cases hc : 0 ≤ x.historyIndex + 1 ∧ x.historyIndex + 1 ≤ (x.history.length : Int)
  · rw [if_pos hc] at h
    simp only at h
    split at h <;> (cases h; rfl)
  · rw [if_neg hc] at h
    cases h

theorem movePositions_cons (e : Event F) (t : List (Event F)) :
    movePositions (e :: t) = movePositions [e] ++ movePositions t := by
  cases e <;> rfl

/-- One move, `setColor` or `setWidth` event during a gesture: only the session colour and
width and, in mode `"draw"`, the points of `current` can change. -/
theorem step_mid [GoFloat F] (b : DrawingApp F) (e : Event F) (hd : b.isDrawing = true)
    (he : midGesture e = true) :
    ∃ (c : String) (w : F), step b e = some { b with
      color := c
      lineWidth := w
      current := { b.current with
        Points := if b.mode = "draw" then b.current.Points ++ movePositions [e]
          else b.current.Points } } := by
  cases e with
  | mouseMove p =>
    refine ⟨b.color, b.lineWidth, ?_⟩
    by_cases hm : b.mode = "draw"
    · simp [step, handleMouseMove, hd, hm, movePositions]
    · have e : step b (Event.mouseMove p) = some b := by simp [step, handleMouseMove, hd, hm]
      rw [e, if_neg hm]
  | touchMove p =>
    refine ⟨b.color, b.lineWidth, ?_⟩
    by_cases hm : b.mode = "draw"
    · simp [step, handleTouchMove, hd, hm, movePositions]
    · have e : step b (Event.touchMove p) = some b := by simp [step, handleTouchMove, hd, hm]
      rw [e, if_neg hm]
  | setColor arg =>
    cases arg with
    | none => exact ⟨b.color, b.lineWidth, by simp [step, setColor, movePositions]⟩
    | some c => exact ⟨c, b.lineWidth, by simp [step, setColor, movePositions]⟩
  | setWidth arg =>
    cases arg with
    | none => exact ⟨b.color, b.lineWidth, by simp [step, setWidth, movePositions]⟩
    | some w => exact ⟨b.color, w, by simp [step, setWidth, movePositions]⟩
  | mouseDown _ => simp [midGesture] at he
  | mouseUp _ => simp [midGesture] at he
  | touchStart _ => simp [midGesture] at he
  | touchEnd => simp [midGesture] at he
  | undo => simp [midGesture] at he
  | redo => simp [midGesture] at he
  | clear => simp [midGesture] at he
  | setMode _ => simp [midGesture] at he

/-- Moves, `setColor` and `setWidth` events during a gesture, taken together. -/
theorem run_mid [GoFloat F] (mid : List (Event F)) :
    ∀ b : DrawingApp F, b.isDrawing = true → (∀ e ∈ mid, midGesture e = true) →
      ∃ (c : String) (w : F), run b mid = some { b with
        color := c
        lineWidth := w
        current := { b.current with
          Points := if b.mode = "draw" then b.current.Points ++ movePositions mid
            else b.current.Points } } := by
  induction mid with
  | nil =>
    intro b _ _
    refine ⟨b.color, b.lineWidth, ?_⟩
    simp [run, movePositions]
  | cons e t ih =>
    intro b hd hmid
    obtain ⟨c1, w1, h1⟩ := step_mid b e hd (hmid e (List.mem_cons_self e t))
    obtain ⟨c2, w2, h2⟩ := ih { b with
      color := c1
      lineWidth := w1
      current := { b.current with
        Points := if b.mode = "draw" then b.current.Points ++ movePositions [e]
          else b.current.Points } } hd (fun x hx => hmid x (List.mem_cons_of_mem e hx))
    refine ⟨c2, w2, ?_⟩
    rw [run_cons, h1, Option.some_bind, h2, movePositions_cons e t]
    by_cases hm : b.mode = "draw"
    · simp [hm]
    · simp [hm]

/-- A gesture with `setColor` and `setWidth` calls among its moves is one `saveState` call on the
state holding the shape of the same gesture without these calls. -/
theorem run_styled_gesture [GoFloat F] (a : DrawingApp F) (touch : Bool) (p0 q : Point F)
    (mid : List (Event F)) (hmid : ∀ e ∈ mid, midGesture e = true) :
    ∃ (c : String) (w : F),
      run a ((if touch then Event.touchStart p0 else Event.mouseDown p0) ::
          (mid ++ [if touch then Event.touchEnd else Event.mouseUp q])) =
        saveState { a with
          isDrawing := false
          startPoint := p0
          color := c
          lineWidth := w
          current := committedShape a touch p0 (movePositions mid) q
          shapes := a.shapes ++ [committedShape a touch p0 (movePositions mid) q] } := by
  have hstart : step a (if touch then Event.touchStart p0 else Event.mouseDown p0)
      = some (handleMouseDown a p0) := by
    cases touch <;> rfl
  obtain ⟨c, w, hr⟩ := run_mid mid (handleMouseDown a p0) rfl hmid
  refine ⟨c, w, ?_⟩
  rw [run_cons, hstart, Option.some_bind, run_append, hr, Option.some_bind, run_single]
  by_cases hm : a.mode = "draw"
  · cases touch <;>
      simp [step, handleMouseUp, handleTouchEnd, handleMouseDown, committedShape, hm]
  · cases touch
    · simp only [step, handleMouseUp, handleMouseDown, committedShape, hm, ne_eq,
        not_false_eq_true, if_true, if_false, Bool.not_true, Bool.false_eq_true]
      rfl
    · simp only [step, handleTouchEnd, handleMouseDown, committedShape, hm, ne_eq,
        not_false_eq_true, if_true, if_false, Bool.not_true, Bool.false_eq_true]
      simp
      rfl

/-- A loop that appends one block of elements per item builds the blocks in order. -/
theorem foldl_append_blocks {α β : Type} (g : β → List α) (l : List β) :
    ∀ acc : List α, l.foldl (fun ops x => ops ++ g x) acc = acc ++ (l.map g).flatten := by
  induction l with
  | nil => intro acc; simp
  | cons x t ih =>
    intro acc
    simp only [List.foldl_cons, List.map_cons, ih]
    simp

/-- Every mode gives at least two points. -/
theorem createShapePoints_two [GoFloat F] (a : DrawingApp F) (start end_ : Point F) :
    ∃ p0 p1 rest, createShapePoints a start end_ = p0 :: p1 :: rest := by
  by_cases hl : a.mode = "line"
  · exact ⟨start, end_, [], by unfold createShapePoints; rw [if_pos hl]⟩
  by_cases hr : a.mode = "rect"
  · exact ⟨_, _, _, by unfold createShapePoints; rw [if_neg hl, if_pos hr]⟩
  by_cases hc : a.mode = "circle"
  · have hlen : (createShapePoints a start end_).length = 51 := by
      rw [createShapePoints_circle a start end_ hc, List.length_map, List.length_range]
    generalize createShapePoints a start end_ = l at hlen
    rcases l with _ | ⟨p0, _ | ⟨p1, rest⟩⟩
    · simp at hlen
    · simp at hlen
    · exact ⟨p0, p1, rest, rfl⟩
  · exact ⟨start, end_, [], by unfold createShapePoints; rw [if_neg hl, if_neg hr, if_neg hc]⟩

/-- The operations of `drawShape` on a shape with at least one point: the four style
settings, `beginPath`, `moveTo` the first point, `lineTo` every further point, `stroke`. -/
theorem drawShape_cons [GoFloat F] (p0 : Point F) (rest : List (Point F)) (c : String) (w : F) :
    drawShape { Points := p0 :: rest, Color := c, Width := w } =
      [CanvasOp.Set "strokeStyle" (JsArg.str c),
       CanvasOp.Set "lineWidth" (JsArg.num w),
       CanvasOp.Set "lineCap" (JsArg.str "round"),
       CanvasOp.Set "lineJoin" (JsArg.str "round"),
       CanvasOp.Call "beginPath" [],
       CanvasOp.Call "moveTo" [JsArg.num p0.X, JsArg.num p0.Y]] ++
      rest.map (fun p => CanvasOp.Call "lineTo" [JsArg.num p.X, JsArg.num p.Y]) ++
      [CanvasOp.Call "stroke" []] := by
  simp only [drawShape, foldl_append_singleton, List.nil_append]

/-- The operations of `render`: clear, grid, then the operations of `drawShape` on every
committed shape in order. -/
theorem render_eq [GoFloat F] (a : DrawingApp F) :
    render a =
      [CanvasOp.Set "fillStyle" (JsArg.str "#ffffff"),
       CanvasOp.Call "fillRect" [JsArg.int 0, JsArg.int 0, JsArg.int 800, JsArg.int 600]] ++
      drawGrid ++ (a.shapes.map drawShape).flatten := by
  simp only [render, foldl_append_blocks]

end Basics

section StoreLemmas

variable {α : Type}

theorem arrayAt_append_left (m n : List (List α)) (k : Nat) (h : k < m.length) :
    arrayAt (m ++ n) k = arrayAt m k := by
  unfold arrayAt
  exact List.getD_append m n [] k h

theorem arrayAt_append_new (m : List (List α)) (c : List α) :
    arrayAt (m ++ [c]) m.length = c := by
  unfold arrayAt
  rw [List.getD_append_right m [c] [] m.length (le_refl _)]
  simp

theorem arrayAt_set_ne (m : List (List α)) (k j : Nat) (c : List α) (h : j ≠ k) :
    arrayAt (m.set k c) j = arrayAt m j := by
  unfold arrayAt
  rw [List.getD_eq_getElem?_getD, List.getD_eq_getElem?_getD, List.getElem?_set]
  rw [if_neg (fun e => h e.symm)]

theorem arrayAt_set_eq (m : List (List α)) (k : Nat) (c : List α) (h : k < m.length) :
    arrayAt (m.set k c) k = c := by
  unfold arrayAt
  rw [List.getD_eq_getElem?_getD, List.getElem?_set]
  simp [h]

theorem cells_length (m : List (List α)) (s : Slice) (h : Valid m s) :
    (cells m s).length = s.len := by
  obtain ⟨_, h2, h3⟩ := h
  unfold cells
  rw [List.length_take, List.length_drop]
  omega

theorem Ext.refl (keep : Nat → Prop) (m : List (List α)) : Ext keep m m :=
  ⟨le_refl _, fun _ _ _ => rfl⟩

theorem Ext.trans {keep : Nat → Prop} {m1 m2 m3 : List (List α)} (h12 : Ext keep m1 m2)
    (h23 : Ext keep m2 m3) : Ext keep m1 m3 :=
  ⟨le_trans h12.1 h23.1, fun k hk hkeep => by
    rw [h23.2 k (lt_of_lt_of_le hk h12.1) hkeep, h12.2 k hk hkeep]⟩

/-- A valid slice of a kept array denotes the same elements in the extended store. -/
theorem Ext.cells {keep : Nat → Prop} {m m' : List (List α)} (h : Ext keep m m') (s : Slice)
    (hv : Valid m s) (hk : keep s.arr) : Valid m' s ∧ cells m' s = cells m s := by
  have e := h.2 s.arr hv.1 hk
  refine ⟨⟨lt_of_lt_of_le hv.1 h.1, ?_, hv.2.2⟩, ?_⟩
  · rw [e]; exact hv.2.1
  · unfold WasmWebgl.cells
    rw [e]

theorem alloc_ext (m : List (List α)) (c : List α) (keep : Nat → Prop) :
    Ext keep m (alloc m c).1 := by
  refine ⟨?_, fun k hk _ => arrayAt_append_left m [c] k hk⟩
  simp [alloc]

theorem alloc_valid (m : List (List α)) (c : List α) : Valid (alloc m c).1 (alloc m c).2 := by
  unfold Valid alloc
  simp only [List.length_append, List.length_singleton, arrayAt_append_new]
  omega

theorem alloc_cells (m : List (List α)) (c : List α) : cells (alloc m c).1 (alloc m c).2 = c := by
  unfold cells alloc
  simp only [arrayAt_append_new, List.drop_zero, List.take_length]

theorem alloc_length (m : List (List α)) (c : List α) :
    (alloc m c).1.length = m.length + 1 := by
  simp [alloc]

theorem take_succ_set (l : List α) (n : Nat) (x : α) (h : n < l.length) :
    (l.set n x).take (n + 1) = l.take n ++ [x] := by
  induction l generalizing n with
  | nil => simp at h
  | cons a t ih =>
    cases n with
    | zero => simp
    | succ k =>
      simp only [List.length_cons, Nat.add_lt_add_iff_right] at h
      simp only [List.set_cons_succ, List.take_succ_cons, List.cons_append, ih k h]

/-- What `append` does to a valid slice: arrays other than the one of the slice keep their
contents, the result is a valid slice denoting the old elements followed by the new one, and
it lies in the old array or in a newly allocated one. -/
theorem appendSlice_spec (grow : Nat → Nat → Nat) (zero : α) (m : List (List α)) (s : Slice)
    (x : α) (h : Valid m s) :
    Ext (fun k => k ≠ s.arr) m (appendSlice grow zero m s x).1 ∧
    Valid (appendSlice grow zero m s x).1 (appendSlice grow zero m s x).2 ∧
    cells (appendSlice grow zero m s x).1 (appendSlice grow zero m s x).2 = cells m s ++ [x] ∧
    (appendSlice grow zero m s x).2.len = s.len + 1 ∧
    ((appendSlice grow zero m s x).2.arr = s.arr ∨
      (appendSlice grow zero m s x).2.arr = m.length) := by
  obtain ⟨h1, h2, h3⟩ := h
  by_cases hc : s.len < s.cap
  · have e : appendSlice grow zero m s x
        = (m.set s.arr ((arrayAt m s.arr).set (s.off + s.len) x), { s with len := s.len + 1 }) := by
      unfold appendSlice poke
      rw [if_pos hc]
    rw [e]
    refine ⟨⟨by simp, fun k _ hk => arrayAt_set_ne m s.arr k _ hk⟩, ⟨?_, ?_, ?_⟩, ?_, rfl,
      Or.inl rfl⟩
    · simp only [List.length_set]; exact h1
    · simp only [arrayAt_set_eq m s.arr _ h1, List.length_set]; exact h2
    · show s.len + 1 ≤ s.cap
      omega
    · unfold cells
      simp only [arrayAt_set_eq m s.arr _ h1]
      rw [List.drop_set, if_neg (by omega)]
      have : s.off + s.len - s.off = s.len := by omega
      rw [this, take_succ_set _ _ _ (by rw [List.length_drop]; omega)]
  · have hl : (cells m s).length = s.len := cells_length m s ⟨h1, h2, h3⟩
    have e : appendSlice grow zero m s x
        = (m ++ [cells m s ++ x ::
            List.replicate (max (s.len + 1) (grow s.cap (s.len + 1)) - (s.len + 1)) zero],
          { arr := m.length, off := 0, len := s.len + 1,
            cap := max (s.len + 1) (grow s.cap (s.len + 1)) }) := by
      unfold appendSlice
      rw [if_neg hc]
    rw [e]
    refine ⟨⟨by simp, fun k hk _ => arrayAt_append_left m _ k hk⟩, ⟨?_, ?_, ?_⟩, ?_, rfl,
      Or.inr rfl⟩
    · simp
    · simp only [arrayAt_append_new, List.length_append, List.length_cons,
        List.length_replicate, hl]
      omega
    · show s.len + 1 ≤ max (s.len + 1) (grow s.cap (s.len + 1))
      exact le_max_left _ _
    · have hnew : ∀ (c : List α) (n cap : Nat),
          cells (m ++ [c]) { arr := m.length, off := 0, len := n, cap := cap } = c.take n := by
        intro c n cap
        unfold cells
        simp only [arrayAt_append_new, List.drop_zero]
      rw [hnew]
      have : ∀ R : List α, cells m s ++ x :: R = (cells m s ++ [x]) ++ R := by
        intro R; simp
      rw [this, List.take_append_of_le_length (by simp [hl]),
        List.take_of_length_le (by simp [hl])]

/-- `make` of the length of a valid slice followed by `copy` from it: a new array holding the
elements of the slice; no older array is touched. -/
theorem copy_into_made (zero : α) (m : List (List α)) (src : Slice) (h : Valid m src) :
    Ext (fun _ => True) m
      (copySlice (alloc m (List.replicate src.len zero)).1
        (alloc m (List.replicate src.len zero)).2 src) ∧
    Valid (copySlice (alloc m (List.replicate src.len zero)).1
        (alloc m (List.replicate src.len zero)).2 src)
      (alloc m (List.replicate src.len zero)).2 ∧
    cells (copySlice (alloc m (List.replicate src.len zero)).1
        (alloc m (List.replicate src.len zero)).2 src)
      (alloc m (List.replicate src.len zero)).2 = cells m src := by
  have hl : (cells m src).length = src.len := cells_length m src h
  have hc : cells (m ++ [List.replicate src.len zero]) src = cells m src :=
    ((alloc_ext m (List.replicate src.len zero) (fun _ => True)).cells src h trivial).2
  have harr : (copySlice (alloc m (List.replicate src.len zero)).1
      (alloc m (List.replicate src.len zero)).2 src)
      = (m ++ [List.replicate src.len zero]).set m.length (cells m src) := by
    unfold copySlice alloc
    simp only [List.length_replicate, min_self, arrayAt_append_new, List.take_zero,
      List.nil_append, Nat.zero_add, hc]
    rw [List.take_of_length_le (by omega), hl,
      List.drop_of_length_le (by simp), List.append_nil]
  rw [harr]
  have hlt : m.length < (m ++ [List.replicate src.len zero]).length := by simp
  refine ⟨⟨by simp, fun k hk _ => ?_⟩, ⟨?_, ?_, ?_⟩, ?_⟩
  · rw [arrayAt_set_ne _ _ _ _ (by omega), arrayAt_append_left m _ k hk]
  · simp [alloc]
  · simp only [alloc, arrayAt_set_eq _ _ _ hlt, List.length_replicate, hl]
    omega
  · simp [alloc]
  · unfold cells
    simp only [alloc, arrayAt_set_eq _ _ _ hlt, List.length_replicate, List.drop_zero]
    unfold cells at hl
    rw [List.take_of_length_le (by omega)]

theorem index_eq_cells (m : List (List α)) (s : Slice) (i : Nat)
    (hi : i < s.len) : index m s i = (cells m s)[i]? := by
  unfold index cells
  rw [if_pos hi, List.getElem?_take_of_lt hi, List.getElem?_drop]

/-- The slice expression `s[:n]` with `n <= len(s)`. -/
theorem cells_truncate (m : List (List α)) (s : Slice) (n : Nat) (hn : n ≤ s.len) :
    cells m { s with len := n } = (cells m s).take n := by
  unfold cells
  simp only
  rw [List.take_take, min_eq_left hn]

theorem valid_truncate (m : List (List α)) (s : Slice) (n : Nat) (hn : n ≤ s.len)
    (h : Valid m s) : Valid m { s with len := n } :=
  ⟨h.1, h.2.1, le_trans hn h.2.2⟩

/-- The slice expression `s[1:]` on a non-empty slice. -/
theorem cells_tail (m : List (List α)) (s : Slice) (h : Valid m s) (h1 : 1 ≤ s.len) :
    Valid m { arr := s.arr, off := s.off + 1, len := s.len - 1, cap := s.cap - 1 } ∧
    cells m { arr := s.arr, off := s.off + 1, len := s.len - 1, cap := s.cap - 1 }
      = (cells m s).drop 1 := by
  obtain ⟨v1, v2, v3⟩ := h
  refine ⟨⟨v1, ?_, ?_⟩, ?_⟩
  · simp only; omega
  · simp only; omega
  · unfold cells
    simp only
    rw [List.drop_take, List.drop_drop]

end StoreLemmas

namespace Heap

section Refinement

variable {F : Type}

/-- A well-formed `[]Shape` slice in kept arrays, all of whose point arrays are kept, denotes
the same shapes after the memory was extended. -/
theorem shapes_frame {keepP keepS : Nat → Prop} (mem mem' : Memory F)
    (hP : Ext keepP mem.points mem'.points) (hS : Ext keepS mem.shapes mem'.shapes)
    (s : Slice) (hs : ShapesOk mem s) (hk : keepS s.arr)
    (hkp : ∀ sh ∈ cells mem.shapes s, keepP sh.Points.arr) :
    ShapesOk mem' s ∧ cells mem'.shapes s = cells mem.shapes s ∧
      readShapes mem' s = readShapes mem s := by
  obtain ⟨hv, hc⟩ := hS.cells s hs.1 hk
  refine ⟨⟨hv, ?_⟩, hc, ?_⟩
  · intro sh hsh
    rw [hc] at hsh
    exact (hP.cells sh.Points (hs.2 sh hsh) (hkp sh hsh)).1
  · unfold readShapes
    rw [hc]
    apply List.map_congr_left
    intro sh hsh
    unfold readShape
    rw [(hP.cells sh.Points (hs.2 sh hsh) (hkp sh hsh)).2]

/-- The shape in progress reads the same after an extension that keeps its point array. -/
theorem current_frame {keepP : Nat → Prop} {p p' : List (List (Point F))}
    (hP : Ext keepP p p') (sh : Shape F)
    (h : sh.Points.len = 0 ∨ Valid p sh.Points) (hk : keepP sh.Points.arr) :
    (sh.Points.len = 0 ∨ Valid p' sh.Points) ∧ readShape p' sh = readShape p sh := by
  rcases h with h0 | hv
  · refine ⟨Or.inl h0, ?_⟩
    unfold readShape cells
    rw [h0]
    simp
  · obtain ⟨hv', hc⟩ := hP.cells sh.Points hv hk
    exact ⟨Or.inr hv', by unfold readShape; rw [hc]⟩

theorem readHistory_congr (mem mem' : Memory F) (h : Slice)
    (he : cells mem'.entries h = cells mem.entries h)
    (hr : ∀ e ∈ cells mem.entries h, readShapes mem' e = readShapes mem e) :
    readHistory mem' h = readHistory mem h := by
  unfold readHistory
  rw [he]
  exact List.map_congr_left hr

/-- `handleMouseDown` on pointers does what `handleMouseDown` on lists does. -/
theorem handleMouseDown_refines [GoFloat F] (a : DrawingApp F) (h : WF a) (pos : Point F) :
    WF (handleMouseDown a pos) ∧
      read (handleMouseDown a pos) = WasmWebgl.handleMouseDown (read a) pos := by
  have hP : Ext (fun _ => True) a.mem.points (alloc a.mem.points [pos]).1 := alloc_ext _ _ _
  have hS : Ext (fun _ => True) a.mem.shapes a.mem.shapes := Ext.refl _ _
  have hlive := shapes_frame a.mem ({ a.mem with points := (alloc a.mem.points [pos]).1 })
    hP hS a.shapes h.shapes trivial (fun _ _ => trivial)
  have hent : ∀ e ∈ cells a.mem.entries a.history,
      ShapesOk { a.mem with points := (alloc a.mem.points [pos]).1 } e ∧
      cells a.mem.shapes e = cells a.mem.shapes e ∧
      readShapes { a.mem with points := (alloc a.mem.points [pos]).1 } e = readShapes a.mem e :=
    fun e he => shapes_frame a.mem ({ a.mem with points := (alloc a.mem.points [pos]).1 })
      hP hS e (h.entries e he).1 trivial (fun _ _ => trivial)
  have hhist : readHistory { a.mem with points := (alloc a.mem.points [pos]).1 } a.history
      = readHistory a.mem a.history :=
    readHistory_congr _ _ _ rfl (fun e he => (hent e he).2.2)
  constructor
  · refine ⟨h.hist, fun e he => ⟨(hent e he).1, (h.entries e he).2⟩, hlive.1,
      Or.inr (alloc_valid _ _), fun _ => ⟨alloc_valid _ _, ?_, ?_⟩⟩
    · intro sh hsh
      have := (h.shapes.2 sh hsh).1
      show sh.Points.arr ≠ a.mem.points.length
      omega
    · intro e he sh hsh
      have := ((h.entries e he).1.2 sh hsh).1
      show sh.Points.arr ≠ a.mem.points.length
      omega
  · unfold read WasmWebgl.handleMouseDown
    have hc : readShape (alloc a.mem.points [pos]).1
        { Points := (alloc a.mem.points [pos]).2, Color := a.color, Width := a.lineWidth }
        = { Points := [pos], Color := a.color, Width := a.lineWidth } := by
      unfold readShape
      rw [alloc_cells]
    simp only [handleMouseDown, hlive.2.2, hhist, hc]

/-- `handleMouseMove` on pointers does what `handleMouseMove` on lists does. -/
theorem handleMouseMove_refines [GoFloat F] (grow : Nat → Nat → Nat) (a : DrawingApp F)
    (h : WF a) (pos : Point F) :
    WF (handleMouseMove grow a pos) ∧
      read (handleMouseMove grow a pos) = WasmWebgl.handleMouseMove (read a) pos := by
  cases hd : a.isDrawing
  · have e1 : handleMouseMove grow a pos = a := by simp [handleMouseMove, hd]
    have e2 : WasmWebgl.handleMouseMove (read a) pos = read a := by
      simp [WasmWebgl.handleMouseMove, read, hd]
    rw [e1, e2]
    exact ⟨h, rfl⟩
  · by_cases hm : a.mode = "draw"
    · obtain ⟨hv, hsep1, hsep2⟩ := h.drawing hd
      obtain ⟨hP, hv', hc, _, harr⟩ :=
        appendSlice_spec grow (zeroPoint : Point F) a.mem.points a.current.Points pos hv
      have hS : Ext (fun _ => True) a.mem.shapes a.mem.shapes := Ext.refl _ _
      have hlive := shapes_frame a.mem ({ a.mem with
          points := (appendSlice grow zeroPoint a.mem.points a.current.Points pos).1 })
        hP hS a.shapes h.shapes trivial hsep1
      have hent : ∀ e ∈ cells a.mem.entries a.history,
          ShapesOk { a.mem with
            points := (appendSlice grow zeroPoint a.mem.points a.current.Points pos).1 } e ∧
          cells a.mem.shapes e = cells a.mem.shapes e ∧
          readShapes { a.mem with
            points := (appendSlice grow zeroPoint a.mem.points a.current.Points pos).1 } e
            = readShapes a.mem e :=
        fun e he => shapes_frame a.mem ({ a.mem with
            points := (appendSlice grow zeroPoint a.mem.points a.current.Points pos).1 })
          hP hS e (h.entries e he).1 trivial (hsep2 e he)
      have hhist : readHistory { a.mem with
            points := (appendSlice grow zeroPoint a.mem.points a.current.Points pos).1 }
          a.history = readHistory a.mem a.history :=
        readHistory_congr _ _ _ rfl (fun e he => (hent e he).2.2)
      have e1 : handleMouseMove grow a pos = { a with
          mem := { a.mem with
            points := (appendSlice grow zeroPoint a.mem.points a.current.Points pos).1 }
          current := { a.current with
            Points := (appendSlice grow zeroPoint a.mem.points a.current.Points pos).2 } } := by
        simp [handleMouseMove, hd, hm]
      have e2 : WasmWebgl.handleMouseMove (read a) pos = { read a with
          current := { (read a).current with
            Points := (read a).current.Points ++ [pos] } } := by
        simp [WasmWebgl.handleMouseMove, read, hd, hm]
      rw [e1, e2]
      constructor
      · refine ⟨h.hist, fun e he => ⟨(hent e he).1, (h.entries e he).2⟩, hlive.1,
          Or.inr hv', fun _ => ⟨hv', ?_, ?_⟩⟩
        · intro sh hsh
          have h1 := (h.shapes.2 sh hsh).1
          have h2 := hsep1 sh hsh
          show sh.Points.arr ≠ (appendSlice grow zeroPoint a.mem.points a.current.Points pos).2.arr
          rcases harr with e | e <;> rw [e] <;> omega
        · intro e he sh hsh
          have h1 := ((h.entries e he).1.2 sh hsh).1
          have h2 := hsep2 e he sh hsh
          show sh.Points.arr ≠ (appendSlice grow zeroPoint a.mem.points a.current.Points pos).2.arr
          rcases harr with e | e <;> rw [e] <;> omega
      · unfold read
        simp only [hlive.2.2, hhist, readShape, hc]
    · have e1 : handleMouseMove grow a pos = a := by simp [handleMouseMove, hd, hm]
      have e2 : WasmWebgl.handleMouseMove (read a) pos = read a := by
        simp [WasmWebgl.handleMouseMove, read, hd, hm]
      rw [e1, e2]
      exact ⟨h, rfl⟩

/-- Appending to a slice that lies in an array allocated after store `m0` keeps `m0`. -/
theorem appendSlice_fresh {α : Type} (grow : Nat → Nat → Nat) (zero : α)
    (m0 m : List (List α)) (s : Slice) (x : α) (h0 : Ext (fun _ => True) m0 m)
    (hv : Valid m s) (hf : m0.length ≤ s.arr) :
    Ext (fun _ => True) m0 (appendSlice grow zero m s x).1 ∧
    Valid (appendSlice grow zero m s x).1 (appendSlice grow zero m s x).2 ∧
    m0.length ≤ (appendSlice grow zero m s x).2.arr ∧
    cells (appendSlice grow zero m s x).1 (appendSlice grow zero m s x).2 = cells m s ++ [x] := by
  obtain ⟨hE, hv', hc, _, harr⟩ := appendSlice_spec grow zero m s x hv
  refine ⟨⟨le_trans h0.1 hE.1, fun k hk _ => ?_⟩, hv', ?_, hc⟩
  · rw [hE.2 k (lt_of_lt_of_le hk h0.1) (by omega), h0.2 k hk trivial]
  · rcases harr with e | e <;> rw [e]
    · exact hf
    · exact h0.1

/-- The loop of the `"circle"` case on pointers builds the list the loop on lists builds. -/
theorem circle_fold {α : Type} (grow : Nat → Nat → Nat) (zero : α) (f : Nat → α)
    (m0 : List (List α)) (is : List Nat) :
    ∀ r : List (List α) × Slice, Ext (fun _ => True) m0 r.1 → Valid r.1 r.2 →
      m0.length ≤ r.2.arr →
      Ext (fun _ => True) m0 (is.foldl (fun r i => appendSlice grow zero r.1 r.2 (f i)) r).1 ∧
      Valid (is.foldl (fun r i => appendSlice grow zero r.1 r.2 (f i)) r).1
        (is.foldl (fun r i => appendSlice grow zero r.1 r.2 (f i)) r).2 ∧
      m0.length ≤ (is.foldl (fun r i => appendSlice grow zero r.1 r.2 (f i)) r).2.arr ∧
      cells (is.foldl (fun r i => appendSlice grow zero r.1 r.2 (f i)) r).1
        (is.foldl (fun r i => appendSlice grow zero r.1 r.2 (f i)) r).2
        = is.foldl (fun pts i => pts ++ [f i]) (cells r.1 r.2) := by
  induction is with
  | nil => intro r h0 hv hf; exact ⟨h0, hv, hf, rfl⟩
  | cons i t ih =>
    intro r h0 hv hf
    obtain ⟨h0', hv', hf', hc'⟩ := appendSlice_fresh grow zero m0 r.1 r.2 (f i) h0 hv hf
    have := ih (appendSlice grow zero r.1 r.2 (f i)) h0' hv' hf'
    rw [hc'] at this
    exact this

/-- `createShapePoints` on pointers returns a valid slice in a new array that denotes the list
`createShapePoints` on lists returns; no older point array is touched. -/
theorem createShapePoints_spec [GoFloat F] (grow : Nat → Nat → Nat) (a : DrawingApp F)
    (start end_ : Point F) :
    Ext (fun _ => True) a.mem.points (createShapePoints grow a start end_).1 ∧
    Valid (createShapePoints grow a start end_).1 (createShapePoints grow a start end_).2 ∧
    a.mem.points.length ≤ (createShapePoints grow a start end_).2.arr ∧
    cells (createShapePoints grow a start end_).1 (createShapePoints grow a start end_).2
      = WasmWebgl.createShapePoints (read a) start end_ := by
  have hal : ∀ c : List (Point F), Ext (fun _ => True) a.mem.points (alloc a.mem.points c).1 ∧
      Valid (alloc a.mem.points c).1 (alloc a.mem.points c).2 ∧
      a.mem.points.length ≤ (alloc a.mem.points c).2.arr ∧
      cells (alloc a.mem.points c).1 (alloc a.mem.points c).2 = c :=
    fun c => ⟨alloc_ext _ _ _, alloc_valid _ _, le_refl _, alloc_cells _ _⟩
  have hmode : (read a).mode = a.mode := rfl
  unfold createShapePoints WasmWebgl.createShapePoints
  rw [hmode]
  generalize List.range (50 + 1) = steps
  by_cases h1 : a.mode = "line"
  · rw [if_pos h1, if_pos h1]; exact hal _
  · rw [if_neg h1, if_neg h1]
    by_cases h2 : a.mode = "rect"
    · rw [if_pos h2, if_pos h2]; exact hal _
    · rw [if_neg h2, if_neg h2]
      by_cases h3 : a.mode = "circle"
      · rw [if_pos h3, if_pos h3]
        obtain ⟨a1, a2, a3, a4⟩ := hal []
        have := circle_fold grow (zeroPoint : Point F)
          (circlePoint
            (GoFloat.div (GoFloat.add start.X end_.X) (GoFloat.ofInt 2))
            (GoFloat.div (GoFloat.add start.Y end_.Y) (GoFloat.ofInt 2))
            (GoFloat.div (GoFloat.abs (GoFloat.sub end_.X start.X)) (GoFloat.ofInt 2))
            (GoFloat.div (GoFloat.abs (GoFloat.sub end_.Y start.Y)) (GoFloat.ofInt 2)))
          a.mem.points steps (alloc a.mem.points []) a1 a2 a3
        rw [a4] at this
        exact this
      · rw [if_neg h3, if_neg h3]; exact hal _

/-- The loop of `saveState` runs to its end and maintains `CopyInv`. -/
theorem copyLoop_inv [GoFloat F] (mem0 : Memory F) (src dst : Slice) (hsrc : ShapesOk mem0 src)
    (hdst : dst.arr = mem0.shapes.length) (hoff : dst.off = 0) (hlen : dst.len = src.len)
    (k : Nat) :
    ∀ (i : Nat) (mem : Memory F), i + k = src.len → CopyInv mem0 src dst i mem →
      ∃ mem2, copyLoop mem src dst (List.range' i k) = some mem2 ∧
        CopyInv mem0 src dst src.len mem2 := by
  induction k with
  | zero =>
    intro i mem hik hinv
    have : i = src.len := by omega
    rw [this] at hinv
    exact ⟨mem, rfl, hinv⟩
  | succ k ih =>
    intro i mem hik ⟨hE, hP, hL, hA, hD, hC⟩
    have hi : i < src.len := by omega
    have hcl := cells_length mem0.shapes src hsrc.1
    have hil : i < (cells mem0.shapes src).length := by rw [hcl]; exact hi
    have hsome : (cells mem0.shapes src)[i]? = some (cells mem0.shapes src)[i] :=
      List.getElem?_eq_getElem hil
    have hmem : (cells mem0.shapes src)[i] ∈ cells mem0.shapes src := List.getElem_mem hil
    have hidx : index mem.shapes src i = some (cells mem0.shapes src)[i] := by
      rw [← hsome]
      unfold index cells
      rw [if_pos hi, hA src.arr hsrc.1.1, List.getElem?_take_of_lt hi, List.getElem?_drop]
    obtain ⟨hv, hcs⟩ := hP.cells _ (hsrc.2 _ hmem) trivial
    obtain ⟨cE, cV, cC⟩ := copy_into_made (zeroPoint : Point F) mem.points
      (cells mem0.shapes src)[i].Points hv
    have hdlt : dst.arr < mem.shapes.length := by omega
    have hnext : CopyInv mem0 src dst (i + 1)
        { mem with
          points := copySlice
            (alloc mem.points (List.replicate (cells mem0.shapes src)[i].Points.len zeroPoint)).1
            (alloc mem.points (List.replicate (cells mem0.shapes src)[i].Points.len zeroPoint)).2
            (cells mem0.shapes src)[i].Points
          shapes := poke mem.shapes dst.arr (dst.off + i)
            { Points :=
                (alloc mem.points
                  (List.replicate (cells mem0.shapes src)[i].Points.len zeroPoint)).2
              Color := (cells mem0.shapes src)[i].Color
              Width := (cells mem0.shapes src)[i].Width } } := by
      refine ⟨hE, hP.trans cE, ?_, ?_, ?_, ?_⟩
      · simp only [poke, List.length_set]; exact hL
      · intro j hj
        simp only [poke]
        rw [arrayAt_set_ne _ _ _ _ (by omega)]
        exact hA j hj
      · simp only [poke]
        rw [arrayAt_set_eq _ _ _ hdlt, List.length_set]
        exact hD
      · intro j hj
        simp only [poke]
        rw [arrayAt_set_eq _ _ _ hdlt, hoff, Nat.zero_add]
        by_cases hji : j = i
        · subst hji
          have hget : ∀ x : Shape F, ((arrayAt mem.shapes dst.arr).set j x)[j]? = some x := by
            intro x
            rw [List.getElem?_set]
            simp only [if_true]
            rw [if_pos (by omega)]
          refine ⟨_, hget _, cV, ?_, ?_⟩
          · show mem0.points.length ≤ mem.points.length
            exact hP.1
          · unfold readShapes
            rw [List.getElem?_map, hsome]
            simp only [Option.map_some', readShape, cC, hcs]
        · obtain ⟨sh, h1, h2, h3, h4⟩ := hC j (by omega)
          obtain ⟨h2', hc2⟩ := cE.cells sh.Points h2 trivial
          refine ⟨sh, ?_, h2', h3, ?_⟩
          · rw [List.getElem?_set, if_neg (fun e => hji e.symm)]
            exact h1
          · rw [h4]
            unfold readShape
            rw [hc2]
    obtain ⟨mem2, hr, hinv2⟩ := ih (i + 1) _ (by omega) hnext
    refine ⟨mem2, ?_, hinv2⟩
    rw [List.range'_succ]
    simp only [copyLoop, hidx]
    rw [if_pos (by omega)]
    exact hr

/-- The copy made by `saveState`: the loop returns; the entries store and all older arrays are
untouched; the copy is a well-formed slice whose shapes have point arrays allocated by the
loop, and it denotes the shapes the source denotes. -/
theorem copyLoop_spec [GoFloat F] (mem0 : Memory F) (src : Slice) (hsrc : ShapesOk mem0 src) :
    ∃ mem2,
      copyLoop { mem0 with
          shapes := (alloc mem0.shapes (List.replicate src.len (zeroShape : Shape F))).1 }
        src (alloc mem0.shapes (List.replicate src.len (zeroShape : Shape F))).2
        (List.range src.len) = some mem2 ∧
      mem2.entries = mem0.entries ∧ Ext (fun _ => True) mem0.points mem2.points ∧
      Ext (fun _ => True) mem0.shapes mem2.shapes ∧
      ShapesOk mem2 (alloc mem0.shapes (List.replicate src.len (zeroShape : Shape F))).2 ∧
      (∀ sh ∈ cells mem2.shapes
          (alloc mem0.shapes (List.replicate src.len (zeroShape : Shape F))).2,
        mem0.points.length ≤ sh.Points.arr) ∧
      readShapes mem2 (alloc mem0.shapes (List.replicate src.len (zeroShape : Shape F))).2
        = readShapes mem0 src := by
  have hstart : CopyInv mem0 src
      (alloc mem0.shapes (List.replicate src.len (zeroShape : Shape F))).2 0
      { mem0 with
        shapes := (alloc mem0.shapes (List.replicate src.len (zeroShape : Shape F))).1 } := by
    refine ⟨rfl, Ext.refl _ _, alloc_length _ _, ?_, ?_, ?_⟩
    · intro j hj
      exact arrayAt_append_left _ _ j hj
    · show (arrayAt (mem0.shapes ++ [List.replicate src.len zeroShape])
        mem0.shapes.length).length = src.len
      rw [arrayAt_append_new, List.length_replicate]
    · intro j hj
      omega
  have hlen : (alloc mem0.shapes (List.replicate src.len (zeroShape : Shape F))).2.len
      = src.len := by simp [alloc]
  obtain ⟨mem2, hr, hE, hP, hL, hA, hD, hC⟩ := copyLoop_inv mem0 src
    (alloc mem0.shapes (List.replicate src.len (zeroShape : Shape F))).2 hsrc rfl rfl hlen
    src.len 0 _ (by omega) hstart
  rw [← List.range_eq_range'] at hr
  have hcells : cells mem2.shapes
      (alloc mem0.shapes (List.replicate src.len (zeroShape : Shape F))).2
      = arrayAt mem2.shapes mem0.shapes.length := by
    unfold cells
    simp only [alloc, List.drop_zero, List.length_replicate]
    exact List.take_of_length_le (by rw [← hD]; exact le_refl _)
  have hD' : (arrayAt mem2.shapes mem0.shapes.length).length = src.len := hD
  have hC' : ∀ j, j < src.len → ∃ sh, (arrayAt mem2.shapes mem0.shapes.length)[j]? = some sh ∧
      Valid mem2.points sh.Points ∧ mem0.points.length ≤ sh.Points.arr ∧
      (readShapes mem0 src)[j]? = some (readShape mem2.points sh) := hC
  have hall : ∀ sh ∈ arrayAt mem2.shapes mem0.shapes.length,
      Valid mem2.points sh.Points ∧ mem0.points.length ≤ sh.Points.arr := by
    intro sh hsh
    obtain ⟨j, hj, hget⟩ := List.getElem_of_mem hsh
    obtain ⟨sh', h1, h2, h3, _⟩ := hC' j (by omega)
    rw [List.getElem?_eq_getElem hj, hget] at h1
    cases h1
    exact ⟨h2, h3⟩
  refine ⟨mem2, hr, hE, hP, ⟨by omega, fun j hj _ => hA j hj⟩, ⟨⟨?_, ?_, ?_⟩, ?_⟩, ?_, ?_⟩
  · show mem0.shapes.length < mem2.shapes.length
    omega
  · simp only [alloc, List.length_replicate]
    omega
  · exact le_refl _
  · intro sh hsh
    rw [hcells] at hsh
    exact (hall sh hsh).1
  · intro sh hsh
    rw [hcells] at hsh
    exact (hall sh hsh).2
  · unfold readShapes
    rw [hcells]
    apply List.ext_getElem?
    intro j
    by_cases hj : j < src.len
    · obtain ⟨sh, h1, _, _, h4⟩ := hC' j hj
      unfold readShapes at h4
      rw [h4, List.getElem?_map, h1]
      rfl
    · rw [List.getElem?_eq_none (by simp only [List.length_map]; omega),
        List.getElem?_eq_none (by
          simp only [List.length_map, cells_length mem0.shapes src hsrc.1]; omega)]

/-- The deep copy of `saveState` in terms of its result. -/
theorem copyShapes_spec [GoFloat F] (mem0 : Memory F) (src : Slice) (hsrc : ShapesOk mem0 src) :
    ∃ mem2 sc, copyShapes mem0 src = some (mem2, sc) ∧ sc.arr = mem0.shapes.length ∧
      mem2.entries = mem0.entries ∧ Ext (fun _ => True) mem0.points mem2.points ∧
      Ext (fun _ => True) mem0.shapes mem2.shapes ∧ ShapesOk mem2 sc ∧
      (∀ sh ∈ cells mem2.shapes sc, mem0.points.length ≤ sh.Points.arr) ∧
      readShapes mem2 sc = readShapes mem0 src := by
  obtain ⟨mem2, hr, h1, h2, h3, h4, h5, h6⟩ := copyLoop_spec mem0 src hsrc
  refine ⟨mem2, _, ?_, rfl, h1, h2, h3, h4, h5, h6⟩
  unfold copyShapes
  rw [hr]
  rfl

/-- `saveState` on pointers does what `saveState` on lists does and keeps `WF`; the entry it
stores is the last of the log, and all point arrays of that entry were allocated by this
call. -/
theorem saveState_refines [GoFloat F] (grow : Nat → Nat → Nat) (a : DrawingApp F) (h : WF a)
    (h1 : -1 ≤ a.historyIndex) (h2 : a.historyIndex < (a.history.len : Int)) :
    ∃ a', saveState grow a = some a' ∧ WF a' ∧
      WasmWebgl.saveState (read a) = some (read a') ∧
      FreshTail a' := by
  obtain ⟨mem2, sc, hcopy, hscarr, hE2, hP2, hS2, hOk2, hFresh2, hRead2⟩ :=
    copyShapes_spec a.mem a.shapes h.shapes
  have hn : (a.historyIndex + 1).toNat ≤ a.history.len := by omega
  have hv0 : Valid mem2.entries { a.history with len := (a.historyIndex + 1).toNat } := by
    rw [hE2]; exact valid_truncate _ _ _ hn h.hist
  obtain ⟨_, hvp, hcp, hlp, _⟩ := appendSlice_spec grow nilSlice mem2.entries
    { a.history with len := (a.historyIndex + 1).toNat } sc hv0
  have hcq : cells mem2.entries { a.history with len := (a.historyIndex + 1).toNat }
      = (cells a.mem.entries a.history).take (a.historyIndex + 1).toNat := by
    rw [cells_truncate _ _ _ hn, hE2]
  rw [hcq] at hcp
  have hcap := h.hist.2.2
  unfold saveState
  rw [if_pos ⟨by omega, by omega⟩]
  simp only [hcopy]
  generalize appendSlice grow nilSlice mem2.entries
    { a.history with len := (a.historyIndex + 1).toNat } sc = pushed at hvp hcp hlp ⊢
  simp only at hlp
  have hlive := shapes_frame a.mem ({ mem2 with entries := pushed.1 })
    hP2 hS2 a.shapes h.shapes trivial (fun _ _ => trivial)
  have hold : ∀ e ∈ cells a.mem.entries a.history,
      ShapesOk { mem2 with entries := pushed.1 } e ∧
      cells mem2.shapes e = cells a.mem.shapes e ∧
      readShapes { mem2 with entries := pushed.1 } e = readShapes a.mem e :=
    fun e he => shapes_frame a.mem ({ mem2 with entries := pushed.1 })
      hP2 hS2 e (h.entries e he).1 trivial (fun _ _ => trivial)
  have hnew : readShapes { mem2 with entries := pushed.1 } sc = readShapes a.mem a.shapes :=
    hRead2
  have hcur := current_frame hP2 a.current h.current trivial
  have hmemb : ∀ e ∈ cells pushed.1 pushed.2, e ∈ cells a.mem.entries a.history ∨ e = sc := by
    intro e he
    rw [hcp, List.mem_append] at he
    rcases he with he | he
    · exact Or.inl (List.mem_of_mem_take he)
    · exact Or.inr (List.mem_singleton.mp he)
  have hrh : readHistory { mem2 with entries := pushed.1 } pushed.2
      = WasmWebgl.pushed (read a) := by
    unfold readHistory WasmWebgl.pushed read
    simp only
    rw [hcp, List.map_append, List.map_take, List.map_singleton, hnew]
    congr 1
    unfold readHistory
    rw [← List.map_take, ← List.map_take]
    exact List.map_congr_left (fun e he => (hold e (List.mem_of_mem_take he)).2.2)
  have mkWF : ∀ (hist' : Slice) (idx' : Int), Valid pushed.1 hist' →
      (∀ e ∈ cells pushed.1 hist', e ∈ cells a.mem.entries a.history ∨ e = sc) →
      WF { a with mem := { mem2 with entries := pushed.1 }, history := hist',
                  historyIndex := idx' } := by
    intro hist' idx' hv hsub
    refine ⟨hv, ?_, hlive.1, hcur.1, ?_⟩
    · intro e he
      rcases hsub e he with ho | hs
      · exact ⟨(hold e ho).1, (h.entries e ho).2⟩
      · rw [hs]
        refine ⟨hOk2, ?_⟩
        have := h.shapes.1.1
        show sc.arr ≠ a.shapes.arr
        omega
    · intro hd
      obtain ⟨hv1, hs1, hs2⟩ := h.drawing hd
      refine ⟨(hP2.cells _ hv1 trivial).1, ?_, ?_⟩
      · intro sh hsh
        exact hs1 sh (by rw [← hlive.2.1]; exact hsh)
      · intro e he sh hsh
        rcases hsub e he with ho | hs
        · exact hs2 e ho sh (by rw [← (hold e ho).2.1]; exact hsh)
        · rw [hs] at hsh
          have hf := hFresh2 sh hsh
          have hl := hv1.1
          show sh.Points.arr ≠ a.current.Points.arr
          omega
  have hlen : ((read a).history.length : Int) = a.history.len := by
    unfold read readHistory
    simp only [List.length_map, cells_length _ _ h.hist]
  have hval := saveState_eq (read a) h1 (by rw [hlen]; exact h2)
  have hidx : (read a).historyIndex = a.historyIndex := rfl
  rw [hidx] at hval
  have hfresh : ∀ sh ∈ cells mem2.shapes sc, ∀ sh' ∈ cells mem2.shapes a.shapes,
      ¬ sharesStorage sh.Points sh'.Points := by
    intro sh hsh sh' hsh' hshare
    have hf := hFresh2 sh hsh
    have hl := (h.shapes.2 sh' (by rw [← hlive.2.1]; exact hsh')).1
    have := hshare.1
    omega
  by_cases hc : pushed.2.len > 50
  · rw [if_pos hc]
    obtain ⟨hvt, hct⟩ := cells_tail pushed.1 pushed.2 hvp (by omega)
    refine ⟨_, rfl, mkWF _ _ hvt ?_, ?_, sc, ?_, hfresh⟩
    · intro e he
      rw [hct] at he
      exact hmemb e (List.mem_of_mem_drop he)
    · rw [hval, if_pos (by omega)]
      unfold read
      simp only [hlive.2.2, hcur.2, add_sub_cancel_right]
      unfold readHistory
      simp only
      rw [hct, List.map_drop]
      unfold readHistory at hrh
      rw [hrh]
      rfl
    · show (cells pushed.1 _).getLast? = some sc
      rw [hct, hcp]
      have hlt : 1 ≤ (List.take (a.historyIndex + 1).toNat (cells a.mem.entries a.history)).length := by
        rw [List.length_take, cells_length _ _ h.hist]
        omega
      rw [List.drop_append_of_le_length hlt]
      simp
  · rw [if_neg hc]
    refine ⟨_, rfl, mkWF _ _ hvp hmemb, ?_, sc, ?_, hfresh⟩
    · rw [hval, if_neg (by omega)]
      unfold read
      simp only [hlive.2.2, hcur.2, hrh]
      rfl
    · show (cells pushed.1 pushed.2).getLast? = some sc
      rw [hcp]
      simp

theorem read_history_length (a : DrawingApp F) (h : WF a) :
    ((read a).history.length : Int) = a.history.len := by
  unfold read readHistory
  simp only [List.length_map, cells_length _ _ h.hist]

/-- The common tail of `handleMouseUp` and `handleTouchEnd`, entered during a gesture, does
what the tail of the handlers on lists does. -/
theorem commit_refines [GoFloat F] (grow : Nat → Nat → Nat) (a : DrawingApp F) (h : WF a)
    (hd : a.isDrawing = true) (h1 : -1 ≤ a.historyIndex)
    (h2 : a.historyIndex < (a.history.len : Int)) :
    ∃ a', commit grow a = some a' ∧ WF a' ∧
      WasmWebgl.saveState { read a with
        isDrawing := false
        shapes := (read a).shapes ++ [(read a).current] } = some (read a') ∧
      FreshTail a' := by
  obtain ⟨hv, _, _⟩ := h.drawing hd
  obtain ⟨hS, hvr, hcr, _, harr⟩ :=
    appendSlice_spec grow (zeroShape : Shape F) a.mem.shapes a.shapes a.current h.shapes.1
  have hP : Ext (fun _ => True) a.mem.points a.mem.points := Ext.refl _ _
  have hold : ∀ e ∈ cells a.mem.entries a.history,
      ShapesOk { a.mem with
        shapes := (appendSlice grow zeroShape a.mem.shapes a.shapes a.current).1 } e ∧
      cells (appendSlice grow zeroShape a.mem.shapes a.shapes a.current).1 e
        = cells a.mem.shapes e ∧
      readShapes { a.mem with
        shapes := (appendSlice grow zeroShape a.mem.shapes a.shapes a.current).1 } e
        = readShapes a.mem e :=
    fun e he => shapes_frame a.mem ({ a.mem with
        shapes := (appendSlice grow zeroShape a.mem.shapes a.shapes a.current).1 })
      hP hS e (h.entries e he).1 (h.entries e he).2 (fun _ _ => trivial)
  have hwf : WF { a with
      isDrawing := false
      mem := { a.mem with
        shapes := (appendSlice grow zeroShape a.mem.shapes a.shapes a.current).1 }
      shapes := (appendSlice grow zeroShape a.mem.shapes a.shapes a.current).2 } := by
    refine ⟨h.hist, ?_, ⟨hvr, ?_⟩, Or.inr hv, ?_⟩
    · intro e he
      refine ⟨(hold e he).1, ?_⟩
      have hne := (h.entries e he).2
      have hlt := (h.entries e he).1.1.1
      show e.arr ≠ (appendSlice grow zeroShape a.mem.shapes a.shapes a.current).2.arr
      rcases harr with e1 | e1 <;> rw [e1] <;> omega
    · intro sh hsh
      have hsh' : sh ∈ cells a.mem.shapes a.shapes ++ [a.current] := by
        rw [← hcr]; exact hsh
      rw [List.mem_append] at hsh'
      rcases hsh' with h3 | h3
      · exact h.shapes.2 sh h3
      · rw [List.mem_singleton.mp h3]; exact hv
    · intro hc
      exact absurd hc (by simp)
  have hread : read { a with
      isDrawing := false
      mem := { a.mem with
        shapes := (appendSlice grow zeroShape a.mem.shapes a.shapes a.current).1 }
      shapes := (appendSlice grow zeroShape a.mem.shapes a.shapes a.current).2 }
      = { read a with
          isDrawing := false
          shapes := (read a).shapes ++ [(read a).current] } := by
    have hs : readShapes { a.mem with
          shapes := (appendSlice grow zeroShape a.mem.shapes a.shapes a.current).1 }
        (appendSlice grow zeroShape a.mem.shapes a.shapes a.current).2
        = readShapes a.mem a.shapes ++ [readShape a.mem.points a.current] := by
      unfold readShapes
      simp only [hcr, List.map_append, List.map_singleton]
    have hh : readHistory { a.mem with
          shapes := (appendSlice grow zeroShape a.mem.shapes a.shapes a.current).1 } a.history
        = readHistory a.mem a.history :=
      readHistory_congr _ _ _ rfl (fun e he => (hold e he).2.2)
    unfold read
    simp only [hs, hh]
  obtain ⟨a', he, hw, hv', hft⟩ := saveState_refines grow _ hwf h1 h2
  rw [hread] at hv'
  exact ⟨a', he, hw, hv', hft⟩

/-- Replacing `current.Points` during a gesture by a valid slice in a newly allocated point
array. -/
theorem setPoints_refines (a : DrawingApp F) (h : WF a)
    (P : List (List (Point F))) (sl : Slice) (hP : Ext (fun _ => True) a.mem.points P)
    (hv : Valid P sl) (hf : a.mem.points.length ≤ sl.arr) :
    WF { a with mem := { a.mem with points := P },
                current := { a.current with Points := sl } } ∧
    read { a with mem := { a.mem with points := P },
                  current := { a.current with Points := sl } }
      = { read a with current := { (read a).current with Points := cells P sl } } := by
  have hS : Ext (fun _ => True) a.mem.shapes a.mem.shapes := Ext.refl _ _
  have hlive := shapes_frame a.mem ({ a.mem with points := P })
    hP hS a.shapes h.shapes trivial (fun _ _ => trivial)
  have hold : ∀ e ∈ cells a.mem.entries a.history,
      ShapesOk { a.mem with points := P } e ∧
      cells a.mem.shapes e = cells a.mem.shapes e ∧
      readShapes { a.mem with points := P } e = readShapes a.mem e :=
    fun e he => shapes_frame a.mem ({ a.mem with points := P })
      hP hS e (h.entries e he).1 trivial (fun _ _ => trivial)
  constructor
  · refine ⟨h.hist, fun e he => ⟨(hold e he).1, (h.entries e he).2⟩, hlive.1, Or.inr hv,
      fun _ => ⟨hv, ?_, ?_⟩⟩
    · intro sh hsh
      have := (h.shapes.2 sh hsh).1
      show sh.Points.arr ≠ sl.arr
      omega
    · intro e he sh hsh
      have := ((h.entries e he).1.2 sh hsh).1
      show sh.Points.arr ≠ sl.arr
      omega
  · have hh : readHistory { a.mem with points := P } a.history = readHistory a.mem a.history :=
      readHistory_congr _ _ _ rfl (fun e he => (hold e he).2.2)
    unfold read
    simp only [hlive.2.2, hh, readShape]

/-- `handleMouseUp` on pointers does what `handleMouseUp` on lists does. -/
theorem handleMouseUp_refines [GoFloat F] (grow : Nat → Nat → Nat) (a : DrawingApp F)
    (h : WF a) (h1 : -1 ≤ a.historyIndex) (h2 : a.historyIndex < (a.history.len : Int))
    (pos : Point F) :
    ∃ a', handleMouseUp grow a pos = some a' ∧ WF a' ∧
      WasmWebgl.handleMouseUp (read a) pos = some (read a') ∧
      (a.isDrawing = true → FreshTail a') := by
  cases hd : a.isDrawing
  · refine ⟨a, ?_, h, ?_, fun hc => absurd hc (by simp)⟩
    · simp [handleMouseUp, hd]
    · simp [WasmWebgl.handleMouseUp, read, hd]
  · by_cases hm : a.mode = "draw"
    · obtain ⟨a', he, hw, hv, hft⟩ := commit_refines grow a h hd h1 h2
      refine ⟨a', ?_, hw, ?_, fun _ => hft⟩
      · simp [handleMouseUp, hd, hm, he]
      · rw [← hv]
        simp [WasmWebgl.handleMouseUp, read, hd, hm]
    · obtain ⟨cE, cV, cF, cC⟩ := createShapePoints_spec grow a a.startPoint pos
      obtain ⟨hw1, hr1⟩ := setPoints_refines a h _ _ cE cV cF
      obtain ⟨a', he, hw, hv, hft⟩ := commit_refines grow _ hw1 hd h1 h2
      refine ⟨a', ?_, hw, ?_, fun _ => hft⟩
      · simp only [handleMouseUp, hd, hm, ne_eq, not_false_eq_true, if_true, Bool.not_true,
          Bool.false_eq_true, if_false]
        exact he
      · rw [← hv, hr1, cC]
        simp [WasmWebgl.handleMouseUp, read, hd, hm]

/-- `handleTouchEnd` on pointers does what `handleTouchEnd` on lists does. -/
theorem handleTouchEnd_refines [GoFloat F] (grow : Nat → Nat → Nat) (a : DrawingApp F)
    (h : WF a) (h1 : -1 ≤ a.historyIndex) (h2 : a.historyIndex < (a.history.len : Int)) :
    ∃ a', handleTouchEnd grow a = some a' ∧ WF a' ∧
      WasmWebgl.handleTouchEnd (read a) = some (read a') ∧
      (a.isDrawing = true → FreshTail a') := by
  cases hd : a.isDrawing
  · refine ⟨a, ?_, h, ?_, fun hc => absurd hc (by simp)⟩
    · simp [handleTouchEnd, hd]
    · simp [WasmWebgl.handleTouchEnd, read, hd]
  · obtain ⟨hvc, _, _⟩ := h.drawing hd
    have hlen : (read a).current.Points.length = a.current.Points.len :=
      cells_length _ _ hvc
    by_cases hm : a.mode ≠ "draw" ∧ a.current.Points.len > 0
    · have hm' : (read a).mode ≠ "draw" ∧ (read a).current.Points.length > 0 := by
        rw [hlen]; exact hm
      have hne : (read a).current.Points ≠ [] := List.ne_nil_of_length_pos hm'.2
      have hidx : index a.mem.points a.current.Points (a.current.Points.len - 1)
          = some ((read a).current.Points.getLast hne) := by
        rw [index_eq_cells _ _ _ (by omega), List.getLast_eq_getElem]
        have : (read a).current.Points = cells a.mem.points a.current.Points := rfl
        simp only [this, cells_length _ _ hvc]
        exact List.getElem?_eq_getElem _
      obtain ⟨cE, cV, cF, cC⟩ := createShapePoints_spec grow a a.startPoint
        ((read a).current.Points.getLast hne)
      obtain ⟨hw1, hr1⟩ := setPoints_refines a h _ _ cE cV cF
      obtain ⟨a', he, hw, hv, hft⟩ := commit_refines grow _ hw1 hd h1 h2
      refine ⟨a', ?_, hw, ?_, fun _ => hft⟩
      · unfold handleTouchEnd
        simp only [hd, Bool.not_true, Bool.false_eq_true, if_false]
        rw [if_pos hm]
        simp only [hidx]
        exact he
      · rw [← hv, hr1, cC]
        unfold WasmWebgl.handleTouchEnd
        have hd' : (read a).isDrawing = true := hd
        simp only [hd', Bool.not_true, Bool.false_eq_true, if_false]
        rw [dif_pos hm']
        rfl
    · have hm' : ¬ ((read a).mode ≠ "draw" ∧ (read a).current.Points.length > 0) := by
        rw [hlen]; exact hm
      obtain ⟨a', he, hw, hv, hft⟩ := commit_refines grow a h hd h1 h2
      refine ⟨a', ?_, hw, ?_, fun _ => hft⟩
      · unfold handleTouchEnd
        simp only [hd, Bool.not_true, Bool.false_eq_true, if_false]
        rw [if_neg hm]
        exact he
      · rw [← hv]
        unfold WasmWebgl.handleTouchEnd
        have hd' : (read a).isDrawing = true := hd
        simp only [hd', Bool.not_true, Bool.false_eq_true, if_false]
        rw [dif_neg hm']

/-- What `undo` and `redo` do once the new cursor `k` is computed: `make` and `copy` install a
new `[]Shape` array holding the `Shape` values of entry `k`, whose `Points` slices are those of
the entry. -/
theorem install_refines [GoFloat F] (a : DrawingApp F) (h : WF a) (k : Int) (hk0 : 0 ≤ k)
    (hk : k < (a.history.len : Int)) :
    ∃ e, index a.mem.entries a.history k.toNat = some e ∧
      e ∈ cells a.mem.entries a.history ∧
      WF { a with
        mem := { a.mem with
          shapes := copySlice (alloc a.mem.shapes (List.replicate e.len zeroShape)).1
            (alloc a.mem.shapes (List.replicate e.len zeroShape)).2 e }
        historyIndex := k
        shapes := (alloc a.mem.shapes (List.replicate e.len (zeroShape : Shape F))).2 } ∧
      read { a with
        mem := { a.mem with
          shapes := copySlice (alloc a.mem.shapes (List.replicate e.len zeroShape)).1
            (alloc a.mem.shapes (List.replicate e.len zeroShape)).2 e }
        historyIndex := k
        shapes := (alloc a.mem.shapes (List.replicate e.len (zeroShape : Shape F))).2 }
        = cursorAt (read a) k ∧
      cells (copySlice (alloc a.mem.shapes (List.replicate e.len zeroShape)).1
            (alloc a.mem.shapes (List.replicate e.len zeroShape)).2 e)
          (alloc a.mem.shapes (List.replicate e.len (zeroShape : Shape F))).2
        = cells a.mem.shapes e := by
  have hcl := cells_length _ _ h.hist
  have hlt : k.toNat < (cells a.mem.entries a.history).length := by omega
  have hget : (cells a.mem.entries a.history)[k.toNat]?
      = some (cells a.mem.entries a.history)[k.toNat] := List.getElem?_eq_getElem hlt
  have hmem : (cells a.mem.entries a.history)[k.toNat] ∈ cells a.mem.entries a.history :=
    List.getElem_mem hlt
  generalize (cells a.mem.entries a.history)[k.toNat] = e at hget hmem
  have hidx : index a.mem.entries a.history k.toNat = some e := by
    rw [index_eq_cells _ _ _ (by omega), hget]
  obtain ⟨hS, hv, hc⟩ := copy_into_made (zeroShape : Shape F) a.mem.shapes e
    (h.entries e hmem).1.1
  have hP : Ext (fun _ => True) a.mem.points a.mem.points := Ext.refl _ _
  have hold : ∀ e' ∈ cells a.mem.entries a.history,
      ShapesOk { a.mem with
        shapes := copySlice (alloc a.mem.shapes (List.replicate e.len zeroShape)).1
          (alloc a.mem.shapes (List.replicate e.len zeroShape)).2 e } e' ∧
      cells (copySlice (alloc a.mem.shapes (List.replicate e.len zeroShape)).1
          (alloc a.mem.shapes (List.replicate e.len zeroShape)).2 e) e'
        = cells a.mem.shapes e' ∧
      readShapes { a.mem with
        shapes := copySlice (alloc a.mem.shapes (List.replicate e.len zeroShape)).1
          (alloc a.mem.shapes (List.replicate e.len zeroShape)).2 e } e'
        = readShapes a.mem e' :=
    fun e' he' => shapes_frame a.mem ({ a.mem with
        shapes := copySlice (alloc a.mem.shapes (List.replicate e.len zeroShape)).1
          (alloc a.mem.shapes (List.replicate e.len zeroShape)).2 e })
      hP hS e' (h.entries e' he').1 trivial (fun _ _ => trivial)
  refine ⟨e, hidx, hmem, ⟨h.hist, ?_, ⟨hv, ?_⟩, h.current, ?_⟩, ?_, hc⟩
  · intro e' he'
    refine ⟨(hold e' he').1, ?_⟩
    have := (h.entries e' he').1.1.1
    show e'.arr ≠ a.mem.shapes.length
    omega
  · intro sh hsh
    rw [hc] at hsh
    exact (h.entries e hmem).1.2 sh hsh
  · intro hd
    obtain ⟨hv1, _, hs2⟩ := h.drawing hd
    refine ⟨hv1, ?_, ?_⟩
    · intro sh hsh
      exact hs2 e hmem sh (by rw [← hc]; exact hsh)
    · intro e' he' sh hsh
      exact hs2 e' he' sh (by rw [← (hold e' he').2.1]; exact hsh)
  · have hs : readShapes { a.mem with
          shapes := copySlice (alloc a.mem.shapes (List.replicate e.len zeroShape)).1
            (alloc a.mem.shapes (List.replicate e.len zeroShape)).2 e }
        (alloc a.mem.shapes (List.replicate e.len (zeroShape : Shape F))).2
        = readShapes a.mem e := by
      unfold readShapes
      simp only [hc]
    have hh : readHistory { a.mem with
          shapes := copySlice (alloc a.mem.shapes (List.replicate e.len zeroShape)).1
            (alloc a.mem.shapes (List.replicate e.len zeroShape)).2 e } a.history
        = readHistory a.mem a.history :=
      readHistory_congr _ _ _ rfl (fun e' he' => (hold e' he').2.2)
    have hentry : ((read a).history[k.toNat]?).getD [] = readShapes a.mem e := by
      unfold read readHistory
      simp only [List.getElem?_map, hget, Option.map_some', Option.getD_some]
    unfold cursorAt
    rw [hentry]
    unfold read
    simp only [hs, hh]

/-- `undo` on pointers does what `undo` on lists does. -/
theorem undo_refines [GoFloat F] (a : DrawingApp F) (h : WF a)
    (h2 : a.historyIndex < (a.history.len : Int)) :
    ∃ a', undo a = some a' ∧ WF a' ∧ WasmWebgl.undo (read a) = some (read a') := by
  have hv := undo_eq (read a) (by rw [read_history_length a h]; exact h2)
  have hidx : (read a).historyIndex = a.historyIndex := rfl
  rw [hidx] at hv
  by_cases hp : 0 < a.historyIndex
  · obtain ⟨e, hi, _, hw, hr, _⟩ := install_refines a h (a.historyIndex - 1) (by omega)
      (by omega)
    refine ⟨_, ?_, hw, ?_⟩
    · unfold undo
      simp only [gt_iff_lt, hp, if_true, hi]
    · rw [hv, if_pos hp, hr]
      rfl
  · refine ⟨a, ?_, h, ?_⟩
    · unfold undo
      simp only [gt_iff_lt, hp, if_false]
    · rw [hv, if_neg hp]

/-- `redo` on pointers does what `redo` on lists does. -/
theorem redo_refines [GoFloat F] (a : DrawingApp F) (h : WF a) (h1 : -1 ≤ a.historyIndex) :
    ∃ a', redo a = some a' ∧ WF a' ∧ WasmWebgl.redo (read a) = some (read a') := by
  have hv := redo_eq (read a) h1
  have hidx : (read a).historyIndex = a.historyIndex := rfl
  rw [hidx, read_history_length a h] at hv
  by_cases hp : a.historyIndex < (a.history.len : Int) - 1
  · obtain ⟨e, hi, _, hw, hr, _⟩ := install_refines a h (a.historyIndex + 1) (by omega)
      (by omega)
    have hn : ¬ a.historyIndex + 1 < 0 := by omega
    refine ⟨_, ?_, hw, ?_⟩
    · unfold redo
      simp only [hp, if_true, hn, if_false, hi]
    · rw [hv, if_pos hp, hr]
      rfl
  · refine ⟨a, ?_, h, ?_⟩
    · unfold redo
      simp only [hp, if_false]
    · rw [hv, if_neg hp]

/-- `clear` on pointers does what `clear` on lists does. -/
theorem clear_refines [GoFloat F] (grow : Nat → Nat → Nat) (a : DrawingApp F) (h : WF a)
    (h1 : -1 ≤ a.historyIndex) (h2 : a.historyIndex < (a.history.len : Int)) :
    ∃ a', clear grow a = some a' ∧ WF a' ∧ WasmWebgl.clear (read a) = some (read a') ∧
      FreshTail a' := by
  have hS : Ext (fun _ => True) a.mem.shapes (alloc a.mem.shapes []).1 := alloc_ext _ _ _
  have hP : Ext (fun _ => True) a.mem.points a.mem.points := Ext.refl _ _
  have hold : ∀ e ∈ cells a.mem.entries a.history,
      ShapesOk { a.mem with shapes := (alloc a.mem.shapes []).1 } e ∧
      cells (alloc a.mem.shapes []).1 e = cells a.mem.shapes e ∧
      readShapes { a.mem with shapes := (alloc a.mem.shapes []).1 } e = readShapes a.mem e :=
    fun e he => shapes_frame a.mem ({ a.mem with shapes := (alloc a.mem.shapes []).1 })
      hP hS e (h.entries e he).1 trivial (fun _ _ => trivial)
  have hc : cells (alloc a.mem.shapes ([] : List (Shape F))).1 (alloc a.mem.shapes []).2 = [] :=
    alloc_cells _ _
  have hwf : WF { a with
      mem := { a.mem with shapes := (alloc a.mem.shapes []).1 }
      shapes := (alloc a.mem.shapes []).2 } := by
    refine ⟨h.hist, ?_, ⟨alloc_valid _ _, ?_⟩, h.current, ?_⟩
    · intro e he
      refine ⟨(hold e he).1, ?_⟩
      have := (h.entries e he).1.1.1
      show e.arr ≠ a.mem.shapes.length
      omega
    · intro sh hsh
      rw [hc] at hsh
      simp at hsh
    · intro hd
      obtain ⟨hv1, _, hs2⟩ := h.drawing hd
      refine ⟨hv1, ?_, ?_⟩
      · intro sh hsh
        rw [hc] at hsh
        simp at hsh
      · intro e he sh hsh
        exact hs2 e he sh (by rw [← (hold e he).2.1]; exact hsh)
  have hread : read { a with
      mem := { a.mem with shapes := (alloc a.mem.shapes []).1 }
      shapes := (alloc a.mem.shapes []).2 } = { read a with shapes := [] } := by
    have hs : readShapes { a.mem with shapes := (alloc a.mem.shapes []).1 }
        (alloc a.mem.shapes []).2 = [] := by
      unfold readShapes
      simp only [hc, List.map_nil]
    have hh : readHistory { a.mem with shapes := (alloc a.mem.shapes []).1 } a.history
        = readHistory a.mem a.history :=
      readHistory_congr _ _ _ rfl (fun e he => (hold e he).2.2)
    unfold read
    simp only [hs, hh]
  obtain ⟨a', he, hw, hv, hft⟩ := saveState_refines grow _ hwf h1 h2
  rw [hread] at hv
  exact ⟨a', he, hw, hv, hft⟩

theorem WF_init [GoFloat F] : WF (initWasmDrawing : DrawingApp F) := by
  refine ⟨?_, ?_, ⟨?_, ?_⟩, Or.inl rfl, ?_⟩
  · simp [Valid, initWasmDrawing, arrayAt]
  · intro e he
    simp [cells, initWasmDrawing, arrayAt] at he
  · simp [Valid, initWasmDrawing, arrayAt]
  · intro sh hsh
    simp [cells, initWasmDrawing, arrayAt] at hsh
  · intro hd
    simp [initWasmDrawing] at hd

theorem read_init [GoFloat F] :
    read (initWasmDrawing : DrawingApp F) = (WasmWebgl.initWasmDrawing : WasmWebgl.DrawingApp F) := by
  simp [read, initWasmDrawing, WasmWebgl.initWasmDrawing, readShapes, readHistory, readShape,
    cells, arrayAt, zeroShape, zeroPoint, nilSlice]

/-- Refinement, one event: from a well-formed state whose reading satisfies the history
invariant, the handler on pointers returns, keeps the state well-formed, and the reading of its
result is the result of the handler on lists applied to the reading. -/
theorem step_refines [GoFloat F] (grow : Nat → Nat → Nat) (a : DrawingApp F) (h : WF a)
    (hinv : HistoryInv (read a)) (e : Event F) :
    ∃ a', step grow a e = some a' ∧ WF a' ∧ WasmWebgl.step (read a) e = some (read a') ∧
      (callsSaveState (read a) e = true → FreshTail a') := by
  have h1 : -1 ≤ a.historyIndex := hinv.1
  have h2 : a.historyIndex < (a.history.len : Int) := by
    rw [← read_history_length a h]; exact hinv.2.1
  have hno : ∀ b : DrawingApp F, false = true → FreshTail b := fun _ hc => absurd hc (by simp)
  cases e with
  | mouseDown pos =>
    obtain ⟨hw, hr⟩ := handleMouseDown_refines a h pos
    exact ⟨_, rfl, hw, by rw [hr]; rfl, hno _⟩
  | mouseMove pos =>
    obtain ⟨hw, hr⟩ := handleMouseMove_refines grow a h pos
    exact ⟨_, rfl, hw, by rw [hr]; rfl, hno _⟩
  | mouseUp pos => exact handleMouseUp_refines grow a h h1 h2 pos
  | touchStart pos =>
    obtain ⟨hw, hr⟩ := handleMouseDown_refines a h pos
    have e1 : handleTouchStart a pos = handleMouseDown a pos := rfl
    exact ⟨_, rfl, by rw [e1]; exact hw, by rw [e1, hr]; rfl, hno _⟩
  | touchMove pos =>
    obtain ⟨hw, hr⟩ := handleMouseMove_refines grow a h pos
    have e1 : handleTouchMove grow a pos = handleMouseMove grow a pos := rfl
    exact ⟨_, rfl, by rw [e1]; exact hw, by rw [e1, hr]; rfl, hno _⟩
  | touchEnd => exact handleTouchEnd_refines grow a h h1 h2
  | undo =>
    obtain ⟨a', he, hw, hr⟩ := undo_refines a h h2
    exact ⟨a', he, hw, hr, hno _⟩
  | redo =>
    obtain ⟨a', he, hw, hr⟩ := redo_refines a h h1
    exact ⟨a', he, hw, hr, hno _⟩
  | clear =>
    obtain ⟨a', he, hw, hr, hft⟩ := clear_refines grow a h h1 h2
    exact ⟨a', he, hw, hr, fun _ => hft⟩
  | setColor arg =>
    cases arg with
    | none => exact ⟨a, rfl, h, rfl, hno _⟩
    | some c =>
      exact ⟨_, rfl, ⟨h.hist, h.entries, h.shapes, h.current, h.drawing⟩, rfl, hno _⟩
  | setWidth arg =>
    cases arg with
    | none => exact ⟨a, rfl, h, rfl, hno _⟩
    | some c =>
      exact ⟨_, rfl, ⟨h.hist, h.entries, h.shapes, h.current, h.drawing⟩, rfl, hno _⟩
  | setMode arg =>
    cases arg with
    | none => exact ⟨a, rfl, h, rfl, hno _⟩
    | some c =>
      exact ⟨_, rfl, ⟨h.hist, h.entries, h.shapes, h.current, h.drawing⟩, rfl, hno _⟩

/-- Refinement, whole runs. -/
theorem run_refines [GoFloat F] (grow : Nat → Nat → Nat) (evs : List (Event F)) :
    ∀ a : DrawingApp F, WF a → HistoryInv (read a) →
      ∃ a', run grow a evs = some a' ∧ WF a' ∧ HistoryInv (read a') ∧
        WasmWebgl.run (read a) evs = some (read a') := by
  induction evs with
  | nil => intro a h hinv; exact ⟨a, rfl, h, hinv, rfl⟩
  | cons e es ih =>
    intro a h hinv
    obtain ⟨b, hb, hwb, hrb, _⟩ := step_refines grow a h hinv e
    obtain ⟨b', hb', hinvb, _⟩ := step_inv (read a) e hinv
    rw [hrb] at hb'
    cases hb'
    obtain ⟨c, hc, hwc, hinvc, hrc⟩ := ih b hwb hinvb
    refine ⟨c, ?_, hwc, hinvc, ?_⟩
    · simp [run, hb, hc]
    · simp [WasmWebgl.run, hrb, hrc]

/-- Every run from `initWasmDrawing` on pointers completes in a well-formed state whose reading
is the state the run on lists reaches. -/
theorem reachable_refines [GoFloat F] (grow : Nat → Nat → Nat) (evs : List (Event F)) :
    ∃ a, run grow (initWasmDrawing : DrawingApp F) evs = some a ∧ WF a ∧
      HistoryInv (read a) ∧
      WasmWebgl.run (WasmWebgl.initWasmDrawing : WasmWebgl.DrawingApp F) evs = some (read a) := by
  have := run_refines grow evs (initWasmDrawing : DrawingApp F) WF_init
    (by rw [read_init]; exact HistoryInv_init)
  rw [read_init] at this
  exact this

end Refinement

end Heap

section Claims

variable {F : Type}

/-- C1: every sequence of mouse/touch down/move/up events, undo, redo, clear, setColor,
setWidth and setMode handled from the state built by `initWasmDrawing` completes, and in the
state it reaches: if `historyIndex >= 0` then `shapes` is element-wise equal to
`history[historyIndex]`, and if `historyIndex = -1` then `shapes` is empty. -/
theorem C1_live_matches_current_entry [GoFloat F] (evs : List (Event F)) :
    ∃ a, run (initWasmDrawing : DrawingApp F) evs = some a ∧
      (0 ≤ a.historyIndex →
        ∃ entry, a.history[a.historyIndex.toNat]? = some entry ∧ ShapesEq a.shapes entry) ∧
      (a.historyIndex = -1 → a.shapes = []) := by
  obtain ⟨a, hr, ⟨_, _, _, h4, h5⟩, _⟩ := run_inv evs (initWasmDrawing : DrawingApp F)
    HistoryInv_init
  exact ⟨a, hr, fun h0 => ⟨a.shapes, h5 h0, ShapesEq_refl _⟩, fun h0 => (h4 h0).2⟩

/-- C2: every sequence of events (gesture ends that trigger `saveState`, undo, redo, clear and
all others) handled from the initial state (history empty, `historyIndex = -1`) completes in a
state with `-1 <= historyIndex < len(history)`, and `historyIndex = -1` holds there exactly when
`history` is empty, which is exactly when no `saveState` call was made on the way. -/
theorem C2_cursor_within_log [GoFloat F] (evs : List (Event F)) :
    ∃ a, run (initWasmDrawing : DrawingApp F) evs = some a ∧
      -1 ≤ a.historyIndex ∧ a.historyIndex < (a.history.length : Int) ∧
      (a.historyIndex = -1 ↔ a.history = []) ∧
      (a.historyIndex = -1 ↔ snapshotsTaken (initWasmDrawing : DrawingApp F) evs = 0) := by
  obtain ⟨a, hr, ⟨h1, h2, _, h4, _⟩, hiff⟩ := run_inv evs (initWasmDrawing : DrawingApp F)
    HistoryInv_init
  refine ⟨a, hr, h1, h2, ⟨fun h0 => (h4 h0).1, fun h0 => ?_⟩, ?_⟩
  · rw [h0] at h2
    simp only [List.length_nil, Nat.cast_zero] at h2
    omega
  · rw [hiff]
    simp [initWasmDrawing]

/-- C3: starting from the initial state, `n` consecutive `saveState` calls (the live list
being any list `lives[i]` at the `i`-th call) all return and leave `len(history) = min(n, 50)`,
`historyIndex = len(history) - 1` and `history` equal to the last `min(n, 50)` snapshots in
order; the live list is the one of the last call (unchanged by eviction), and after
`50 + 5` snapshots the length is 50 and the 5 oldest snapshots are gone. -/
theorem C3_capacity_eviction [GoFloat F] (lives : List (List (Shape F))) :
    ∃ a, snapshotAll (initWasmDrawing : DrawingApp F) lives = some a ∧
      a.history.length = min lives.length 50 ∧
      a.historyIndex = (a.history.length : Int) - 1 ∧
      a.history = lives.drop (lives.length - 50) ∧
      a.shapes = lives.getLast?.getD [] ∧
      (lives.length = 50 + 5 → a.history.length = 50 ∧ a.history = lives.drop 5) := by
  obtain ⟨a, he, hh, hi, hs⟩ := snapshotAll_tail lives (initWasmDrawing : DrawingApp F)
    (by simp [initWasmDrawing]) (by simp [initWasmDrawing])
  have hh' : a.history = lives.drop (lives.length - 50) := by
    rw [hh]; simp [initWasmDrawing]
  have hlen : a.history.length = min lives.length 50 := by
    rw [hh', List.length_drop]; omega
  refine ⟨a, he, hlen, hi, hh', ?_, ?_⟩
  · rw [hs]; rfl
  · intro hn
    rw [hn] at hlen hh'
    exact ⟨by rw [hlen]; rfl, by rw [hh']⟩

/-- C4: for every state with `-1 <= historyIndex < len(history)`, `saveState` returns with the
cursor at the tail (`historyIndex = len(history) - 1`); the log then holds only the entries up
to the old cursor followed by the new snapshot (minus the oldest entry when the capacity was
exceeded), so every entry after the old cursor is gone and a following `redo` changes nothing;
in particular after one `undo` and a new edit ended by `saveState`, `redo` leaves the whole
state unchanged. -/
theorem C4_saveState_destroys_redo (a : DrawingApp F) (h1 : -1 ≤ a.historyIndex)
    (h2 : a.historyIndex < (a.history.length : Int)) :
    (∃ a', saveState a = some a' ∧ a'.historyIndex = (a'.history.length : Int) - 1 ∧
      a'.history = (a.history.take (a.historyIndex + 1).toNat ++ [a.shapes]).drop
        (if 50 < a.historyIndex + 2 then 1 else 0) ∧
      redo a' = some a') ∧
    (∃ b, undo a = some b ∧ ∀ live : List (Shape F),
      ∃ c, saveState { b with shapes := live } = some c ∧ redo c = some c) := by
  constructor
  · obtain ⟨a', he, hi, hh, _, hr⟩ := saveState_tail a h1 h2
    exact ⟨a', he, hi, hh, hr⟩
  · refine ⟨_, undo_eq a h2, ?_⟩
    intro live
    by_cases hp : 0 < a.historyIndex
    · rw [if_pos hp]
      obtain ⟨c, he, _, _, _, hr⟩ := saveState_tail
        { a with historyIndex := a.historyIndex - 1, shapes := live }
        (by simp only; omega) (by simp only; omega)
      exact ⟨c, he, hr⟩
    · rw [if_neg hp]
      obtain ⟨c, he, _, _, _, hr⟩ := saveState_tail { a with shapes := live } h1 h2
      exact ⟨c, he, hr⟩

/-- Witness of C4 on a log of two entries with the cursor on the first one (the state after
one `undo`): the snapshot replaces the second entry. -/
theorem C4_saveState_destroys_redo_witness :
    (-1 : Int) ≤ (0 : Int) ∧ (0 : Int) < (2 : Int) ∧
    ((∃ a', saveState ({ (initWasmDrawing : DrawingApp Int) with
          history := [[], [⟨[⟨1, 1⟩], "#000000", 2⟩]], historyIndex := 0,
          shapes := [⟨[⟨5, 5⟩], "#ff0000", 2⟩] }) = some a' ∧
        a'.historyIndex = (a'.history.length : Int) - 1 ∧
        a'.history = [[], [⟨[⟨5, 5⟩], "#ff0000", 2⟩]] ∧ redo a' = some a')) :=
  ⟨by decide, by decide,
    by
      obtain ⟨a', he, hi, hh, hr⟩ := (C4_saveState_destroys_redo
        ({ (initWasmDrawing : DrawingApp Int) with
          history := [[], [⟨[⟨1, 1⟩], "#000000", 2⟩]], historyIndex := 0,
          shapes := [⟨[⟨5, 5⟩], "#ff0000", 2⟩] }) (by decide) (by decide)).1
      exact ⟨a', he, hi, hh, hr⟩⟩

/-- C5: for every `N` with `1 <= N <= 50`: from the initial state, `N` edits each followed by
`saveState` (the live list being `lives[i]` at the `i`-th call) return a state `a`; `N - 1`
calls of `undo` then lead to a state with the cursor at 0, and `N - 1` calls of `redo` from
there give back exactly `a` (all fields, so `shapes`, `history` and `historyIndex`). -/
theorem C5_history_linearity [GoFloat F] (N : Nat) (lives : List (List (Shape F)))
    (hlen : lives.length = N) (h1 : 1 ≤ N) (h50 : N ≤ 50) :
    ∃ a, snapshotAll (initWasmDrawing : DrawingApp F) lives = some a ∧
      ∃ b, times undo (N - 1) a = some b ∧ b.historyIndex = 0 ∧
        times redo (N - 1) b = some a := by
  obtain ⟨a, he, hh, hi, hs⟩ := snapshotAll_tail lives (initWasmDrawing : DrawingApp F)
    (by simp [initWasmDrawing]) (by simp [initWasmDrawing])
  have hh' : a.history = lives := by
    rw [hh]
    have : (initWasmDrawing : DrawingApp F).history.length + lives.length - 50 = 0 := by
      simp only [initWasmDrawing, List.length_nil]; omega
    rw [this]; simp [initWasmDrawing]
  have hlen' : a.history.length = N := by rw [hh', hlen]
  have hidx : a.historyIndex = (N : Int) - 1 := by rw [hi, hlen']
  have hcur : a.history[a.historyIndex.toNat]? = some a.shapes := by
    rw [hs, hh', hidx]
    have hne : lives ≠ [] := by
      intro h0; rw [h0] at hlen; simp at hlen; omega
    rw [List.getLast?_eq_getLast _ hne, Option.getD_some, List.getLast_eq_getElem]
    have : ((N : Int) - 1).toNat = lives.length - 1 := by omega
    rw [this]
    exact List.getElem?_eq_getElem _
  have hself := cursorAt_self a hcur
  refine ⟨a, he, cursorAt a 0, ?_, rfl, ?_⟩
  · have := times_undo_cursorAt a (N - 1) a.historyIndex (by omega) (by omega)
    rw [hself] at this
    rw [this]
    congr 2
    omega
  · have := times_redo_cursorAt a (N - 1) 0 (by omega) (by omega)
    rw [this]
    have : (0 : Int) + ((N - 1 : Nat) : Int) = a.historyIndex := by omega
    rw [this, hself]

/-- Witness of C5 with `N = 3`: three snapshots of lists of 1, 2 and 3 shapes. -/
theorem C5_history_linearity_witness :
    ([[⟨[⟨1, 1⟩], "#000000", 2⟩],
      [⟨[⟨1, 1⟩], "#000000", 2⟩, ⟨[⟨2, 2⟩], "#000000", 2⟩],
      [⟨[⟨1, 1⟩], "#000000", 2⟩, ⟨[⟨2, 2⟩], "#000000", 2⟩, ⟨[⟨3, 3⟩], "#000000", 2⟩]] :
        List (List (Shape Int))).length = 3 ∧ 1 ≤ 3 ∧ 3 ≤ 50 ∧
    ∃ a, snapshotAll (initWasmDrawing : DrawingApp Int)
        [[⟨[⟨1, 1⟩], "#000000", 2⟩],
         [⟨[⟨1, 1⟩], "#000000", 2⟩, ⟨[⟨2, 2⟩], "#000000", 2⟩],
         [⟨[⟨1, 1⟩], "#000000", 2⟩, ⟨[⟨2, 2⟩], "#000000", 2⟩, ⟨[⟨3, 3⟩], "#000000", 2⟩]]
          = some a ∧
      ∃ b, times undo (3 - 1) a = some b ∧ b.historyIndex = 0 ∧
        times redo (3 - 1) b = some a :=
  ⟨rfl, by decide, by decide, C5_history_linearity 3 _ rfl (by decide) (by decide)⟩

/-- C6: `clear` is undoable.  In every state `a` reached from `initWasmDrawing` by any event
sequence (whatever committed shapes `a.shapes` holds, for example 3), `clear` returns a state
with an empty live list, and a following `undo` returns a state whose live list is
element-wise equal to `a.shapes`. -/
theorem C6_clear_is_undoable [GoFloat F] (evs : List (Event F)) :
    ∃ a, run (initWasmDrawing : DrawingApp F) evs = some a ∧
      ∃ b, clear a = some b ∧ b.shapes = [] ∧
        ∃ c, undo b = some c ∧ ShapesEq c.shapes a.shapes := by
  obtain ⟨a, hr, hinv, _⟩ := run_inv evs (initWasmDrawing : DrawingApp F) HistoryInv_init
  obtain ⟨b, c, hb, hbs, _, hc, hcs⟩ := clear_then_undo a hinv
  refine ⟨a, hr, b, hb, hbs, c, hc, ?_⟩
  rw [hcs]
  exact ShapesEq_refl _

/-- C7 as stated fails: after four strokes and one `undo` the live list holds 3 committed
shapes and the log 4 entries; `clear` drops the entry after the cursor before it appends, so
the log still has 4 entries, not 5. -/
theorem C7_counterexample :
    ∃ a b, run (initWasmDrawing : DrawingApp Int) fourStrokesThenUndo = some a ∧
      a.shapes.length = 3 ∧ a.history.length = 4 ∧ clear a = some b ∧
      b.history.length = 4 ∧ b.history.length ≠ a.history.length + 1 :=
  ⟨_, _, rfl, rfl, rfl, rfl, rfl, by decide⟩

/-- C7 (amended): in every state reached from `initWasmDrawing`, `clear` returns and leaves
`len(history) = min(historyIndex + 2, 50)`: the entries after the cursor are dropped, the
snapshot of the empty list is appended and the oldest entry is evicted beyond 50.  The log grows
by exactly 1 when the cursor was at the tail and the log held fewer than 50 entries. -/
theorem C7_clear_history_length [GoFloat F] (evs : List (Event F)) :
    ∃ a b, run (initWasmDrawing : DrawingApp F) evs = some a ∧ clear a = some b ∧
      (b.history.length : Int) = min (a.historyIndex + 2) 50 ∧
      (a.historyIndex = (a.history.length : Int) - 1 → a.history.length < 50 →
        b.history.length = a.history.length + 1) := by
  obtain ⟨a, hr, hinv, _⟩ := run_inv evs (initWasmDrawing : DrawingApp F) HistoryInv_init
  obtain ⟨b, c, hb, _, hl, _, _⟩ := clear_then_undo a hinv
  refine ⟨a, b, hr, hb, hl, ?_⟩
  intro hi h50
  omega

/-- Witness of the amended C7 on the scenario of the specification: `clear` on a canvas with
three shapes drawn from the initial state takes the log from 3 to 4 entries. -/
theorem C7_clear_history_length_witness :
    ∃ a b, run (initWasmDrawing : DrawingApp Int) threeStrokes = some a ∧ clear a = some b ∧
      a.shapes.length = 3 ∧ a.history.length = 3 ∧ b.history.length = 4 := by
  obtain ⟨a, b, hr, hb, _, himp⟩ := C7_clear_history_length threeStrokes
  have ha : run (initWasmDrawing : DrawingApp Int) threeStrokes = some
      { (initWasmDrawing : DrawingApp Int) with
        shapes := [⟨[⟨1, 1⟩], "#000000", 2⟩, ⟨[⟨2, 2⟩], "#000000", 2⟩, ⟨[⟨3, 3⟩], "#000000", 2⟩]
        current := ⟨[⟨3, 3⟩], "#000000", 2⟩
        startPoint := ⟨3, 3⟩
        historyIndex := 2
        history := [[⟨[⟨1, 1⟩], "#000000", 2⟩],
          [⟨[⟨1, 1⟩], "#000000", 2⟩, ⟨[⟨2, 2⟩], "#000000", 2⟩],
          [⟨[⟨1, 1⟩], "#000000", 2⟩, ⟨[⟨2, 2⟩], "#000000", 2⟩, ⟨[⟨3, 3⟩], "#000000", 2⟩]] } :=
    rfl
  rw [ha] at hr
  cases hr
  exact ⟨_, b, ha, hb, rfl, rfl, himp rfl (by decide)⟩

/-- C8 as stated fails for the list installed by `undo`: after two strokes and one `undo`, the
first shape of the live list and the first shape of the entry at the cursor have the same
`Points` slice, a slice of one point in the same backing array. -/
theorem C8_counterexample :
    ∃ a e sh sh',
      Heap.run (fun c _ => 2 * c) (Heap.initWasmDrawing : Heap.DrawingApp Int)
        twoStrokesThenUndo = some a ∧
      index a.mem.entries a.history a.historyIndex.toNat = some e ∧
      index a.mem.shapes a.shapes 0 = some sh ∧ index a.mem.shapes e 0 = some sh' ∧
      sh.Points = { arr := 1, off := 0, len := 1, cap := 1 } ∧ sh'.Points = sh.Points ∧
      Heap.sharesStorage sh.Points sh'.Points :=
  ⟨_, _, _, _, rfl, rfl, rfl, rfl, rfl, rfl, by decide⟩

/-- C8 (amended): with slices as pointers into backing arrays and for every growth policy of
`append`, every event sequence from `initWasmDrawing` and every further event are handled
without panic, and the lists the slices denote evolve as in the list model.  The further event
leaves the log as it is or, through `saveState`, keeps the entries up to the cursor with
unchanged points, colour and width, appends the snapshot and drops the oldest entry beyond 50:
no entry still in the log is changed.  No entry uses the backing array of the live list, and
the entry stored by `saveState` has no point storage in common with the live list.  (The list
installed by `undo`/`redo` does share the point arrays of its entry; no handler writes to
them.) -/
theorem C8_entries_isolated [GoFloat F] (grow : Nat → Nat → Nat) (evs : List (Event F))
    (e : Event F) :
    ∃ a a', Heap.run grow (Heap.initWasmDrawing : Heap.DrawingApp F) evs = some a ∧
      run (initWasmDrawing : DrawingApp F) evs = some (Heap.read a) ∧
      Heap.step grow a e = some a' ∧ step (Heap.read a) e = some (Heap.read a') ∧
      (Heap.readHistory a'.mem a'.history = Heap.readHistory a.mem a.history ∨
        Heap.readHistory a'.mem a'.history =
          ((Heap.readHistory a.mem a.history).take (a.historyIndex + 1).toNat ++
            [Heap.readShapes a'.mem a'.shapes]).drop
              (if 50 < a.historyIndex + 2 then 1 else 0)) ∧
      (∀ entry ∈ cells a'.mem.entries a'.history, entry.arr ≠ a'.shapes.arr) ∧
      (callsSaveState (Heap.read a) e = true → Heap.FreshTail a') := by
  obtain ⟨a, hr, hw, hinv, hrun⟩ := Heap.reachable_refines grow evs
  obtain ⟨a', hs, hw', hstep, hft⟩ := Heap.step_refines grow a hw hinv e
  exact ⟨a, a', hr, hrun, hs, hstep, step_history (Heap.read a) hinv e (Heap.read a') hstep,
    fun entry he => (hw'.entries entry he).2, hft⟩

/-- C9: in every state `a` reached from `initWasmDrawing` whose mode is `"draw"`, a gesture
(mouse or touch) that starts at `p0`, receives moves at `ps` in that order and then ends (at
any position `q`) is handled without panic; afterwards the live list is the previous list with
exactly one shape appended, whose points are `p0 :: ps` (also when `ps` is empty), no gesture
is active, and the new live list is the snapshot at the cursor, which is at the tail. -/
theorem C9_draw_gesture_commits_stroke [GoFloat F] (evs : List (Event F)) (a : DrawingApp F)
    (hreach : run (initWasmDrawing : DrawingApp F) evs = some a) (hmode : a.mode = "draw")
    (touch : Bool) (p0 : Point F) (ps : List (Point F)) (q : Point F) :
    ∃ a', run a (gesture touch p0 ps q) = some a' ∧
      a'.shapes = a.shapes ++ [{ Points := p0 :: ps, Color := a.color, Width := a.lineWidth }] ∧
      a'.isDrawing = false ∧
      a'.historyIndex = (a'.history.length : Int) - 1 ∧
      a'.history[a'.historyIndex.toNat]? = some a'.shapes := by
  obtain ⟨a', hr, hs, hd, hi, hsnap⟩ :=
    gesture_commit a (reachable_inv evs a hreach) touch p0 ps q
  refine ⟨a', hr, ?_, hd, hi, hsnap⟩
  rw [hs]
  simp only [committedShape, hmode, if_true]

/-- Witness of C9 on the scenario of the specification: from the initial state (mode
`"draw"`), a mouse gesture from (10,10) with moves to (20,10) and (30,10) commits the shape
with points `[(10,10),(20,10),(30,10)]`. -/
theorem C9_draw_gesture_commits_stroke_witness :
    run (initWasmDrawing : DrawingApp Int) [] = some initWasmDrawing ∧
    (initWasmDrawing : DrawingApp Int).mode = "draw" ∧
    ∃ a', run (initWasmDrawing : DrawingApp Int)
        (gesture false ⟨10, 10⟩ [⟨20, 10⟩, ⟨30, 10⟩] ⟨30, 10⟩) = some a' ∧
      a'.shapes = [] ++ [{ Points := [⟨10, 10⟩, ⟨20, 10⟩, ⟨30, 10⟩], Color := "#000000",
                           Width := 2 }] ∧
      a'.isDrawing = false ∧
      a'.historyIndex = (a'.history.length : Int) - 1 ∧
      a'.history[a'.historyIndex.toNat]? = some a'.shapes :=
  ⟨rfl, rfl, C9_draw_gesture_commits_stroke [] initWasmDrawing rfl rfl false
    ⟨10, 10⟩ [⟨20, 10⟩, ⟨30, 10⟩] ⟨30, 10⟩⟩

/-- C10: in every state `a` reached from `initWasmDrawing` whose mode is not `"draw"`, a mouse
gesture that starts at `p0`, receives any moves `ps` and ends with mouse-up at `q` is handled
without panic and appends to the live list one shape whose points are
`createShapePoints(p0, q)` for the current mode; in mode `"rect"` these are
`[p0, (q.X, p0.Y), q, (p0.X, q.Y), p0]`. -/
theorem C10_parametric_mouse_gesture [GoFloat F] (evs : List (Event F)) (a : DrawingApp F)
    (hreach : run (initWasmDrawing : DrawingApp F) evs = some a) (hmode : a.mode ≠ "draw")
    (p0 : Point F) (ps : List (Point F)) (q : Point F) :
    ∃ a', run a (gesture false p0 ps q) = some a' ∧
      a'.shapes = a.shapes ++
        [{ Points := createShapePoints a p0 q, Color := a.color, Width := a.lineWidth }] ∧
      (a.mode = "rect" →
        createShapePoints a p0 q = [p0, ⟨q.X, p0.Y⟩, q, ⟨p0.X, q.Y⟩, p0]) := by
  obtain ⟨a', hr, hs, _⟩ := gesture_commit a (reachable_inv evs a hreach) false p0 ps q
  refine ⟨a', hr, ?_, ?_⟩
  · rw [hs]
    simp only [committedShape, hmode, if_false, Bool.false_eq_true]
  · intro hrect
    simp [createShapePoints, hrect]

/-- Witness of C10 on the scenario of the specification: after `setMode("rect")`, a mouse
gesture from (0,0), over (50,20), to (100,50) commits the shape with points
`[(0,0),(100,0),(100,50),(0,50),(0,0)]`. -/
theorem C10_parametric_mouse_gesture_witness :
    run (initWasmDrawing : DrawingApp Int) [.setMode (some "rect")]
      = some (setMode initWasmDrawing (some "rect")) ∧
    (setMode (initWasmDrawing : DrawingApp Int) (some "rect")).mode ≠ "draw" ∧
    ∃ a', run (setMode (initWasmDrawing : DrawingApp Int) (some "rect"))
        (gesture false ⟨0, 0⟩ [⟨50, 20⟩] ⟨100, 50⟩) = some a' ∧
      a'.shapes = [] ++ [{ Points := [⟨0, 0⟩, ⟨100, 0⟩, ⟨100, 50⟩, ⟨0, 50⟩, ⟨0, 0⟩],
                           Color := "#000000", Width := 2 }] := by
  obtain ⟨a', hr, hs, _⟩ := C10_parametric_mouse_gesture [.setMode (some "rect")]
    (setMode (initWasmDrawing : DrawingApp Int) (some "rect")) rfl (by decide)
    ⟨0, 0⟩ [⟨50, 20⟩] ⟨100, 50⟩
  exact ⟨rfl, by decide, a', hr, hs⟩

/-- C12: for every mode string other than `"rect"` and `"circle"` (`"line"`, the empty string
and every unrecognized name) and all points `start`, `end`, `createShapePoints` returns the
two-element list `[start, end]`; it is a total function, so no error is reported.  `setMode`
stores any name verbatim, so this holds after `setMode(m)` for every such `m`. -/
theorem C12_line_and_fallback [GoFloat F] (a : DrawingApp F) (start end_ : Point F)
    (hrect : a.mode ≠ "rect") (hcircle : a.mode ≠ "circle") :
    createShapePoints a start end_ = [start, end_] ∧
    ∀ (b : DrawingApp F) (m : String), m ≠ "rect" → m ≠ "circle" →
      (setMode b (some m)).mode = m ∧
      createShapePoints (setMode b (some m)) start end_ = [start, end_] := by
  have key : ∀ x : DrawingApp F, x.mode ≠ "rect" → x.mode ≠ "circle" →
      createShapePoints x start end_ = [start, end_] := by
    intro x h1 h2
    unfold createShapePoints
    by_cases hl : x.mode = "line"
    · rw [if_pos hl]
    · rw [if_neg hl, if_neg h1, if_neg h2]
  exact ⟨key a hrect hcircle, fun b m h1 h2 => ⟨rfl, key (setMode b (some m)) h1 h2⟩⟩

/-- Witness of C12 in the unrecognized mode `"triangle"`. -/
theorem C12_line_and_fallback_witness :
    (setMode (initWasmDrawing : DrawingApp Int) (some "triangle")).mode ≠ "rect" ∧
    (setMode (initWasmDrawing : DrawingApp Int) (some "triangle")).mode ≠ "circle" ∧
    createShapePoints (setMode (initWasmDrawing : DrawingApp Int) (some "triangle"))
      ⟨1, 2⟩ ⟨30, 40⟩ = [⟨1, 2⟩, ⟨30, 40⟩] :=
  ⟨by decide, by decide,
    (C12_line_and_fallback (setMode (initWasmDrawing : DrawingApp Int) (some "triangle"))
      ⟨1, 2⟩ ⟨30, 40⟩ (by decide) (by decide)).1⟩

/-- C13: in mode `"rect"`, for all points `start`, `end`, `createShapePoints` returns exactly
the 5 points `[start, (end.X, start.Y), end, (start.X, end.Y), start]`; the first and the last
point are both `start`. -/
theorem C13_rect_outline [GoFloat F] (a : DrawingApp F) (start end_ : Point F)
    (hmode : a.mode = "rect") :
    createShapePoints a start end_ =
      [start, { X := end_.X, Y := start.Y }, end_, { X := start.X, Y := end_.Y }, start] ∧
    (createShapePoints a start end_).length = 5 ∧
    (createShapePoints a start end_).head? = some start ∧
    (createShapePoints a start end_).getLast? = some start := by
  have h1 : ¬ a.mode = "line" := by rw [hmode]; decide
  have e : createShapePoints a start end_ =
      [start, { X := end_.X, Y := start.Y }, end_, { X := start.X, Y := end_.Y }, start] := by
    unfold createShapePoints
    rw [if_neg h1, if_pos hmode]
  rw [e]
  exact ⟨rfl, rfl, rfl, rfl⟩

/-- Witness of C13 on the rectangle from (0,0) to (100,50). -/
theorem C13_rect_outline_witness :
    (setMode (initWasmDrawing : DrawingApp Int) (some "rect")).mode = "rect" ∧
    createShapePoints (setMode (initWasmDrawing : DrawingApp Int) (some "rect"))
      ⟨0, 0⟩ ⟨100, 50⟩ = [⟨0, 0⟩, ⟨100, 0⟩, ⟨100, 50⟩, ⟨0, 50⟩, ⟨0, 0⟩] :=
  ⟨rfl, (C13_rect_outline (setMode (initWasmDrawing : DrawingApp Int) (some "rect"))
    ⟨0, 0⟩ ⟨100, 50⟩ rfl).1⟩

/-- C14: in mode `"circle"`, for all points `start`, `end` (equal or not), `createShapePoints`
returns exactly 51 points, and for `i = 0..50` the `i`-th is
`(cx + rx*cos(angle), cy + ry*sin(angle))` with `angle = float64(i) * 2 * Pi / 50`,
`cx, cy = (start + end) / 2` and `rx, ry = |end - start| / 2` per axis, all computed with the
operations of `float64` in the order the code applies them. -/
theorem C14_circle_tessellation [GoFloat F] (a : DrawingApp F) (start end_ : Point F)
    (hmode : a.mode = "circle") :
    (createShapePoints a start end_).length = 51 ∧
    ∀ i : Nat, i ≤ 50 →
      (createShapePoints a start end_)[i]? = some
        { X := GoFloat.add
            (GoFloat.div (GoFloat.add start.X end_.X) (GoFloat.ofInt 2))
            (GoFloat.mul
              (GoFloat.div (GoFloat.abs (GoFloat.sub end_.X start.X)) (GoFloat.ofInt 2))
              (GoFloat.cos (GoFloat.div
                (GoFloat.mul (GoFloat.mul (GoFloat.ofInt (i : Int)) (GoFloat.ofInt 2))
                  GoFloat.pi)
                (GoFloat.ofInt 50))))
          Y := GoFloat.add
            (GoFloat.div (GoFloat.add start.Y end_.Y) (GoFloat.ofInt 2))
            (GoFloat.mul
              (GoFloat.div (GoFloat.abs (GoFloat.sub end_.Y start.Y)) (GoFloat.ofInt 2))
              (GoFloat.sin (GoFloat.div
                (GoFloat.mul (GoFloat.mul (GoFloat.ofInt (i : Int)) (GoFloat.ofInt 2))
                  GoFloat.pi)
                (GoFloat.ofInt 50)))) } := by
  rw [createShapePoints_circle a start end_ hmode]
  constructor
  · rw [List.length_map, List.length_range]
  · intro i hi
    rw [List.getElem?_map, List.getElem?_range (by omega)]
    rfl

/-- Witness of C14 in the `Float` interpretation, on the degenerate box `start = end`. -/
theorem C14_circle_tessellation_witness :
    (setMode (initWasmDrawing : DrawingApp Float) (some "circle")).mode = "circle" ∧
    (createShapePoints (setMode (initWasmDrawing : DrawingApp Float) (some "circle"))
      ⟨10, 10⟩ ⟨10, 10⟩).length = 51 :=
  ⟨rfl, (C14_circle_tessellation (setMode (initWasmDrawing : DrawingApp Float) (some "circle"))
    ⟨10, 10⟩ ⟨10, 10⟩ rfl).1⟩

/-- C11 (the code evaluated on a failing input): in mode `"line"`, a touch gesture that starts
at (0,0) and moves to (100,50) commits the points `[(0,0), (0,0)]`, which is
`createShapePoints((0,0), (0,0))` and not `createShapePoints((0,0), (100,50))`; the same gesture
made with the mouse commits `[(0,0), (100,50)]`. -/
theorem C11_touch_end_commits_anchor :
    ∃ a' b' : DrawingApp Int,
      run (initWasmDrawing : DrawingApp Int) touchLine = some a' ∧
      a'.shapes = [⟨[⟨0, 0⟩, ⟨0, 0⟩], "#000000", 2⟩] ∧
      createShapePoints a' ⟨0, 0⟩ ⟨100, 50⟩ = [⟨0, 0⟩, ⟨100, 50⟩] ∧
      a'.shapes ≠ [⟨createShapePoints a' ⟨0, 0⟩ ⟨100, 50⟩, "#000000", 2⟩] ∧
      a'.shapes = [⟨createShapePoints a' ⟨0, 0⟩ ⟨0, 0⟩, "#000000", 2⟩] ∧
      run (initWasmDrawing : DrawingApp Int) mouseLine = some b' ∧
      b'.shapes = [⟨createShapePoints b' ⟨0, 0⟩ ⟨100, 50⟩, "#000000", 2⟩] :=
  ⟨_, _, rfl, rfl, rfl, by decide, rfl, rfl, rfl⟩

/-- C15: for every state, `undo` with `historyIndex <= 0` and `redo` with
`historyIndex >= len(history) - 1` return the state unchanged (`shapes`, `history`,
`historyIndex` and every other field) and do not fail.  Otherwise, in every state reached from
`initWasmDrawing`, `undo` decrements and `redo` increments `historyIndex` by exactly one and
sets `shapes` to the entry at the new index, without failing and leaving every other field as
it was. -/
theorem C15_undo_redo_guards [GoFloat F] (evs : List (Event F)) (a : DrawingApp F)
    (hreach : run (initWasmDrawing : DrawingApp F) evs = some a) :
    (∀ b : DrawingApp F,
      (b.historyIndex ≤ 0 → undo b = some b) ∧
      ((b.history.length : Int) - 1 ≤ b.historyIndex → redo b = some b)) ∧
    (0 < a.historyIndex →
      ∃ entry, a.history[(a.historyIndex - 1).toNat]? = some entry ∧
        undo a = some { a with historyIndex := a.historyIndex - 1, shapes := entry }) ∧
    (a.historyIndex < (a.history.length : Int) - 1 →
      ∃ entry, a.history[(a.historyIndex + 1).toNat]? = some entry ∧
        redo a = some { a with historyIndex := a.historyIndex + 1, shapes := entry }) := by
  obtain ⟨h1, h2, _⟩ := reachable_inv evs a hreach
  refine ⟨?_, ?_, ?_⟩
  · intro b
    constructor
    · intro h
      unfold undo
      rw [if_neg (by omega)]
    · intro h
      unfold redo
      rw [if_neg (by omega)]
  · intro h0
    have hlt : (a.historyIndex - 1).toNat < a.history.length := by omega
    refine ⟨a.history[(a.historyIndex - 1).toNat], List.getElem?_eq_getElem hlt, ?_⟩
    rw [undo_eq a h2, if_pos h0, List.getElem?_eq_getElem hlt]
    rfl
  · intro h0
    have hlt : (a.historyIndex + 1).toNat < a.history.length := by omega
    refine ⟨a.history[(a.historyIndex + 1).toNat], List.getElem?_eq_getElem hlt, ?_⟩
    rw [redo_eq a h1, if_pos h0, List.getElem?_eq_getElem hlt]
    rfl

/-- Witness of C15: after three strokes `undo` installs the second snapshot; after two strokes
and one `undo`, `redo` installs the second snapshot. -/
theorem C15_undo_redo_guards_witness :
    (∃ a : DrawingApp Int, run (initWasmDrawing : DrawingApp Int) threeStrokes = some a ∧
      0 < a.historyIndex ∧
      ∃ entry, a.history[(a.historyIndex - 1).toNat]? = some entry ∧
        undo a = some { a with historyIndex := a.historyIndex - 1, shapes := entry }) ∧
    (∃ a : DrawingApp Int, run (initWasmDrawing : DrawingApp Int) twoStrokesThenUndo = some a ∧
      a.historyIndex < (a.history.length : Int) - 1 ∧
      ∃ entry, a.history[(a.historyIndex + 1).toNat]? = some entry ∧
        redo a = some { a with historyIndex := a.historyIndex + 1, shapes := entry }) :=
  ⟨⟨_, rfl, by decide, (C15_undo_redo_guards threeStrokes _ rfl).2.1 (by decide)⟩,
   ⟨_, rfl, by decide, (C15_undo_redo_guards twoStrokesThenUndo _ rfl).2.2 (by decide)⟩⟩

/-- C16 (as stated, refuted): with a freehand stroke in progress (points `[(1,1), (2,2)]`), a
second mouse-down or touch-start at (5,5) changes the state (so it is not ignored) and leaves
`shapes`, `history` and `historyIndex` as they were (so the stroke in progress is neither
committed nor snapshotted); the result differs from an end followed by a start. -/
theorem C16_counterexample :
    ∃ a a' : DrawingApp Int,
      run (initWasmDrawing : DrawingApp Int) strokeInProgress = some a ∧
      a.isDrawing = true ∧ a.current.Points = [⟨1, 1⟩, ⟨2, 2⟩] ∧
      step a (.mouseDown ⟨5, 5⟩) = some a' ∧ step a (.touchStart ⟨5, 5⟩) = some a' ∧
      a' ≠ a ∧ a'.current.Points = [⟨5, 5⟩] ∧
      a'.shapes = [] ∧ a'.history = [] ∧ a'.historyIndex = -1 ∧
      run a [.touchEnd, .touchStart ⟨5, 5⟩] ≠ some a' ∧
      run a [.mouseUp ⟨5, 5⟩, .mouseDown ⟨5, 5⟩] ≠ some a' :=
  ⟨_, _, rfl, rfl, rfl, rfl, rfl, by decide, rfl, rfl, rfl, rfl, by decide, by decide⟩

/-- C16 (amended): a gesture start (mouse down or touch start) received while a gesture is
active restarts the gesture: `isDrawing` stays true, `startPoint` becomes the new position and
`current` becomes a one-point shape at that position with the session colour and width; the
shape that was in progress is dropped, and `shapes`, `history` and `historyIndex` are
unchanged. -/
theorem C16_start_restarts_gesture [GoFloat F] (a : DrawingApp F) (pos : Point F)
    (hactive : a.isDrawing = true) :
    handleMouseDown a pos =
      { a with startPoint := pos
               current := { Points := [pos], Color := a.color, Width := a.lineWidth } } ∧
    handleTouchStart a pos = handleMouseDown a pos ∧
    (handleMouseDown a pos).isDrawing = true ∧
    (handleMouseDown a pos).shapes = a.shapes ∧
    (handleMouseDown a pos).history = a.history ∧
    (handleMouseDown a pos).historyIndex = a.historyIndex := by
  refine ⟨?_, rfl, rfl, rfl, rfl, rfl⟩
  unfold handleMouseDown
  rw [← hactive]

/-- Witness of C16 on the state with a freehand stroke in progress. -/
theorem C16_start_restarts_gesture_witness :
    (handleMouseMove (handleMouseDown (initWasmDrawing : DrawingApp Int) ⟨1, 1⟩) ⟨2, 2⟩).isDrawing
      = true ∧
    (handleMouseDown
      (handleMouseMove (handleMouseDown (initWasmDrawing : DrawingApp Int) ⟨1, 1⟩) ⟨2, 2⟩)
      ⟨5, 5⟩).shapes = [] :=
  ⟨rfl, (C16_start_restarts_gesture
    (handleMouseMove (handleMouseDown (initWasmDrawing : DrawingApp Int) ⟨1, 1⟩) ⟨2, 2⟩)
    ⟨5, 5⟩ rfl).2.2.2.1⟩

/-- C17: in every reachable state, a gesture (mouse or touch) whose start and end are separated
by moves and by any `setColor` / `setWidth` calls commits exactly the shape of the same gesture
without these calls: its colour and width are the session colour and line width at the
gesture start.  `setColor`, `setWidth` and `setMode` change neither `current` (the in-progress
shape) nor `shapes`, `history` or `historyIndex`. -/
theorem C17_style_fixed_at_gesture_start [GoFloat F] (evs : List (Event F)) (a : DrawingApp F)
    (hreach : run (initWasmDrawing : DrawingApp F) evs = some a)
    (touch : Bool) (p0 q : Point F) (mid : List (Event F))
    (hmid : ∀ e ∈ mid, midGesture e = true) :
    (∃ a', run a ((if touch then Event.touchStart p0 else Event.mouseDown p0) ::
          (mid ++ [if touch then Event.touchEnd else Event.mouseUp q])) = some a' ∧
      a'.shapes = a.shapes ++ [committedShape a touch p0 (movePositions mid) q] ∧
      a'.current = committedShape a touch p0 (movePositions mid) q ∧
      (committedShape a touch p0 (movePositions mid) q).Color = a.color ∧
      (committedShape a touch p0 (movePositions mid) q).Width = a.lineWidth ∧
      a'.history[a'.historyIndex.toNat]? = some a'.shapes) ∧
    (∀ (b : DrawingApp F) (c : Option String) (w : Option F) (m : Option String),
      (setColor b c).current = b.current ∧ (setColor b c).shapes = b.shapes ∧
      (setColor b c).history = b.history ∧ (setColor b c).historyIndex = b.historyIndex ∧
      (setWidth b w).current = b.current ∧ (setWidth b w).shapes = b.shapes ∧
      (setWidth b w).history = b.history ∧ (setWidth b w).historyIndex = b.historyIndex ∧
      (setMode b m).current = b.current ∧ (setMode b m).shapes = b.shapes ∧
      (setMode b m).history = b.history ∧ (setMode b m).historyIndex = b.historyIndex) := by
  constructor
  · obtain ⟨c, w, hr⟩ := run_styled_gesture a touch p0 q mid hmid
    obtain ⟨a', he, hinv, h0, _, hs, _, hc, _⟩ := saveState_after_inv a
      { a with
        isDrawing := false
        startPoint := p0
        color := c
        lineWidth := w
        current := committedShape a touch p0 (movePositions mid) q
        shapes := a.shapes ++ [committedShape a touch p0 (movePositions mid) q] }
      (reachable_inv evs a hreach) rfl rfl
    rw [hr]
    exact ⟨a', he, hs, hc, rfl, rfl, hinv.2.2.2.2 h0⟩
  · intro b c w m
    cases c <;> cases w <;> cases m <;> exact ⟨rfl, rfl, rfl, rfl, rfl, rfl, rfl, rfl, rfl, rfl, rfl, rfl⟩

/-- Witness of C17: a black stroke of width 2 during which the colour is set to red and the
width to 9 is committed black with width 2. -/
theorem C17_style_fixed_at_gesture_start_witness :
    ∃ a' : DrawingApp Int,
      run (initWasmDrawing : DrawingApp Int)
        (Event.mouseDown ⟨1, 1⟩ :: (strokeWithStyleChange ++ [Event.mouseUp ⟨3, 3⟩])) = some a' ∧
      a'.shapes = [] ++ [⟨[⟨1, 1⟩, ⟨2, 2⟩, ⟨3, 3⟩], "#000000", 2⟩] :=
  (C17_style_fixed_at_gesture_start [] (initWasmDrawing : DrawingApp Int) rfl false
    ⟨1, 1⟩ ⟨3, 3⟩ strokeWithStyleChange (by decide)).1.imp (fun _ h => ⟨h.1, h.2.1⟩)

/-- C18: in every state with a gesture in progress and a mode other than `"draw"`, a mouse
move or touch move returns the state unchanged (`current`, `startPoint`, `shapes`, `history`,
`historyIndex`, `isDrawing` and the session settings).  The canvas operations it performs are
those of `render` (clear, grid, and the committed shapes, whatever `current` holds) followed by
the stroke of exactly one polyline, the preview: the session colour and width are set, the path
is begun at the first point of `createShapePoints(startPoint, pos)`, a line is drawn to each of
its further points (there is at least one), and the path is stroked.  Nothing is drawn for
`current`. -/
theorem C18_parametric_move_previews_only [GoFloat F] (a : DrawingApp F) (pos : Point F)
    (hactive : a.isDrawing = true) (hmode : a.mode ≠ "draw") :
    handleMouseMove a pos = a ∧ handleTouchMove a pos = a ∧
    handleMouseMoveOps a pos = render a ++
      drawShape { Points := createShapePoints a a.startPoint pos
                  Color := a.color
                  Width := a.lineWidth } ∧
    handleTouchMoveOps a pos = render a ++
      drawShape { Points := createShapePoints a a.startPoint pos
                  Color := a.color
                  Width := a.lineWidth } ∧
    (∀ c : Shape F, render { a with current := c } = render a) ∧
    render a =
      [CanvasOp.Set "fillStyle" (JsArg.str "#ffffff"),
       CanvasOp.Call "fillRect" [JsArg.int 0, JsArg.int 0, JsArg.int 800, JsArg.int 600]] ++
      drawGrid ++ (a.shapes.map drawShape).flatten ∧
    ∃ (p0 : Point F) (rest : List (Point F)),
      createShapePoints a a.startPoint pos = p0 :: rest ∧ rest ≠ [] ∧
      handleMouseMoveOps a pos = render a ++
        ([CanvasOp.Set "strokeStyle" (JsArg.str a.color),
          CanvasOp.Set "lineWidth" (JsArg.num a.lineWidth),
          CanvasOp.Set "lineCap" (JsArg.str "round"),
          CanvasOp.Set "lineJoin" (JsArg.str "round"),
          CanvasOp.Call "beginPath" [],
          CanvasOp.Call "moveTo" [JsArg.num p0.X, JsArg.num p0.Y]] ++
         rest.map (fun p => CanvasOp.Call "lineTo" [JsArg.num p.X, JsArg.num p.Y]) ++
         [CanvasOp.Call "stroke" []]) ∧
      handleTouchMoveOps a pos = handleMouseMoveOps a pos := by
  have hm : handleMouseMoveOps a pos = render a ++
      drawShape { Points := createShapePoints a a.startPoint pos
                  Color := a.color
                  Width := a.lineWidth } := by
    simp [handleMouseMoveOps, hactive, hmode, drawPreview]
  have ht : handleTouchMoveOps a pos = render a ++
      drawShape { Points := createShapePoints a a.startPoint pos
                  Color := a.color
                  Width := a.lineWidth } := by
    simp [handleTouchMoveOps, hactive, hmode, drawPreview]
  refine ⟨?_, ?_, hm, ht, fun _ => rfl, render_eq a, ?_⟩
  · simp [handleMouseMove, hactive, hmode]
  · simp [handleTouchMove, hactive, hmode]
  · obtain ⟨p0, p1, rest, hc⟩ := createShapePoints_two a a.startPoint pos
    refine ⟨p0, p1 :: rest, hc, List.cons_ne_nil p1 rest, ?_, ?_⟩
    · rw [hm, hc, drawShape_cons]
    · rw [hm, ht]

/-- Witness of C18: a rectangle drag in progress from (0,0), moved to (4,3); the preview
stroked after the re-rendering is the outline through (4,0), (4,3), (0,3) back to (0,0). -/
theorem C18_parametric_move_previews_only_witness :
    rectDragInProgress.isDrawing = true ∧
    handleMouseMove rectDragInProgress ⟨4, 3⟩ = rectDragInProgress ∧
    handleMouseMoveOps rectDragInProgress ⟨4, 3⟩ = render rectDragInProgress ++
      ([CanvasOp.Set "strokeStyle" (JsArg.str "#000000"),
        CanvasOp.Set "lineWidth" (JsArg.num 2),
        CanvasOp.Set "lineCap" (JsArg.str "round"),
        CanvasOp.Set "lineJoin" (JsArg.str "round"),
        CanvasOp.Call "beginPath" [],
        CanvasOp.Call "moveTo" [JsArg.num 0, JsArg.num 0]] ++
       [CanvasOp.Call "lineTo" [JsArg.num 4, JsArg.num 0],
        CanvasOp.Call "lineTo" [JsArg.num 4, JsArg.num 3],
        CanvasOp.Call "lineTo" [JsArg.num 0, JsArg.num 3],
        CanvasOp.Call "lineTo" [JsArg.num 0, JsArg.num 0]] ++
       [CanvasOp.Call "stroke" []]) := by
  obtain ⟨h1, _, _, _, _, _, p0, rest, hc, _, hops, _⟩ :=
    C18_parametric_move_previews_only rectDragInProgress ⟨4, 3⟩ rfl (by decide)
  have e : createShapePoints rectDragInProgress rectDragInProgress.startPoint ⟨4, 3⟩ =
      [⟨0, 0⟩, ⟨4, 0⟩, ⟨4, 3⟩, ⟨0, 3⟩, ⟨0, 0⟩] := rfl
  rw [e] at hc
  injection hc with hp hr
  subst hp hr
  exact ⟨rfl, h1, hops⟩

/-- C19: in every state with no gesture in progress (`isDrawing = false`) and for every
position, a mouse move, touch move, mouse up and touch end return the state unchanged (every
field) without failing, and the move handlers draw nothing.  Every end event leaves
`isDrawing = false`, so an end event that follows another end event changes nothing: no shape
is committed twice. -/
theorem C19_idle_ignores_move_and_end [GoFloat F] (a : DrawingApp F) (pos : Point F)
    (hidle : a.isDrawing = false) :
    handleMouseMove a pos = a ∧ handleTouchMove a pos = a ∧
    handleMouseUp a pos = some a ∧ handleTouchEnd a = some a ∧
    handleMouseMoveOps a pos = [] ∧ handleTouchMoveOps a pos = [] ∧
    ∀ (b b' : DrawingApp F) (q q' : Point F),
      (handleMouseUp b q = some b' ∨ handleTouchEnd b = some b') →
      handleMouseUp b' q' = some b' ∧ handleTouchEnd b' = some b' := by
  have key : ∀ x : DrawingApp F, x.isDrawing = false →
      handleMouseUp x pos = some x ∧ handleTouchEnd x = some x := by
    intro x hx
    constructor
    · simp [handleMouseUp, hx]
    · simp [handleTouchEnd, hx]
  have key2 : ∀ (x : DrawingApp F) (p : Point F), x.isDrawing = false →
      handleMouseUp x p = some x := by
    intro x p hx
    simp [handleMouseUp, hx]
  refine ⟨?_, ?_, (key a hidle).1, (key a hidle).2, ?_, ?_, ?_⟩
  · simp [handleMouseMove, hidle]
  · simp [handleTouchMove, hidle]
  · simp [handleMouseMoveOps, hidle]
  · simp [handleTouchMoveOps, hidle]
  · intro b b' q q' h
    have hb : b'.isDrawing = false := by
      rcases h with h | h
      · unfold handleMouseUp at h
        by_cases hd : b.isDrawing = true
        · simp only [hd, Bool.not_true, Bool.false_eq_true, if_false] at h
          rw [saveState_isDrawing _ _ h]
        · simp only [hd, Bool.not_eq_true, Bool.not_false, if_true] at h
          cases h
          simpa using hd
      · unfold handleTouchEnd at h
        by_cases hd : b.isDrawing = true
        · simp only [hd, Bool.not_true, Bool.false_eq_true, if_false] at h
          rw [saveState_isDrawing _ _ h]
        · simp only [hd, Bool.not_eq_true, Bool.not_false, if_true] at h
          cases h
          simpa using hd
    exact ⟨key2 b' q' hb, (key b' hb).2⟩

/-- Witness of C19 on the initial state. -/
theorem C19_idle_ignores_move_and_end_witness :
    (initWasmDrawing : DrawingApp Int).isDrawing = false ∧
    handleMouseUp (initWasmDrawing : DrawingApp Int) ⟨7, 7⟩ = some initWasmDrawing :=
  ⟨rfl, (C19_idle_ignores_move_and_end (initWasmDrawing : DrawingApp Int) ⟨7, 7⟩ rfl).2.2.1⟩

/-- C20: from the state built by `initWasmDrawing`, one complete gesture (mouse or touch, any
positions) returns a state whose `history` is the single snapshot of the one committed shape,
with `historyIndex = 0`; the empty canvas is not an entry of it, and `undo` then returns the
state unchanged, the committed shape still in `shapes`. -/
theorem C20_first_edit_cannot_be_undone [GoFloat F] (touch : Bool) (p0 : Point F)
    (ps : List (Point F)) (q : Point F) :
    ∃ a' : DrawingApp F,
      run (initWasmDrawing : DrawingApp F) (gesture touch p0 ps q) = some a' ∧
      a'.shapes = [{ Points := p0 :: ps, Color := "#000000", Width := GoFloat.ofInt 2 }] ∧
      a'.history = [a'.shapes] ∧ a'.history.length = 1 ∧ a'.historyIndex = 0 ∧
      [] ∉ a'.history ∧ undo a' = some a' := by
  refine ⟨{ (initWasmDrawing : DrawingApp F) with
      startPoint := p0
      current := { Points := p0 :: ps, Color := "#000000", Width := GoFloat.ofInt 2 }
      shapes := [{ Points := p0 :: ps, Color := "#000000", Width := GoFloat.ofInt 2 }]
      history := [[{ Points := p0 :: ps, Color := "#000000", Width := GoFloat.ofInt 2 }]]
      historyIndex := 0 }, ?_, rfl, rfl, rfl, rfl, ?_, ?_⟩
  · rw [run_gesture]
    simp [saveState, initWasmDrawing, committedShape]
  · simp
  · simp [undo]

end Claims

end WasmWebgl
